import Mathlib

/-!
# Budget chat hub (src/03/hub.go)

A shallow embedding of the chat-room coordinator: the name validator, the
registration handshake, the reader task, the consumer loop and the broadcast
helper, together with an interleaving model of the goroutines that share the
hub.

Conventions of the embedding.

* A Go `string` is a Lean `String`; `for _, r := range s` visits `s.data`.
* A `*Client` is its identity, a natural number.  What a connection answers is
  not decided by the hub: the outcome of `Send` is read from a `Net`, and the
  outcomes of `Receive` are handed to the function that performs the call.
* `map[string]*Client` is an association list with pairwise distinct keys.
  `range` visits the entries in list order; Go leaves that order unspecified,
  and every statement below is made for an arbitrary list.
* The buffered channel `events` is the list of the events it holds, oldest
  first.  `h.events <- e` appends: a send on a full channel blocks until the
  consumer has made room and then appends, it neither fails nor drops.  The
  capacity (100) is enforced in the interleaving model, where a blocked send is
  a step that is not enabled.
* Calls on the connection, writes to standard output and the statements that
  touch the table or the channel are recorded, in program order, in a list of
  `Effect`s; the functions also return the hub they leave behind.
-/

namespace Budgetchat

set_option linter.dupNamespace false

/-! ## Errors -/

/-- Go `error` values as the hub sees them. -/
inductive Error where
  /-- The sentinel `io.EOF`. -/
  | EOF : Error
  /-- The value of `errors.New(text)`; also any error produced by the connection. -/
  | New (text : String) : Error
  /-- The value of `fmt.Errorf(pfx + ": %w", inner)`. -/
  | Wrap (pfx : String) (inner : Error) : Error
  deriving DecidableEq, Repr

namespace Error

/-- The method `Error()`: the message of an error. -/
def Error : Budgetchat.Error → String
  | EOF => "EOF"
  | New text => text
  | Wrap pfx inner => pfx ++ ": " ++ inner.Error

/-- The function `errors.Is(err, io.EOF)`: follows the `%w` chain. -/
def IsEOF : Budgetchat.Error → Bool
  | EOF => true
  | New _ => false
  | Wrap _ inner => inner.IsEOF

end Error

/-! ## Data model -/

/-- Identity of a `*Client`. -/
abbrev Client := Nat

inductive EventType where
  | Message : EventType
  | Join : EventType
  | Leave : EventType
  | Presence : EventType
  deriving DecidableEq, Repr

structure Event where
  From : String
  /-- The field `Type`, a reserved word here. -/
  Typ : EventType
  Message : String
  deriving DecidableEq, Repr

/-- What a function of the hub does, in program order: its calls on the
connections, its writes to standard output, and its statements on the two
fields of the hub. -/
inductive Effect where
  /-- A call `client.Send(msg)`: one write of `msg` followed by a newline. -/
  | Send (client : Client) (msg : String) : Effect
  /-- A call `client.Close()`. -/
  | Close (client : Client) : Effect
  /-- Text written to standard output by `fmt.Println` or `fmt.Printf`. -/
  | Print (text : String) : Effect
  /-- The statement `go h.handleClient(name, client)`. -/
  | Go (name : String) (client : Client) : Effect
  /-- The statement `h.clients[name] = client`, under the write lock. -/
  | Insert (name : String) (client : Client) : Effect
  /-- The statement `delete(h.clients, name)`, under the write lock. -/
  | Delete (name : String) : Effect
  /-- The statement `h.events <- event`. -/
  | Enqueue (event : Event) : Effect
  deriving DecidableEq, Repr

/-- The answers of the connections: `Send client msg` is the error returned by
`client.Send(msg)`, `none` for `nil`. -/
structure Net where
  Send : Client → String → Option Error

/-- The type `map[string]*Client`. -/
abbrev Table := List (String × Client)

namespace Table

/-- The keys, in iteration order. -/
def keys (t : Table) : List String := t.map Prod.fst

/-- The expression `t[name]`; `none` is the nil pointer of a missing key. -/
def get? : Table → String → Option Client
  | [], _ => none
  | (n, c) :: rest, name => if n = name then some c else get? rest name

/-- The statement `t[name] = client`. -/
def set : Table → String → Client → Table
  | [], name, client => [(name, client)]
  | (n, c) :: rest, name, client =>
      if n = name then (name, client) :: rest else (n, c) :: set rest name client

/-- The statement `delete(t, name)`. -/
def delete (t : Table) (name : String) : Table :=
  t.filter (fun e => decide (e.1 ≠ name))

/-- A Go map holds every key once. -/
def WF (t : Table) : Prop := t.keys.Nodup

/-- Every member has a transport of its own. -/
def Exclusive (t : Table) : Prop := (t.map Prod.snd).Nodup

instance (t : Table) : Decidable t.WF := inferInstanceAs (Decidable (List.Nodup _))

instance (t : Table) : Decidable t.Exclusive := inferInstanceAs (Decidable (List.Nodup _))

end Table

structure Hub where
  clients : Table
  events : List Event
  deriving DecidableEq, Repr

def greetingPhrase : String := "Welcome to budgetchat! What shall I call you?"

/-- The capacity of the channel made by `NewHub`. -/
def eventsCap : Nat := 100

def NewHub : Hub := { clients := [], events := [] }

/-! ## validateName -/

/-- The condition of the `if` in the loop of `validateName`, without the
negation. -/
def isAlnumRune (r : Char) : Bool :=
  (decide (r ≥ 'a') && decide (r ≤ 'z')) || (decide (r ≥ 'A') && decide (r ≤ 'Z'))
    || (decide (r ≥ '0') && decide (r ≤ '9'))

def errEmptyName : Error := Error.New "name must contains at least 1 character"

def errInvalidCharacter : Error :=
  Error.New "name must contain only alphanumeric characters"

/-- The loop of `validateName`: returns at the first rune outside the ranges. -/
def validateRunes : List Char → Option Error
  | [] => none
  | r :: rest => if !isAlnumRune r then some errInvalidCharacter else validateRunes rest

def validateName (name : String) : Option Error :=
  if name.utf8ByteSize = 0 then some errEmptyName
  else validateRunes name.data

/-! ## broadcast and the consumer -/

/-- The loop of `broadcast` over the entries of the table. -/
def broadcastLoop (net : Net) (source msg : String) : Table → List Effect
  | [] => []
  | (name, client) :: rest =>
      if name = source then broadcastLoop net source msg rest
      else
        match net.Send client msg with
        | some err =>
            Effect.Send client msg
              :: Effect.Print ("failed to send message: " ++ err.Error ++ "\n")
              :: broadcastLoop net source msg rest
        | none => Effect.Send client msg :: broadcastLoop net source msg rest

/-- The method `broadcast`: it returns nothing; the hub is handed back to show
what it leaves behind. -/
def broadcast (net : Net) (h : Hub) (source msg : String) : Hub × List Effect :=
  (h, broadcastLoop net source msg h.clients)

/-- The method `allClientNames`. -/
def allClientNames (h : Hub) : List String := h.clients.keys

/-- The loop of the Presence case: drops the first entry equal to `source`. -/
def removeName (source : String) : List String → List String
  | [] => []
  | name :: rest => if name = source then rest else name :: removeName source rest

/-- The function `strings.Join(names, sep)`. -/
def stringsJoin (names : List String) (sep : String) : String :=
  sep.intercalate names

/-- The body of the loop of `Run` for one dequeued event.  `none` is the
panic of calling `Send` on the nil pointer that a missing key yields. -/
def RunEvent (net : Net) (h : Hub) (event : Event) : Option (Hub × List Effect) :=
  match event.Typ with
  | EventType.Message =>
      let msg := "[" ++ event.From ++ "] " ++ event.Message
      let r := broadcast net h event.From msg
      some (r.1, r.2 ++ [Effect.Print (msg ++ "\n")])
  | EventType.Join =>
      let msg := "* " ++ event.From ++ " has entered the room"
      let r := broadcast net h event.From msg
      some (r.1, r.2 ++ [Effect.Print (msg ++ "\n")])
  | EventType.Leave =>
      let msg := "* " ++ event.From ++ " has left the room"
      let r := broadcast net h event.From msg
      some (r.1, r.2)
  | EventType.Presence =>
      let names := removeName event.From (allClientNames h)
      let msg := "* The room contains: " ++ stringsJoin names ", "
      match h.clients.get? event.From with
      | none => none
      | some client =>
          match net.Send client msg with
          | some err =>
              some (h, [Effect.Send client msg,
                Effect.Print ("failed to send message: " ++ err.Error ++ "\n"),
                Effect.Print (msg ++ "\n")])
          | none => some (h, [Effect.Send client msg, Effect.Print (msg ++ "\n")])

/-- The loop of `Run` over the events that are in the channel: it handles them
oldest first and then waits for more.  `none` is a panic. -/
def RunQueue (net : Net) (clients : Table) : List Event → Option (Table × List Effect)
  | [] => some (clients, [])
  | event :: rest =>
      match RunEvent net { clients := clients, events := rest } event with
      | none => none
      | some (h, out) =>
          match RunQueue net h.clients rest with
          | none => none
          | some (t, more) => some (t, out ++ more)

/-- The method `Run`, up to the point where the channel is empty. -/
def Run (net : Net) (h : Hub) : Option (Hub × List Effect) :=
  match RunQueue net h.clients h.events with
  | none => none
  | some (t, out) => some ({ clients := t, events := [] }, out)

/-! ## Register -/

def joinEvent (name : String) : Event :=
  { From := name, Typ := EventType.Join, Message := "" }

def presenceEvent (name : String) : Event :=
  { From := name, Typ := EventType.Presence, Message := "" }

def leaveEvent (name : String) : Event :=
  { From := name, Typ := EventType.Leave, Message := "" }

def messageEvent (name msg : String) : Event :=
  { From := name, Typ := EventType.Message, Message := msg }

/-- Lines 44 to 60 of `Register`: the greeting, the read of the name and its
validation.  `received` is the outcome of the one `Receive` call.  The result
is the accepted name, or the error that `Register` returns. -/
def handshake (net : Net) (client : Client) (received : Except Error String) :
    Except Error String × List Effect :=
  match net.Send client greetingPhrase with
  | some err =>
      (Except.error (Error.Wrap "failed to send greeting" err),
        [Effect.Send client greetingPhrase])
  | none =>
      match received with
      | Except.error err =>
          (Except.error (Error.Wrap "failed to read name" err),
            [Effect.Send client greetingPhrase])
      | Except.ok name =>
          match validateName name with
          | some err =>
              let line := "failed to register: " ++ err.Error
              match net.Send client line with
              | some err2 =>
                  (Except.error (Error.Wrap "failed to send error message" err2),
                    [Effect.Send client greetingPhrase, Effect.Send client line,
                      Effect.Close client])
              | none =>
                  (Except.error err,
                    [Effect.Send client greetingPhrase, Effect.Send client line,
                      Effect.Close client])
          | none => (Except.ok name, [Effect.Send client greetingPhrase])

/-- The method `Register`.  The first component is the returned error, `none`
for `nil`. -/
def Register (net : Net) (h : Hub) (client : Client) (received : Except Error String) :
    Option Error × Hub × List Effect :=
  match handshake net client received with
  | (Except.error err, out) => (some err, h, out)
  | (Except.ok name, out) =>
      let h1 : Hub := { h with clients := h.clients.set name client }
      let h2 : Hub := { h1 with events := h1.events ++ [joinEvent name] }
      let h3 : Hub := { h2 with events := h2.events ++ [presenceEvent name] }
      (none, h3, out ++ [Effect.Insert name client, Effect.Enqueue (joinEvent name),
        Effect.Enqueue (presenceEvent name), Effect.Go name client])

/-! ## handleClient -/

/-- The method `handleClient`, run on the outcomes of its successive `Receive`
calls.  The first component tells whether the task has returned; it has not
when the outcomes end without an error, the task then waits in `Receive`. -/
def handleClient (name : String) (client : Client) :
    Hub → List (Except Error String) → Bool × Hub × List Effect
  | h, [] => (false, h, [])
  | h, Except.ok msg :: rest =>
      let r := handleClient name client
        { h with events := h.events ++ [messageEvent name msg] } rest
      (r.1, r.2.1, Effect.Enqueue (messageEvent name msg) :: r.2.2)
  | h, Except.error err :: _ =>
      let log :=
        if err.IsEOF then []
        else [Effect.Print ("failed to read message: " ++ err.Error ++ "\n")]
      let h1 : Hub := { h with clients := h.clients.delete name }
      let h2 : Hub := { h1 with events := h1.events ++ [leaveEvent name] }
      (true, h2, log ++ [Effect.Delete name, Effect.Enqueue (leaveEvent name)])

/-! ## The goroutines that share the hub

The accept loop starts one `Register` call per connection, each on a client of
its own; a successful call turns into the reader task of that client.  `Run` is
the only consumer.  A step is one statement on the hub: the statements of a
task run in program order and the tasks interleave freely. -/

/-- Where a connection task stands after its name has been inserted. -/
inductive Pc where
  /-- In `Register`, before `h.events <- Join` (line 66). -/
  | Join : Pc
  /-- In `Register`, before `h.events <- Presence` (line 71). -/
  | Presence : Pc
  /-- In `Register`, before `go h.handleClient` (line 76). -/
  | Spawn : Pc
  /-- In `handleClient`, waiting in `Receive` (line 145). -/
  | Receive : Pc
  /-- In `handleClient`, before `h.events <- Message` (line 154). -/
  | Message (msg : String) : Pc
  /-- In the deferred function, the name deleted, before `h.events <- Leave`
  (line 138). -/
  | Leave : Pc
  /-- Returned. -/
  | Done : Pc
  deriving DecidableEq, Repr

structure Task where
  name : String
  client : Client
  pc : Pc
  deriving DecidableEq, Repr

structure System where
  hub : Hub
  tasks : List Task
  /-- The number of connections accepted so far: the identity of the next client. -/
  accepted : Nat
  /-- Everything done so far, oldest first. -/
  out : List Effect
  /-- The consumer has panicked: the process is gone. -/
  panicked : Bool
  deriving DecidableEq, Repr

inductive Action where
  /-- A new connection runs `Register` up to and including the insertion of its
  name (lines 44 to 64); `received` is the outcome of its `Receive`. -/
  | Connect (received : Except Error String) : Action
  /-- Task `i` performs its next statement, a channel send or the `go`. -/
  | Step (i : Nat) : Action
  /-- The `Receive` of reader task `i` returns `received`; on an error the task
  leaves its loop and the deferred function deletes the name (lines 146 to 136). -/
  | Receive (i : Nat) (received : Except Error String) : Action
  /-- The consumer takes the oldest event and handles it (one turn of `Run`). -/
  | Consume : Action

def initial : System :=
  { hub := NewHub, tasks := [], accepted := 0, out := [], panicked := false }

/-- The statement `h.events <- event` of task `i`, which then stands at `pc`; it
is enabled while the channel holds fewer than `eventsCap` events. -/
def System.send (s : System) (i : Nat) (t : Task) (event : Event) (pc : Pc) :
    Option System :=
  if s.hub.events.length < eventsCap then
    some { s with
      hub := { s.hub with events := s.hub.events ++ [event] }
      tasks := s.tasks.set i { t with pc := pc }
      out := s.out ++ [Effect.Enqueue event] }
  else none

/-- One step of the system; `none` when the action is not enabled. -/
def exec (net : Net) (s : System) : Action → Option System
  | Action.Connect received =>
      if s.panicked then none
      else
        match handshake net s.accepted received with
        | (Except.error _, out) =>
            some { s with accepted := s.accepted + 1, out := s.out ++ out }
        | (Except.ok name, out) =>
            some { s with
              hub := { s.hub with clients := s.hub.clients.set name s.accepted }
              tasks := s.tasks ++ [{ name := name, client := s.accepted, pc := Pc.Join }]
              accepted := s.accepted + 1
              out := s.out ++ out ++ [Effect.Insert name s.accepted] }
  | Action.Step i =>
      if s.panicked then none
      else
        match s.tasks[i]? with
        | none => none
        | some t =>
            match t.pc with
            | Pc.Join => s.send i t (joinEvent t.name) Pc.Presence
            | Pc.Presence => s.send i t (presenceEvent t.name) Pc.Spawn
            | Pc.Spawn =>
                some { s with
                  tasks := s.tasks.set i { t with pc := Pc.Receive }
                  out := s.out ++ [Effect.Go t.name t.client] }
            | Pc.Message msg => s.send i t (messageEvent t.name msg) Pc.Receive
            | Pc.Leave => s.send i t (leaveEvent t.name) Pc.Done
            | Pc.Receive => none
            | Pc.Done => none
  | Action.Receive i received =>
      if s.panicked then none
      else
        match s.tasks[i]? with
        | none => none
        | some t =>
            match t.pc with
            | Pc.Receive =>
                match received with
                | Except.ok msg =>
                    some { s with tasks := s.tasks.set i { t with pc := Pc.Message msg } }
                | Except.error err =>
                    let log :=
                      if err.IsEOF then []
                      else [Effect.Print ("failed to read message: " ++ err.Error ++ "\n")]
                    some { s with
                      hub := { s.hub with clients := s.hub.clients.delete t.name }
                      tasks := s.tasks.set i { t with pc := Pc.Leave }
                      out := s.out ++ log ++ [Effect.Delete t.name] }
            | _ => none
  | Action.Consume =>
      if s.panicked then none
      else
        match s.hub.events with
        | [] => none
        | event :: rest =>
            match RunEvent net { s.hub with events := rest } event with
            | none => some { s with hub := { s.hub with events := rest }, panicked := true }
            | some (h, out) => some { s with hub := h, out := s.out ++ out }

/-- The system after a schedule, when every action of it is enabled in turn. -/
def run (net : Net) : System → List Action → Option System
  | s, [] => some s
  | s, a :: rest =>
      match exec net s a with
      | none => none
      | some s1 => run net s1 rest

/-- The names that the `Register` calls of a schedule insert into the table, in
order; `accepted` is the number of connections accepted before the schedule. -/
def registeredNames (net : Net) : Nat → List Action → List String
  | _, [] => []
  | accepted, Action.Connect received :: rest =>
      match handshake net accepted received with
      | (Except.ok name, _) => name :: registeredNames net (accepted + 1) rest
      | (Except.error _, _) => registeredNames net (accepted + 1) rest
  | accepted, Action.Step _ :: rest => registeredNames net accepted rest
  | accepted, Action.Receive _ _ :: rest => registeredNames net accepted rest
  | accepted, Action.Consume :: rest => registeredNames net accepted rest

/-- The actions of reader task `i` that receives `lines` and then the error
`err`, each `Receive` followed by the channel send it leads to. -/
def readerActions (i : Nat) : List String → Error → List Action
  | [], err => [Action.Receive i (Except.error err), Action.Step i]
  | line :: rest, err =>
      Action.Receive i (Except.ok line) :: Action.Step i :: readerActions i rest err

/-- A client registers as `x` and disconnects before the consumer has taken
its Join and Presence events. -/
def quickLeaveSchedule : List Action :=
  [Action.Connect (Except.ok "x"), Action.Step 0, Action.Step 0, Action.Step 0,
    Action.Receive 0 (Except.error Error.EOF)]

/-- A client registers as `x`, is announced, and disconnects; a second client
registers as `x` before the consumer has taken the Leave event of the first. -/
def nameReuseSchedule : List Action :=
  [Action.Connect (Except.ok "x"), Action.Step 0, Action.Step 0, Action.Step 0,
    Action.Consume, Action.Consume, Action.Receive 0 (Except.error Error.EOF),
    Action.Step 0, Action.Connect (Except.ok "x")]

/-- The number of connections an action accepts. -/
def Action.accepts : Action → Nat
  | Action.Connect _ => 1
  | _ => 0

/-- The invariant behind the Leave events of one name `M`, where `n` counts the
insertions of `M` so far: before the first insertion nothing mentions `M`; a
Leave event of `M` in the channel, or a task of `M` that stands before its
Leave send, means that `M` is not a key. -/
def LeaveSafe (M : String) (n : Nat) (s : System) : Prop :=
  (n = 0 → M ∉ s.hub.clients.keys ∧ (∀ t ∈ s.tasks, t.name ≠ M) ∧
    (∀ e ∈ s.hub.events, e.From ≠ M)) ∧
  (∀ e ∈ s.hub.events, e.Typ = EventType.Leave → e.From = M → M ∉ s.hub.clients.keys) ∧
  (∀ t ∈ s.tasks, t.name = M → t.pc = Pc.Leave → M ∉ s.hub.clients.keys)

/-- The tables that the system builds: every key once, a transport of its own
for every member, every transport that of an accepted connection. -/
def TableOk (s : System) : Prop :=
  s.hub.clients.WF ∧ s.hub.clients.Exclusive ∧
    ∀ c ∈ s.hub.clients.map Prod.snd, c < s.accepted

/-! ## Observations and the grammar of names -/

/-- The `Send` calls of a run, in order: the client and the line. -/
def sendsOf : List Effect → List (Client × String)
  | [] => []
  | Effect.Send client msg :: rest => (client, msg) :: sendsOf rest
  | _ :: rest => sendsOf rest

/-- The lines passed to `Send` on one client, in order. -/
def sendsTo (client : Client) (out : List Effect) : List String :=
  ((sendsOf out).filter (fun p => decide (p.1 = client))).map Prod.snd

/-- The statements of a run on the table and on the channel, in order. -/
def hubOps : List Effect → List Effect
  | [] => []
  | Effect.Insert name client :: rest => Effect.Insert name client :: hubOps rest
  | Effect.Delete name :: rest => Effect.Delete name :: hubOps rest
  | Effect.Enqueue event :: rest => Effect.Enqueue event :: hubOps rest
  | _ :: rest => hubOps rest

/-- The transports of the members other than `source`, in iteration order. -/
def recipients (t : Table) (source : String) : List Client :=
  (t.filter (fun e => decide (e.1 ≠ source))).map Prod.snd

/-- A character of the class `[A-Za-z0-9]`, by code point. -/
def AsciiAlnum (c : Char) : Prop :=
  (48 ≤ c.toNat ∧ c.toNat ≤ 57) ∨ (65 ≤ c.toNat ∧ c.toNat ≤ 90)
    ∨ (97 ≤ c.toNat ∧ c.toNat ≤ 122)

/-- The name grammar of the specification, `^[A-Za-z0-9]+$`: at least one
character, every character of the class. -/
def MatchesNameGrammar (name : String) : Prop :=
  name.data ≠ [] ∧ ∀ c ∈ name.data, AsciiAlnum c

/-- A network on which every `Send` succeeds. -/
def quietNet : Net := { Send := fun _ _ => none }

/-- A network on which every `Send` to client 1 fails. -/
def lossyNet : Net :=
  { Send := fun client _ => if client = 1 then some (Error.New "broken pipe") else none }

/-- A network on which the greeting is written and every later `Send` fails. -/
def greetOnlyNet : Net :=
  { Send := fun _ msg => if msg = greetingPhrase then none else some (Error.New "broken pipe") }

/-- A room of three members. -/
def roomOfThree : Hub :=
  { clients := [("bob", 0), ("alice", 1), ("carol", 2)], events := [] }

/-! ## The end-to-end scenario -/

/-- The error that `Client.receive` returns at the end of the stream:
`fmt.Errorf("failed to read: %w", io.EOF)`. -/
def streamEnd : Error := Error.Wrap "failed to read" Error.EOF

/-- Client 0 connects and sends `bob`; the consumer handles all that is queued. -/
def scenarioBob : List Action :=
  [Action.Connect (Except.ok "bob"), Action.Step 0, Action.Step 0, Action.Step 0,
    Action.Consume, Action.Consume]

/-- Then client 1 connects and sends `alice`; the consumer handles all that
is queued. -/
def scenarioAlice : List Action :=
  scenarioBob ++ [Action.Connect (Except.ok "alice"), Action.Step 1, Action.Step 1,
    Action.Step 1, Action.Consume, Action.Consume]

/-- Then client 0 sends the line `hello`; the consumer handles it. -/
def scenarioHello : List Action :=
  scenarioAlice ++ [Action.Receive 0 (Except.ok "hello"), Action.Step 0, Action.Consume]

/-- Then the stream of client 0 ends; the consumer handles the Leave event. -/
def scenarioLeave : List Action :=
  scenarioHello ++ [Action.Receive 0 (Except.error streamEnd), Action.Step 0, Action.Consume]

/-- What a state shows of the scenario: the lines sent to client 0, the lines
sent to client 1, the table and the channel. -/
def scenarioView (s : System) : List String × List String × Table × List Event :=
  (sendsTo 0 s.out, sendsTo 1 s.out, s.hub.clients, s.hub.events)

/-! ## The transport (src/03/client.go)

The connection is the list of what its successive `Read` calls return, as text,
followed by the end of the stream. -/

/-- The function `unicode.IsSpace`, which `bytes.TrimSpace` applies. -/
def isSpace (c : Char) : Bool :=
  (decide (9 ≤ c.toNat) && decide (c.toNat ≤ 13)) || decide (c.toNat = 32)
    || decide (c.toNat = 0x85) || decide (c.toNat = 0xA0) || decide (c.toNat = 0x1680)
    || (decide (0x2000 ≤ c.toNat) && decide (c.toNat ≤ 0x200a))
    || decide (c.toNat = 0x2028) || decide (c.toNat = 0x2029) || decide (c.toNat = 0x202f)
    || decide (c.toNat = 0x205f) || decide (c.toNat = 0x3000)

/-- The function `bytes.TrimSpace`. -/
def trimSpace (cs : List Char) : List Char :=
  ((cs.dropWhile isSpace).reverse.dropWhile isSpace).reverse

/-- The search of the buffer for the delimiter: the text up to and including
the first newline, and the text after it. -/
def cutAtNewline : List Char → Option (List Char × List Char)
  | [] => none
  | c :: rest =>
      if c = '\n' then some ([c], rest)
      else
        match cutAtNewline rest with
        | none => none
        | some (line, after) => some (c :: line, after)

/-- The call `bufio.NewReader(c.conn).ReadBytes('\n')`: the new reader fills
its buffer by one `Read` after another until the buffer holds a newline, and
returns the text up to and including it.  What the last `Read` brought after
the newline stays in the buffer of the reader, and the reader is dropped when
the call returns.  At the end of the stream the call returns `io.EOF`.  The
second component is what the connection still has to deliver. -/
def readBytes (acc : List Char) : List String → Except Error (List Char) × List String
  | [] => (Except.error Error.EOF, [])
  | chunk :: rest =>
      match cutAtNewline chunk.data with
      | some (line, _) => (Except.ok (acc ++ line), rest)
      | none => readBytes (acc ++ chunk.data) rest

/-- The method `Client.receive`. -/
def receive (reads : List String) : Except Error String × List String :=
  match readBytes [] reads with
  | (Except.error err, rest) => (Except.error (Error.Wrap "failed to read" err), rest)
  | (Except.ok msg, rest) => (Except.ok (String.mk (trimSpace msg)), rest)

/-- The method `Client.Receive`. -/
def Receive (reads : List String) : Except Error String × List String :=
  receive reads

/-- The newline-terminated lines of a stream, each without its newline; what
follows the last newline is not a line. -/
def streamLines (acc : List Char) : List Char → List (List Char)
  | [] => []
  | c :: rest => if c = '\n' then acc :: streamLines [] rest else streamLines (acc ++ [c]) rest

instance decEqExcept {ε α : Type} [DecidableEq ε] [DecidableEq α] : DecidableEq (Except ε α)
  | Except.ok a, Except.ok b =>
      if h : a = b then isTrue (by rw [h]) else isFalse (fun h2 => h (Except.ok.inj h2))
  | Except.error a, Except.error b =>
      if h : a = b then isTrue (by rw [h]) else isFalse (fun h2 => h (Except.error.inj h2))
  | Except.ok _, Except.error _ => isFalse (fun h => Except.noConfusion h)
  | Except.error _, Except.ok _ => isFalse (fun h => Except.noConfusion h)

/-! ## The order of the notifications -/

/-- The events of the `h.events <- event` statements of a log, in order. -/
def enqueuedOf : List Effect → List Event
  | [] => []
  | Effect.Enqueue event :: rest => event :: enqueuedOf rest
  | _ :: rest => enqueuedOf rest

/-- The turns of the consumer along a schedule, in order: the event that it
took from the channel and the table at that moment. -/
def turns (net : Net) : System → List Action → List (Event × Table)
  | _, [] => []
  | s, a :: rest =>
      match exec net s a with
      | none => []
      | some s1 =>
          match a, s.hub.events with
          | Action.Consume, event :: _ => (event, s.hub.clients) :: turns net s1 rest
          | _, _ => turns net s1 rest

/-- The lines that the consumer sends to one client in one turn. -/
def turnSends (net : Net) (client : Client) (turn : Event × Table) : List String :=
  match RunEvent net { clients := turn.2, events := [] } turn.1 with
  | none => []
  | some (_, out) => sendsTo client out

/-- The state that a schedule leads to from `NewHub()`. -/
def stateAfter (net : Net) (acts : List Action) : System :=
  (run net initial acts).getD initial

/-- Both clients of the scenario are registered and client 0 has sent the
line `hello`, which its reader task is about to enqueue. -/
def fifoFirst : List Action :=
  scenarioAlice ++ [Action.Receive 0 (Except.ok "hello")]

/-- The reader task has enqueued `hello` and received `again`; the consumer
has not taken `hello` yet. -/
def fifoSecond : List Action := [Action.Receive 0 (Except.ok "again")]

/-- The reader task has enqueued `again`; the consumer takes both events. -/
def fifoThird : List Action := [Action.Consume, Action.Consume]

/-! ## The table along the log -/

/-- Whether `M` is a key of the table after the insertions and deletions of a
log, `before` telling whether it was one at the start of the log: the last
`Insert` or `Delete` of `M`, if there is one, decides. -/
def keyAfter (M : String) : Bool → List Effect → Bool
  | before, [] => before
  | before, Effect.Insert name _ :: rest =>
      keyAfter M (if name = M then true else before) rest
  | before, Effect.Delete name :: rest =>
      keyAfter M (if name = M then false else before) rest
  | before, _ :: rest => keyAfter M before rest

/-- After the scenario of `bob` and `alice`, `bob` disconnects and his Leave
event is handled; a second client registers as `bob` and is announced, and its
reader task waits in `Receive`. -/
def reuseFirst : List Action :=
  scenarioAlice ++ [Action.Receive 0 (Except.error streamEnd), Action.Step 0, Action.Consume,
    Action.Connect (Except.ok "bob"), Action.Step 2, Action.Step 2, Action.Step 2,
    Action.Consume, Action.Consume]

/-- After the stream of the second `bob` has ended, `alice` sends the line
`hi`, which her reader task is about to enqueue. -/
def reuseSecond : List Action := [Action.Receive 1 (Except.ok "hi")]

/-- After the reader task of the second `bob` has enqueued its Leave event, the
reader task of `alice` enqueues `hi`. -/
def reuseThird : List Action := [Action.Step 1]

end Budgetchat

/-!
# Means to an end (src/02/main.go)

Bytes are `Fin 256`.  An `int32` or `int64` is the integer it denotes; where
the code computes on machine words the result is reduced to the word by
`wrap32` or `wrap64`.
-/

namespace MeansToAnEnd

/-! ## Machine integers -/

abbrev Byte := Fin 256

/-- The conversion of an integer to `int32`: the integer of its low 32 bits,
read as two's complement. -/
def wrap32 (n : Int) : Int := (n + 2 ^ 31) % 2 ^ 32 - 2 ^ 31

/-- The conversion of an integer to `int64`. -/
def wrap64 (n : Int) : Int := (n + 2 ^ 63) % 2 ^ 64 - 2 ^ 63

/-- The 32 bits of an `int32`, as a natural number. -/
def bits32 (v : Int) : Nat := (v % 2 ^ 32).toNat

/-- The expression `v << k` on `int32`. -/
def shl32 (v : Int) (k : Nat) : Int := wrap32 (v * 2 ^ k)

/-- The expression `v >> k` on `int32`: the arithmetic shift. -/
def shr32 (v : Int) (k : Nat) : Int := v / 2 ^ k

/-- The expression `a | b` on `int32`. -/
def or32 (a b : Int) : Int := wrap32 (Int.ofNat (bits32 a ||| bits32 b))

/-- The conversion `int32(b)` of a byte. -/
def int32OfByte (b : Byte) : Int := Int.ofNat b.val

/-- The conversion `byte(v)` of an `int32`: its low 8 bits. -/
def byteOfInt32 (v : Int) : Byte := Fin.ofNat (v % 256).toNat

/-- The expression
`int32(b0)<<24 | int32(b1)<<16 | int32(b2)<<8 | int32(b3)` of the two
`unmarshal` methods. -/
def decodeInt32 (b0 b1 b2 b3 : Byte) : Int :=
  or32 (or32 (or32 (shl32 (int32OfByte b0) 24) (shl32 (int32OfByte b1) 16))
    (shl32 (int32OfByte b2) 8)) (int32OfByte b3)

/-! ## Messages -/

def MessageLen : Nat := 9

def MessageHeaderLen : Nat := 1

def MessagePayloadLen : Nat := MessageLen - MessageHeaderLen

/-- The byte `'I'`. -/
def MessageTypeInsert : Byte := 0x49

/-- The byte `'Q'`. -/
def MessageTypeQuery : Byte := 0x51

structure InsertMessage where
  Timestamp : Int
  Price : Int
  deriving DecidableEq, Repr

structure QueryMessage where
  MinTime : Int
  MaxTime : Int
  deriving DecidableEq, Repr

/-- The interface `Message` with its two implementations. -/
inductive Message where
  | Insert (m : InsertMessage) : Message
  | Query (m : QueryMessage) : Message
  deriving DecidableEq, Repr

/-- The errors of `ParseMessage`. -/
inductive ParseError where
  /-- The value of `fmt.Errorf("unrecognized message type: %q", t)`. -/
  | Unrecognized (t : Byte) : ParseError
  /-- The sentinel `io.ErrUnexpectedEOF`. -/
  | ErrUnexpectedEOF : ParseError
  deriving DecidableEq, Repr

/-- The method `InsertMessage.unmarshal`; the indices are within the slice
after the check of its length. -/
def InsertMessage.unmarshal (b : List Byte) : Except ParseError InsertMessage :=
  if b.length ≠ MessagePayloadLen then Except.error ParseError.ErrUnexpectedEOF
  else
    Except.ok
      { Timestamp := decodeInt32 (b.getD 0 0) (b.getD 1 0) (b.getD 2 0) (b.getD 3 0)
        Price := decodeInt32 (b.getD 4 0) (b.getD 5 0) (b.getD 6 0) (b.getD 7 0) }

/-- The method `QueryMessage.unmarshal`. -/
def QueryMessage.unmarshal (b : List Byte) : Except ParseError QueryMessage :=
  if b.length ≠ MessagePayloadLen then Except.error ParseError.ErrUnexpectedEOF
  else
    Except.ok
      { MinTime := decodeInt32 (b.getD 0 0) (b.getD 1 0) (b.getD 2 0) (b.getD 3 0)
        MaxTime := decodeInt32 (b.getD 4 0) (b.getD 5 0) (b.getD 6 0) (b.getD 7 0) }

/-- The function `ParseMessage`.  `none` is the panic of `b[0]` on an empty
slice. -/
def ParseMessage : List Byte → Option (Except ParseError Message)
  | [] => none
  | t :: payload =>
      if t = MessageTypeInsert then
        match InsertMessage.unmarshal payload with
        | Except.error err => some (Except.error err)
        | Except.ok m => some (Except.ok (Message.Insert m))
      else if t = MessageTypeQuery then
        match QueryMessage.unmarshal payload with
        | Except.error err => some (Except.error err)
        | Except.ok m => some (Except.ok (Message.Query m))
      else some (Except.error (ParseError.Unrecognized t))

/-- The function `marshalQueryMessageResponse`. -/
def marshalQueryMessageResponse (avgPrice : Int) : List Byte :=
  [byteOfInt32 (shr32 avgPrice 24), byteOfInt32 (shr32 avgPrice 16),
    byteOfInt32 (shr32 avgPrice 8), byteOfInt32 avgPrice]

/-! ## The client -/

/-- The type `map[int32]int32`, as the list of its entries. -/
abbrev Assets := List (Int × Int)

/-- The statement `assets[timestamp] = price`. -/
def Assets.set : Assets → Int → Int → Assets
  | [], timestamp, price => [(timestamp, price)]
  | (t, p) :: rest, timestamp, price =>
      if t = timestamp then (timestamp, price) :: rest
      else (t, p) :: Assets.set rest timestamp price

/-- The expression `assets[timestamp]` with its presence flag. -/
def Assets.get? : Assets → Int → Option Int
  | [], _ => none
  | (t, p) :: rest, timestamp => if t = timestamp then some p else Assets.get? rest timestamp

structure Client where
  ipAddr : String
  assets : Assets
  deriving DecidableEq, Repr

def NewClient (ipAddr : String) : Client := { ipAddr := ipAddr, assets := [] }

/-- The method `handleInsert`. -/
def Client.handleInsert (c : Client) (m : InsertMessage) : Client :=
  { c with assets := c.assets.set m.Timestamp m.Price }

/-- The loop of `handleQuery` over the entries of the map, on the pair of
`sum` and `count`, both `int64`. -/
def queryLoop (m : QueryMessage) : Assets → Int × Int → Int × Int
  | [], acc => acc
  | (timestamp, price) :: rest, (sum, count) =>
      if timestamp ≥ m.MinTime ∧ timestamp ≤ m.MaxTime then
        queryLoop m rest (wrap64 (sum + price), wrap64 (count + 1))
      else queryLoop m rest (sum, count)

/-- The value of `avg` in `handleQuery`; `/` on `int64` truncates toward
zero. -/
def queryAverage (m : QueryMessage) (assets : Assets) : Int :=
  let r := queryLoop m assets (0, 0)
  if r.2 > 0 then wrap32 (Int.tdiv r.1 r.2) else 0

/-- The method `handleQuery`: the slices passed to `w.Write`, in order. -/
def Client.handleQuery (c : Client) (m : QueryMessage) : List (List Byte) :=
  [marshalQueryMessageResponse (queryAverage m c.assets)]

/-- The method `Handle`: the client afterwards and the slices passed to
`w.Write`, in order.  `none` is the panic of `ParseMessage`. -/
def Client.Handle (c : Client) (b : List Byte) : Option (Client × List (List Byte)) :=
  match ParseMessage b with
  | none => none
  | some (Except.error _) => some (c, [])
  | some (Except.ok (Message.Insert im)) => some (c.handleInsert im, [])
  | some (Except.ok (Message.Query qm)) => some (c, c.handleQuery qm)

/-- A session: `Handle` on one message after the other.  The result is the
client afterwards and what each call wrote. -/
def handleAll : Client → List (List Byte) → Option (Client × List (List (List Byte)))
  | c, [] => some (c, [])
  | c, b :: rest =>
      match c.Handle b with
      | none => none
      | some (c1, written) =>
          match handleAll c1 rest with
          | none => none
          | some (c2, more) => some (c2, written :: more)

/-! ## The wire format and the mean, as the specification words them -/

/-- An integer is an `int32`. -/
def IsInt32 (v : Int) : Prop := -2 ^ 31 ≤ v ∧ v < 2 ^ 31

instance (v : Int) : Decidable (IsInt32 v) := inferInstanceAs (Decidable (_ ∧ _))

/-- Four bytes read as a big-endian two's-complement signed 32-bit integer. -/
def beInt32 (b0 b1 b2 b3 : Byte) : Int :=
  let u : Int := b0.val * 2 ^ 24 + b1.val * 2 ^ 16 + b2.val * 2 ^ 8 + b3.val
  if u < 2 ^ 31 then u else u - 2 ^ 32

/-- The big-endian two's-complement encoding of an integer in 4 bytes. -/
def beBytes32 (v : Int) : List Byte :=
  [Fin.ofNat ((v % 2 ^ 32).toNat / 2 ^ 24), Fin.ofNat ((v % 2 ^ 32).toNat / 2 ^ 16 % 256),
    Fin.ofNat ((v % 2 ^ 32).toNat / 2 ^ 8 % 256), Fin.ofNat ((v % 2 ^ 32).toNat % 256)]

/-- The timestamp and the price that the 8 bytes of an insert message carry. -/
def insertOf (p : List Byte) : Int × Int :=
  (beInt32 (p.getD 0 0) (p.getD 1 0) (p.getD 2 0) (p.getD 3 0),
    beInt32 (p.getD 4 0) (p.getD 5 0) (p.getD 6 0) (p.getD 7 0))

/-- The price stored at a timestamp after a sequence of inserts: that of the
last insert at this timestamp. -/
def storedPrice : List (Int × Int) → Int → Option Int
  | [], _ => none
  | (t, p) :: rest, timestamp =>
      match storedPrice rest timestamp with
      | some q => some q
      | none => if t = timestamp then some p else none

/-- The distinct timestamps of a sequence of inserts that lie in a range. -/
def timestampsInRange (inserts : List (Int × Int)) (lo hi : Int) : List Int :=
  (inserts.map Prod.fst).dedup.filter (fun t => decide (lo ≤ t ∧ t ≤ hi))

/-- The sum of the prices stored at the distinct timestamps of the range. -/
def rangeSum (inserts : List (Int × Int)) (lo hi : Int) : Int :=
  ((timestampsInRange inserts lo hi).map (fun t => (storedPrice inserts t).getD 0)).sum

/-- The mean of the prices stored at the distinct timestamps of the range,
truncated toward zero; 0 when there is none. -/
def rangeMean (inserts : List (Int × Int)) (lo hi : Int) : Int :=
  if (timestampsInRange inserts lo hi).length = 0 then 0
  else Int.tdiv (rangeSum inserts lo hi) (timestampsInRange inserts lo hi).length

/-- The session of the test `correct negative average price`: five inserts,
three of them at one timestamp. -/
def negativeSession : List (List Byte) :=
  [[0x00, 0x00, 0x30, 0x39, 0xff, 0xff, 0xff, 0xff],
    [0x00, 0x00, 0x30, 0x3a, 0xff, 0xff, 0xff, 0xfe],
    [0x00, 0x00, 0x30, 0x3b, 0xff, 0xff, 0xff, 0xfd],
    [0x00, 0x00, 0x30, 0x3b, 0xff, 0xff, 0xff, 0xfc],
    [0x00, 0x00, 0x30, 0x3b, 0xff, 0xff, 0xff, 0xfb]]

/-- The query of the tests: from 12288 to 16384. -/
def testQuery : List Byte := [0x00, 0x00, 0x30, 0x00, 0x00, 0x00, 0x40, 0x00]

end MeansToAnEnd

/-!
# Speed daemon, wire messages (src/06/protocol.go)

Bytes are `Fin 256`; a Go `string` made from bytes is the list of its bytes; a
`uint8`, `uint16` or `uint32` is the natural number it denotes.
-/

namespace SpeedDaemon

/-! ## Bytes, errors and the big-endian readers -/

abbrev Byte := Fin 256

/-- Go `error` values of the protocol. -/
inductive Error where
  /-- The sentinel `ErrInvalidMessage`. -/
  | ErrInvalidMessage : Error
  /-- The value of `fmt.Errorf(text + ": %w", inner)`. -/
  | Wrap (text : String) (inner : Error) : Error
  deriving DecidableEq, Repr

/-- The function `errors.Is(err, ErrInvalidMessage)`: follows the `%w` chain. -/
def Error.IsInvalidMessage : Error → Bool
  | Error.ErrInvalidMessage => true
  | Error.Wrap _ inner => inner.IsInvalidMessage

/-- The method `binary.BigEndian.Uint16`; `none` is its panic on a slice of
fewer than 2 bytes. -/
def Uint16 : List Byte → Option Nat
  | b0 :: b1 :: _ => some (b1.val ||| b0.val <<< 8)
  | _ => none

/-- The method `binary.BigEndian.Uint32`; `none` is its panic on a slice of
fewer than 4 bytes. -/
def Uint32 : List Byte → Option Nat
  | b0 :: b1 :: b2 :: b3 :: _ => some (b3.val ||| b2.val <<< 8 ||| b1.val <<< 16 ||| b0.val <<< 24)
  | _ => none

/-! ## MessagePlate -/

structure MessagePlate where
  Plate : List Byte
  Timestamp : Nat
  deriving DecidableEq, Repr

/-- The method `MessagePlate.UnmarshalBinary`: the returned error, `none` for
`nil`, and the receiver afterwards.  The outer `none` is a panic. -/
def MessagePlate.UnmarshalBinary (p : MessagePlate) (b : List Byte) :
    Option (Option Error × MessagePlate) :=
  let stringSize := 1
  let timestampSize := 4
  let minMessageLen := stringSize + timestampSize
  if b.length < minMessageLen then
    some (some (Error.Wrap "message too short to be valid" Error.ErrInvalidMessage), p)
  else
    let plateLen := (b.getD 0 0).val
    if b.length < minMessageLen + plateLen then
      some (some (Error.Wrap "message length does not match plate length and timestamp"
        Error.ErrInvalidMessage), p)
    else
      match Uint32 (b.drop (stringSize + plateLen)) with
      | none => none
      | some timestamp =>
          some (none,
            { Plate := (b.take (stringSize + plateLen)).drop stringSize
              Timestamp := timestamp })

/-! ## MessageIAmDispatcher -/

structure MessageIAmDispatcher where
  /-- A `uint8`. -/
  NumRoads : Nat
  /-- A slice of `uint16`; `none` is the nil slice. -/
  Roads : Option (List Nat)
  deriving DecidableEq, Repr

/-- The loop `for i := 0; i < numRoads; i++` of
`MessageIAmDispatcher.UnmarshalBinary`, with `remaining = numRoads - i`; `none`
is a panic. -/
def fillRoads (b : List Byte) : Nat → Nat → List Nat → Option (List Nat)
  | 0, _, roads => some roads
  | remaining + 1, i, roads =>
      match Uint16 (b.drop (1 + i * 2)) with
      | none => none
      | some road => fillRoads b remaining (i + 1) (roads.set i road)

/-- The method `MessageIAmDispatcher.UnmarshalBinary`: the returned error and
the receiver afterwards.  The outer `none` is a panic. -/
def MessageIAmDispatcher.UnmarshalBinary (d : MessageIAmDispatcher) (b : List Byte) :
    Option (Option Error × MessageIAmDispatcher) :=
  if b.length < 1 then
    some (some (Error.Wrap "invalid message length" Error.ErrInvalidMessage), d)
  else
    let numRoads := (b.getD 0 0).val
    if b.length < 1 + numRoads * 2 then
      some (some (Error.Wrap "invalid message length" Error.ErrInvalidMessage), d)
    else
      match fillRoads b numRoads 0 (List.replicate numRoads 0) with
      | none => none
      | some roads => some (none, { NumRoads := numRoads % 256, Roads := some roads })

/-! ## The wire format, as the specification words it -/

/-- The big-endian unsigned value of a list of bytes. -/
def beValue : List Byte → Nat
  | [] => 0
  | b :: rest => b.val * 256 ^ rest.length + beValue rest

/-- The slice `b[i:j]`. -/
def slice (b : List Byte) (i j : Nat) : List Byte := (b.take j).drop i

/-- The message of the test `valid message with plate UN1234`. -/
def plateSample : List Byte :=
  [6, 0x55, 0x4e, 0x31, 0x32, 0x33, 0x34, 0, 0, 0, 1]

/-- The message of the dispatcher test: three roads, 66, 368 and 5000. -/
def dispatcherSample : List Byte := [0x03, 0x00, 0x42, 0x01, 0x70, 0x13, 0x88]

/-! ## MessageError -/

/-- The conversion `byte(n)` of a non-negative integer: the low 8 bits. -/
def byteOf (n : Nat) : Byte := ⟨n % 256, Nat.mod_lt n (by decide)⟩

/-- The builtin `copy(dst, src)` as the contents of `dst` afterwards: the first
`min(len(dst), len(src))` bytes come from `src`. -/
def copy (dst src : List Byte) : List Byte := src.take dst.length ++ dst.drop src.length

structure MessageError where
  Msg : List Byte
  deriving DecidableEq, Repr

/-- The method `MessageError.MarshalBinary`: the returned bytes, the returned
error (`none` for `nil`) and the receiver afterwards, whose `Msg` the method
cuts. -/
def MessageError.MarshalBinary (e : MessageError) : List Byte × Option Error × MessageError :=
  let e : MessageError := if e.Msg.length > 255 then { Msg := e.Msg.take 255 } else e
  let res := List.replicate (1 + e.Msg.length) (0 : Byte)
  let res := res.set 0 (byteOf e.Msg.length)
  let res := res.take 1 ++ copy (res.drop 1) e.Msg
  (res, none, e)

/-! ## MessageTicket -/

structure MessageTicket where
  Plate : List Byte
  /-- A `uint16`. -/
  Road : Nat
  /-- A `uint16`. -/
  Mile1 : Nat
  /-- A `uint32`. -/
  Timestamp1 : Nat
  /-- A `uint16`. -/
  Mile2 : Nat
  /-- A `uint32`. -/
  Timestamp2 : Nat
  /-- A `uint16`. -/
  Speed : Nat
  deriving DecidableEq, Repr

/-- The values of the Go type: every field is in the range of its integer
type. -/
def MessageTicket.WellTyped (t : MessageTicket) : Prop :=
  t.Road < 2 ^ 16 ∧ t.Mile1 < 2 ^ 16 ∧ t.Timestamp1 < 2 ^ 32 ∧ t.Mile2 < 2 ^ 16 ∧
    t.Timestamp2 < 2 ^ 32 ∧ t.Speed < 2 ^ 16

instance (t : MessageTicket) : Decidable t.WellTyped := by
  unfold MessageTicket.WellTyped
  infer_instance

/-- The method `binary.BigEndian.PutUint16` on a fresh slice of 2 bytes. -/
def PutUint16 (v : Nat) : List Byte := [byteOf (v >>> 8), byteOf v]

/-- The method `binary.BigEndian.PutUint32` on a fresh slice of 4 bytes. -/
def PutUint32 (v : Nat) : List Byte :=
  [byteOf (v >>> 24), byteOf (v >>> 16), byteOf (v >>> 8), byteOf v]

/-- The contents of a `bytes.Buffer`. -/
abbrev Buffer := List Byte

/-- The method `Buffer.WriteByte`. -/
def Buffer.WriteByte (buf : Buffer) (c : Byte) : Buffer := buf ++ [c]

/-- The method `Buffer.WriteString`. -/
def Buffer.WriteString (buf : Buffer) (s : List Byte) : Buffer := buf ++ s

/-- The call `binary.Write(&buf, binary.BigEndian, v)` on a `uint16`. -/
def WriteUint16 (buf : Buffer) (v : Nat) : Buffer := buf ++ PutUint16 v

/-- The call `binary.Write(&buf, binary.BigEndian, v)` on a `uint32`. -/
def WriteUint32 (buf : Buffer) (v : Nat) : Buffer := buf ++ PutUint32 v

/-- The method `MessageTicket.MarshalBinary`: the returned bytes and the
returned error, `none` for `nil`. -/
def MessageTicket.MarshalBinary (t : MessageTicket) : List Byte × Option Error :=
  let buf : Buffer := []
  let buf := Buffer.WriteByte buf (byteOf t.Plate.length)
  let buf := Buffer.WriteString buf t.Plate
  let buf := WriteUint16 buf t.Road
  let buf := WriteUint16 buf t.Mile1
  let buf := WriteUint32 buf t.Timestamp1
  let buf := WriteUint16 buf t.Mile2
  let buf := WriteUint32 buf t.Timestamp2
  let buf := WriteUint16 buf t.Speed
  (buf, none)

/-! ## MessageWantHeartbeat and MessageIAmCamera -/

structure MessageWantHeartbeat where
  /-- A `uint32`. -/
  Interval : Nat
  deriving DecidableEq, Repr

/-- The method `MessageWantHeartbeat.UnmarshalBinary`: the returned error and
the receiver afterwards.  The outer `none` is a panic. -/
def MessageWantHeartbeat.UnmarshalBinary (h : MessageWantHeartbeat) (b : List Byte) :
    Option (Option Error × MessageWantHeartbeat) :=
  if b.length < 4 then
    some (some (Error.Wrap "invalid message length" Error.ErrInvalidMessage), h)
  else
    match Uint32 b with
    | none => none
    | some interval => some (none, { Interval := interval })

structure MessageIAmCamera where
  /-- A `uint16`. -/
  Road : Nat
  /-- A `uint16`. -/
  Mile : Nat
  /-- A `uint16`. -/
  Limit : Nat
  deriving DecidableEq, Repr

/-- The method `MessageIAmCamera.UnmarshalBinary`: the returned error and the
receiver afterwards.  The outer `none` is a panic. -/
def MessageIAmCamera.UnmarshalBinary (c : MessageIAmCamera) (b : List Byte) :
    Option (Option Error × MessageIAmCamera) :=
  if b.length < 6 then
    some (some (Error.Wrap "invalid message length" Error.ErrInvalidMessage), c)
  else
    match Uint16 b with
    | none => none
    | some road =>
        match Uint16 (b.drop 2) with
        | none => none
        | some mile =>
            match Uint16 (b.drop 4) with
            | none => none
            | some limit => some (none, { Road := road, Mile := mile, Limit := limit })

/-! ## The samples of the tests -/

/-- The ticket of `TestMessageTicket_MarshalBinary`, plate `UN1234`. -/
def ticketSample : MessageTicket :=
  { Plate := [85, 78, 49, 50, 51, 52], Road := 1, Mile1 := 2, Timestamp1 := 3, Mile2 := 4,
    Timestamp2 := 5, Speed := 6 }

/-- A ticket whose plate has 256 bytes. -/
def longTicket : MessageTicket :=
  { Plate := List.replicate 256 65, Road := 1, Mile1 := 2, Timestamp1 := 3, Mile2 := 4,
    Timestamp2 := 5, Speed := 6 }

/-- The message `short message` of `TestMessageError_MarshalBinary`. -/
def shortError : MessageError :=
  { Msg := [115, 104, 111, 114, 116, 32, 109, 101, 115, 115, 97, 103, 101] }

/-- The message of 300 bytes `a` of `TestMessageError_MarshalBinary`. -/
def longError : MessageError := { Msg := List.replicate 300 97 }

end SpeedDaemon

/-!
# Mob in the middle, address rewriting (src/05/main.go)

Bytes are `Fin 256`; a Go `string` is the list of its bytes, so that `len` is
the length of the list and `s[0]` its head.
-/

namespace MobInTheMiddle

abbrev Byte := Fin 256

/-! ## Strings -/

/-- The byte `'\n'`. -/
def newline : Byte := 10

/-- The byte `' '`. -/
def space : Byte := 32

/-- The constant `tonyAddress`, the 27 bytes of `7YWHMfk9JZe0LM0g1ZauHuiSxhI`. -/
def tonyAddress : List Byte :=
  [55, 89, 87, 72, 77, 102, 107, 57, 74, 90, 101, 48, 76, 77, 48, 103, 49, 90, 97, 117, 72, 117,
    105, 83, 120, 104, 73]

/-- The bytes of a string literal of ASCII characters. -/
def asciiBytes (s : String) : List Byte := s.data.map (fun c => Fin.ofNat c.toNat)

/-- The loop of `strings.trimLeftByte`: `for len(s) > 0 && s[0] == c { s = s[1:] }`. -/
def trimLeftByte : List Byte → Byte → List Byte
  | [], _ => []
  | b :: rest, c => if b = c then trimLeftByte rest c else b :: rest

/-- The loop of `strings.trimRightByte`:
`for len(s) > 0 && s[len(s)-1] == c { s = s[:len(s)-1] }`. -/
def trimRightByte (s : List Byte) (c : Byte) : List Byte := (trimLeftByte s.reverse c).reverse

/-- The function `strings.Trim(s, cutset)` for a cutset of one ASCII byte, the
case that returns `trimLeftByte(trimRightByte(s, cutset[0]), cutset[0])`. -/
def Trim (s : List Byte) (cutset : Byte) : List Byte :=
  trimLeftByte (trimRightByte s cutset) cutset

/-- The function `strings.Split(s, sep)` for a separator of one byte: the
substrings of `s` between the occurrences of `sep`, one more than there are
occurrences. -/
def Split : List Byte → Byte → List (List Byte)
  | [], _ => [[]]
  | b :: rest, sep =>
      if b = sep then [] :: Split rest sep
      else
        match Split rest sep with
        | [] => [[b]]
        | w :: ws => (b :: w) :: ws

/-- The function `strings.Join(elems, sep)` for a separator of one byte. -/
def Join : List (List Byte) → Byte → List Byte
  | [], _ => []
  | [w], _ => w
  | w :: w2 :: rest, sep => w ++ sep :: Join (w2 :: rest) sep

/-! ## replaceAddress -/

/-- The function `isBogusCoinAddress`; `input[0]` is read only when the length
is at least 26, and `'7'` is the byte 55. -/
def isBogusCoinAddress (input : List Byte) : Bool :=
  decide (input.length ≥ 26) && decide (input.length ≤ 35) && decide (input.head? = some 55)

/-- The loop `for i, word := range words` of `replaceAddress`, with
`remaining = len(words) - i`: the slice and the flag `isBogus` when the loop
ends. -/
def replaceLoop : Nat → Nat → List (List Byte) → Bool → List (List Byte) × Bool
  | 0, _, words, isBogus => (words, isBogus)
  | remaining + 1, i, words, isBogus =>
      if isBogusCoinAddress (words.getD i []) then
        replaceLoop remaining (i + 1) (words.set i tonyAddress) true
      else
        replaceLoop remaining (i + 1) words isBogus

/-- The function `replaceAddress`. -/
def replaceAddress (input : List Byte) : List Byte :=
  let words := Split (Trim input newline) space
  let r := replaceLoop words.length 0 words false
  if !r.2 then input else Join r.1 space ++ [newline]

/-! ## The rewriting, as the specification words it -/

/-- The pieces of an input: its leading and trailing newlines stripped, the
rest split on single spaces. -/
def pieces (s : List Byte) : List (List Byte) := Split (Trim s newline) space

/-- A piece qualifies when it has between 26 and 35 bytes and its first byte
is `'7'`. -/
def Qualifying (w : List Byte) : Prop := 26 ≤ w.length ∧ w.length ≤ 35 ∧ w.head? = some 55

instance (w : List Byte) : Decidable (Qualifying w) := by
  unfold Qualifying
  infer_instance

/-- A qualifying piece is replaced by `tonyAddress`, any other piece stays. -/
def substitute (w : List Byte) : List Byte := if Qualifying w then tonyAddress else w

/-- The line `Hi alice, please send payment to 7iKDZEwPZSqIvDnHvVN2r0hUWXD5rHX`
and its newline. -/
def paymentLine : List Byte :=
  asciiBytes "Hi alice, please send payment to 7iKDZEwPZSqIvDnHvVN2r0hUWXD5rHX\n"

/-- The line `hello there` and its newline. -/
def plainLine : List Byte := asciiBytes "hello there\n"

end MobInTheMiddle

namespace Budgetchat

/-! ## Lemmas on the validator -/

theorem isAlnumRune_iff (c : Char) : isAlnumRune c = true ↔ AsciiAlnum c := by
  unfold isAlnumRune AsciiAlnum
  simp only [Bool.or_eq_true, Bool.and_eq_true, decide_eq_true_eq, ge_iff_le, Char.le_def,
    UInt32.le_def, Char.toNat]
  have h1 : ('a' : Char).val.toNat = 97 := rfl
  have h2 : ('z' : Char).val.toNat = 122 := rfl
  have h3 : ('A' : Char).val.toNat = 65 := rfl
  have h4 : ('Z' : Char).val.toNat = 90 := rfl
  have h5 : ('0' : Char).val.toNat = 48 := rfl
  have h6 : ('9' : Char).val.toNat = 57 := rfl
  simp only [UInt32.toNat, BitVec.le_def] at *
  omega

theorem utf8ByteSize_eq_zero (s : String) : s.utf8ByteSize = 0 ↔ s.data = [] := by
  cases s with
  | mk cs =>
    cases cs with
    | nil => simp [String.utf8ByteSize, String.utf8ByteSize.go]
    | cons c cs =>
      have := Char.utf8Size_pos c
      simp [String.utf8ByteSize, String.utf8ByteSize.go]
      omega

theorem validateRunes_none (cs : List Char) :
    validateRunes cs = none ↔ ∀ c ∈ cs, AsciiAlnum c := by
  induction cs with
  | nil => simp [validateRunes]
  | cons r rest ih =>
    by_cases hr : isAlnumRune r = true
    · have := (isAlnumRune_iff r).mp hr
      simp [validateRunes, hr, ih, this]
    · have hn : ¬ AsciiAlnum r := fun h => hr ((isAlnumRune_iff r).mpr h)
      simp [validateRunes, hr, hn]

theorem validateRunes_cases (cs : List Char) :
    validateRunes cs = none ∨ validateRunes cs = some errInvalidCharacter := by
  induction cs with
  | nil => simp [validateRunes]
  | cons r rest ih =>
    by_cases hr : isAlnumRune r = true
    · simpa [validateRunes, hr] using ih
    · simp [validateRunes, hr]

/-- C4: `validateName` accepts exactly the names of the grammar; it returns the
empty-name error exactly for the name of length 0 and the invalid-character
error exactly for a non-empty name with a character outside the class. -/
theorem validateName_spec (name : String) :
    (validateName name = none ↔ MatchesNameGrammar name) ∧
    (validateName name = some errEmptyName ↔ name.utf8ByteSize = 0) ∧
    (name.utf8ByteSize = 0 ↔ name = "") ∧
    (validateName name = some errInvalidCharacter ↔
      name ≠ "" ∧ ∃ c ∈ name.data, ¬ AsciiAlnum c) ∧
    (validateName name = none ∨ validateName name = some errEmptyName ∨
      validateName name = some errInvalidCharacter) := by
  have hne : errEmptyName ≠ errInvalidCharacter := by decide
  have hdata : name = "" ↔ name.data = [] := by
    constructor
    · intro h; rw [h]
    · intro h
      cases name with
      | mk cs =>
        simp only at h
        subst h
        rfl
  have hz := utf8ByteSize_eq_zero name
  by_cases h0 : name.utf8ByteSize = 0
  · have hd := hz.mp h0
    have hv : validateName name = some errEmptyName := by simp [validateName, h0]
    refine ⟨?_, ?_, ?_, ?_, ?_⟩
    · simp [hv, MatchesNameGrammar, hd]
    · simp [hv, h0]
    · simp [h0, hdata, hd]
    · rw [hv]
      constructor
      · intro h; exact absurd (Option.some.inj h) hne
      · intro h; exact absurd (hdata.mpr hd) h.1
    · exact Or.inr (Or.inl hv)
  · have hd : name.data ≠ [] := fun h => h0 (hz.mpr h)
    have hv : validateName name = validateRunes name.data := by simp [validateName, h0]
    have hnone := validateRunes_none name.data
    refine ⟨?_, ?_, ?_, ?_, ?_⟩
    · rw [hv, hnone]; simp [MatchesNameGrammar, hd]
    · rw [hv]
      constructor
      · intro h
        rcases validateRunes_cases name.data with h1 | h1
        · rw [h1] at h; exact absurd h (by simp)
        · rw [h1] at h; exact absurd (Option.some.inj h).symm hne
      · intro h; exact absurd h h0
    · simp [h0, hdata, hd]
    · rw [hv]
      constructor
      · intro h
        refine ⟨fun he => hd (hdata.mp he), ?_⟩
        by_contra hcon
        push_neg at hcon
        have := hnone.mpr hcon
        rw [this] at h
        exact absurd h (by simp)
      · intro h
        obtain ⟨_, c, hc, hnc⟩ := h
        rcases validateRunes_cases name.data with h1 | h1
        · exact absurd (hnone.mp h1 c hc) hnc
        · exact h1
    · rw [hv]
      rcases validateRunes_cases name.data with h1 | h1
      · exact Or.inl h1
      · exact Or.inr (Or.inr h1)

/-! ## Lemmas on broadcast -/

theorem sendsOf_append (a b : List Effect) : sendsOf (a ++ b) = sendsOf a ++ sendsOf b := by
  induction a with
  | nil => rfl
  | cons e rest ih => cases e <;> simp [sendsOf, ih]

theorem sendsOf_broadcastLoop (net : Net) (source msg : String) (t : Table) :
    sendsOf (broadcastLoop net source msg t) = (recipients t source).map (fun c => (c, msg)) := by
  induction t with
  | nil => rfl
  | cons e rest ih =>
    obtain ⟨name, client⟩ := e
    by_cases hn : name = source
    · simp [broadcastLoop, recipients, hn] at ih ⊢
      exact ih
    · cases hs : net.Send client msg <;>
        simp [broadcastLoop, recipients, hn, hs, sendsOf] at ih ⊢ <;> exact ih

theorem hubOps_broadcastLoop (net : Net) (source msg : String) (t : Table) :
    hubOps (broadcastLoop net source msg t) = [] := by
  induction t with
  | nil => rfl
  | cons e rest ih =>
    obtain ⟨name, client⟩ := e
    by_cases hn : name = source
    · simpa [broadcastLoop, hn] using ih
    · cases hs : net.Send client msg <;> simpa [broadcastLoop, hn, hs, hubOps] using ih

theorem sendsTo_eq (client : Client) (out : List Effect) (cs : List Client) (msg : String)
    (h : sendsOf out = cs.map (fun c => (c, msg))) :
    sendsTo client out = List.replicate (cs.count client) msg := by
  unfold sendsTo
  rw [h]
  clear h
  induction cs with
  | nil => rfl
  | cons c rest ih =>
    by_cases hc : c = client
    · simp [hc, List.replicate_succ] at ih ⊢
      exact ih
    · have : ¬ (c == client) = true := by simpa using hc
      simp [hc, List.count_cons, this] at ih ⊢
      exact ih

theorem recipients_subset (t : Table) (source : String) (client : Client)
    (h : client ∈ recipients t source) : client ∈ t.map Prod.snd := by
  unfold recipients at h
  obtain ⟨e, he, hee⟩ := List.mem_map.mp h
  rw [← hee]
  exact List.mem_map_of_mem _ (List.mem_of_mem_filter he)

theorem count_recipients_member (t : Table) (source name : String) (client : Client)
    (hex : t.Exclusive) (hm : (name, client) ∈ t) :
    (recipients t source).count client = if name = source then 0 else 1 := by
  unfold Table.Exclusive at hex
  induction t with
  | nil => simp at hm
  | cons e rest ih =>
    obtain ⟨n, c⟩ := e
    simp only [List.map_cons, List.nodup_cons] at hex
    rcases List.mem_cons.mp hm with heq | hin
    · obtain ⟨rfl, rfl⟩ := Prod.mk.inj heq
      have hnot : (recipients rest source).count client = 0 :=
        List.count_eq_zero_of_not_mem (fun hmem => hex.1 (recipients_subset _ _ _ hmem))
      by_cases hn : name = source
      · simp [recipients, hn] at hnot ⊢
        exact hnot
      · simp [recipients, hn] at hnot ⊢
        exact hnot
    · have hne : c ≠ client := by
        intro hcc
        apply hex.1
        rw [hcc]
        exact List.mem_map_of_mem Prod.snd hin
      have ih2 := ih hex.2 hin
      by_cases hn : n = source
      · simp [recipients, hn] at ih2 ⊢
        exact ih2
      · have : ¬ (c == client) = true := by simpa using hne
        simp [recipients, hn, List.count_cons, this] at ih2 ⊢
        exact ih2

/-- What a broadcast delivers: the members other than `source` get the line
once each, in iteration order, whatever the outcomes of the `Send` calls. -/
theorem broadcastLoop_delivery (net : Net) (source msg : String) (t : Table)
    (hex : t.Exclusive) :
    (∀ name client, (name, client) ∈ t → name ≠ source →
      sendsTo client (broadcastLoop net source msg t) = [msg]) ∧
    (∀ client, (source, client) ∈ t →
      sendsTo client (broadcastLoop net source msg t) = []) ∧
    (∀ client, client ∉ t.map Prod.snd →
      sendsTo client (broadcastLoop net source msg t) = []) := by
  have hs := sendsOf_broadcastLoop net source msg t
  refine ⟨?_, ?_, ?_⟩
  · intro name client hm hne
    rw [sendsTo_eq client _ _ msg hs, count_recipients_member t source name client hex hm]
    simp [hne]
  · intro client hm
    rw [sendsTo_eq client _ _ msg hs, count_recipients_member t source source client hex hm]
    simp
  · intro client hnm
    rw [sendsTo_eq client _ _ msg hs,
      List.count_eq_zero_of_not_mem (fun hmem => hnm (recipients_subset _ _ _ hmem))]
    rfl

theorem sendsTo_append_print (client : Client) (out : List Effect) (text : String) :
    sendsTo client (out ++ [Effect.Print text]) = sendsTo client out := by
  simp [sendsTo, sendsOf_append, sendsOf]

/-! ## The consumer on Message, Join and Leave events; broadcast -/

/-- C1: on a Message event from `source` with payload `payload`, `Run` calls
`Send` once, with the line `[source] payload`, on the transport of every member
whose name differs from `source`, and never on the transport registered under
`source`; there are no other `Send` calls. -/
theorem run_message_delivers (net : Net) (h : Hub) (source payload : String)
    (hex : h.clients.Exclusive) :
    ∃ out,
      RunEvent net h { From := source, Typ := EventType.Message, Message := payload }
        = some (h, out) ∧
      sendsOf out
        = (recipients h.clients source).map (fun c => (c, "[" ++ source ++ "] " ++ payload)) ∧
      (∀ name client, (name, client) ∈ h.clients → name ≠ source →
        sendsTo client out = ["[" ++ source ++ "] " ++ payload]) ∧
      (∀ client, (source, client) ∈ h.clients → sendsTo client out = []) ∧
      (∀ client, client ∉ h.clients.map Prod.snd → sendsTo client out = []) := by
  obtain ⟨d1, d2, d3⟩ :=
    broadcastLoop_delivery net source ("[" ++ source ++ "] " ++ payload) h.clients hex
  refine ⟨_, rfl, ?_, ?_, ?_, ?_⟩
  · simp [broadcast, sendsOf_append, sendsOf, sendsOf_broadcastLoop]
  · intro name client hm hne
    simpa [broadcast, sendsTo_append_print] using d1 name client hm hne
  · intro client hm
    simpa [broadcast, sendsTo_append_print] using d2 client hm
  · intro client hm
    simpa [broadcast, sendsTo_append_print] using d3 client hm

theorem run_message_delivers_witness :
    roomOfThree.clients.Exclusive ∧
    ∃ out,
      RunEvent quietNet roomOfThree { From := "bob", Typ := EventType.Message, Message := "hi" }
        = some (roomOfThree, out) ∧
      sendsTo 1 out = ["[bob] hi"] ∧ sendsTo 2 out = ["[bob] hi"] ∧ sendsTo 0 out = [] := by
  refine ⟨by decide, ?_⟩
  obtain ⟨out, h1, _, h3, h4, _⟩ :=
    run_message_delivers quietNet roomOfThree "bob" "hi" (by decide)
  exact ⟨out, h1, h3 "alice" 1 (by decide) (by decide), h3 "carol" 2 (by decide) (by decide),
    h4 0 (by decide)⟩

/-- C6: on a Join event from `source`, every member whose name differs from
`source` is sent exactly one line, `* source has entered the room`, and on a
Leave event exactly one line, `* source has left the room`; nothing is sent to
a transport registered under `source`, and nothing to anyone else. -/
theorem run_join_leave_delivers (net : Net) (h : Hub) (source extra : String)
    (hex : h.clients.Exclusive) :
    (∃ out,
      RunEvent net h { From := source, Typ := EventType.Join, Message := extra }
        = some (h, out) ∧
      sendsOf out
        = (recipients h.clients source).map
            (fun c => (c, "* " ++ source ++ " has entered the room")) ∧
      (∀ name client, (name, client) ∈ h.clients → name ≠ source →
        sendsTo client out = ["* " ++ source ++ " has entered the room"]) ∧
      (∀ client, (source, client) ∈ h.clients → sendsTo client out = []) ∧
      (∀ client, client ∉ h.clients.map Prod.snd → sendsTo client out = [])) ∧
    (∃ out,
      RunEvent net h { From := source, Typ := EventType.Leave, Message := extra }
        = some (h, out) ∧
      sendsOf out
        = (recipients h.clients source).map
            (fun c => (c, "* " ++ source ++ " has left the room")) ∧
      (∀ name client, (name, client) ∈ h.clients → name ≠ source →
        sendsTo client out = ["* " ++ source ++ " has left the room"]) ∧
      (∀ client, (source, client) ∈ h.clients → sendsTo client out = []) ∧
      (∀ client, client ∉ h.clients.map Prod.snd → sendsTo client out = [])) := by
  obtain ⟨j1, j2, j3⟩ :=
    broadcastLoop_delivery net source ("* " ++ source ++ " has entered the room") h.clients hex
  obtain ⟨l1, l2, l3⟩ :=
    broadcastLoop_delivery net source ("* " ++ source ++ " has left the room") h.clients hex
  refine ⟨⟨_, rfl, ?_, ?_, ?_, ?_⟩, ⟨_, rfl, ?_, ?_, ?_, ?_⟩⟩
  · simp [broadcast, sendsOf_append, sendsOf, sendsOf_broadcastLoop]
  · intro name client hm hne
    simpa [broadcast, sendsTo_append_print] using j1 name client hm hne
  · intro client hm
    simpa [broadcast, sendsTo_append_print] using j2 client hm
  · intro client hm
    simpa [broadcast, sendsTo_append_print] using j3 client hm
  · simp [broadcast, sendsOf_broadcastLoop]
  · intro name client hm hne
    simpa [broadcast] using l1 name client hm hne
  · intro client hm
    simpa [broadcast] using l2 client hm
  · intro client hm
    simpa [broadcast] using l3 client hm

theorem run_join_leave_delivers_witness :
    roomOfThree.clients.Exclusive ∧
    (∃ out,
      RunEvent lossyNet roomOfThree { From := "carol", Typ := EventType.Join, Message := "" }
        = some (roomOfThree, out) ∧
      sendsTo 0 out = ["* carol has entered the room"] ∧
      sendsTo 1 out = ["* carol has entered the room"] ∧ sendsTo 2 out = []) ∧
    (∃ out,
      RunEvent lossyNet roomOfThree { From := "carol", Typ := EventType.Leave, Message := "" }
        = some (roomOfThree, out) ∧
      sendsTo 0 out = ["* carol has left the room"] ∧
      sendsTo 1 out = ["* carol has left the room"] ∧ sendsTo 2 out = []) := by
  refine ⟨by decide, ?_⟩
  obtain ⟨⟨out, h1, _, h3, h4, _⟩, ⟨out2, g1, _, g3, g4, _⟩⟩ :=
    run_join_leave_delivers lossyNet roomOfThree "carol" "" (by decide)
  exact ⟨⟨out, h1, h3 "bob" 0 (by decide) (by decide), h3 "alice" 1 (by decide) (by decide),
      h4 2 (by decide)⟩,
    ⟨out2, g1, g3 "bob" 0 (by decide) (by decide), g3 "alice" 1 (by decide) (by decide),
      g4 2 (by decide)⟩⟩

theorem broadcastLoop_effects (net : Net) (source msg : String) (t : Table) :
    ∀ e ∈ broadcastLoop net source msg t,
      (∃ client, e = Effect.Send client msg) ∨ (∃ text, e = Effect.Print text) := by
  induction t with
  | nil => simp [broadcastLoop]
  | cons x rest ih =>
    obtain ⟨name, client⟩ := x
    by_cases hn : name = source
    · simpa [broadcastLoop, hn] using ih
    · cases hs : net.Send client msg
      · intro e he
        simp only [broadcastLoop, hn, hs, if_false, List.mem_cons] at he
        rcases he with rfl | he
        · exact Or.inl ⟨client, rfl⟩
        · exact ih e he
      · intro e he
        simp only [broadcastLoop, hn, hs, if_false, List.mem_cons] at he
        rcases he with rfl | rfl | he
        · exact Or.inl ⟨client, rfl⟩
        · exact Or.inr ⟨_, rfl⟩
        · exact ih e he

/-- C10: whatever the outcomes of the `Send` calls, `broadcast` calls `Send`
with the line once on every member whose name differs from the excluded name
and never on the excluded one; the sequence of its `Send` calls is the same on
every network, so that a failure neither stops nor repeats a delivery; it
leaves the hub as it found it and does nothing but `Send` calls and log
lines. -/
theorem broadcast_isolates_failures (net : Net) (h : Hub) (source msg : String)
    (hex : h.clients.Exclusive) :
    (broadcast net h source msg).1 = h ∧
    sendsOf (broadcast net h source msg).2
      = (recipients h.clients source).map (fun c => (c, msg)) ∧
    (∀ name client, (name, client) ∈ h.clients → name ≠ source →
      sendsTo client (broadcast net h source msg).2 = [msg]) ∧
    (∀ client, (source, client) ∈ h.clients →
      sendsTo client (broadcast net h source msg).2 = []) ∧
    (∀ client, client ∉ h.clients.map Prod.snd →
      sendsTo client (broadcast net h source msg).2 = []) ∧
    (∀ other : Net,
      sendsOf (broadcast other h source msg).2 = sendsOf (broadcast net h source msg).2) ∧
    (∀ e ∈ (broadcast net h source msg).2,
      (∃ client, e = Effect.Send client msg) ∨ (∃ text, e = Effect.Print text)) := by
  obtain ⟨d1, d2, d3⟩ := broadcastLoop_delivery net source msg h.clients hex
  refine ⟨rfl, sendsOf_broadcastLoop _ _ _ _, d1, d2, d3, ?_, broadcastLoop_effects _ _ _ _⟩
  intro other
  simp [broadcast, sendsOf_broadcastLoop]

theorem broadcast_isolates_failures_witness :
    roomOfThree.clients.Exclusive ∧
    (broadcast lossyNet roomOfThree "bob" "hello").1 = roomOfThree ∧
    lossyNet.Send 1 "hello" ≠ none ∧
    sendsTo 1 (broadcast lossyNet roomOfThree "bob" "hello").2 = ["hello"] ∧
    sendsTo 2 (broadcast lossyNet roomOfThree "bob" "hello").2 = ["hello"] ∧
    sendsTo 0 (broadcast lossyNet roomOfThree "bob" "hello").2 = [] := by
  refine ⟨by decide, ?_⟩
  obtain ⟨h1, _, h3, h4, _⟩ :=
    broadcast_isolates_failures lossyNet roomOfThree "bob" "hello" (by decide)
  exact ⟨h1, by decide, h3 "alice" 1 (by decide) (by decide),
    h3 "carol" 2 (by decide) (by decide), h4 0 (by decide)⟩

/-! ## Lemmas on the table -/

theorem Table.get?_eq_some_of_mem (t : Table) (name : String) (client : Client)
    (hwf : t.WF) (hm : (name, client) ∈ t) : t.get? name = some client := by
  unfold Table.WF Table.keys at hwf
  induction t with
  | nil => simp at hm
  | cons e rest ih =>
    obtain ⟨n, c⟩ := e
    simp only [List.map_cons, List.nodup_cons] at hwf
    rcases List.mem_cons.mp hm with heq | hin
    · obtain ⟨rfl, rfl⟩ := Prod.mk.inj heq
      simp [Table.get?]
    · have hne : n ≠ name := by
        intro hcc
        apply hwf.1
        rw [hcc]
        exact List.mem_map_of_mem Prod.fst hin
      simp [Table.get?, hne, ih hwf.2 hin]

theorem Table.mem_of_get? (t : Table) (name : String) (client : Client)
    (hg : t.get? name = some client) : (name, client) ∈ t := by
  induction t with
  | nil => simp [Table.get?] at hg
  | cons e rest ih =>
    obtain ⟨n, c⟩ := e
    by_cases hn : n = name
    · simp [Table.get?, hn] at hg
      simp [hn, hg]
    · simp [Table.get?, hn] at hg
      exact List.mem_cons_of_mem _ (ih hg)

theorem Table.get?_set_same (t : Table) (name : String) (client : Client) :
    (t.set name client).get? name = some client := by
  induction t with
  | nil => simp [Table.set, Table.get?]
  | cons e rest ih =>
    obtain ⟨n, c⟩ := e
    by_cases hn : n = name
    · simp [Table.set, Table.get?, hn]
    · simp [Table.set, Table.get?, hn, ih]

theorem Table.get?_set_other (t : Table) (name other : String) (client : Client)
    (hne : other ≠ name) : (t.set name client).get? other = t.get? other := by
  induction t with
  | nil => simp [Table.set, Table.get?, hne.symm]
  | cons e rest ih =>
    obtain ⟨n, c⟩ := e
    by_cases hn : n = name
    · subst hn
      simp [Table.set, Table.get?, hne.symm]
    · by_cases ho : n = other
      · subst ho
        simp [Table.set, Table.get?, hn]
      · simp [Table.set, Table.get?, hn, ho, ih]

theorem Table.keys_set (t : Table) (name : String) (client : Client) :
    (t.set name client).keys = if name ∈ t.keys then t.keys else t.keys ++ [name] := by
  induction t with
  | nil => simp [Table.set, Table.keys]
  | cons e rest ih =>
    obtain ⟨n, c⟩ := e
    by_cases hn : n = name
    · subst hn
      simp [Table.set, Table.keys]
    · have hn2 : ¬ name = n := fun h => hn h.symm
      unfold Table.keys at ih
      by_cases hin : name ∈ List.map Prod.fst rest
      · simp [Table.set, Table.keys, hn, hn2, hin, ih]
      · simp [Table.set, Table.keys, hn, hn2, hin, ih]

theorem Table.set_wf (t : Table) (name : String) (client : Client) (hwf : t.WF) :
    (t.set name client).WF := by
  unfold Table.WF at *
  rw [Table.keys_set]
  by_cases hin : name ∈ t.keys
  · simp [hin, hwf]
  · simp only [hin, if_false]
    rw [List.nodup_append]
    refine ⟨hwf, List.nodup_singleton _, ?_⟩
    intro a ha hb
    simp at hb
    subst hb
    exact hin ha

theorem Table.mem_keys_of_get? (t : Table) (name : String) (client : Client)
    (hg : t.get? name = some client) : name ∈ t.keys :=
  List.mem_map_of_mem Prod.fst (Table.mem_of_get? t name client hg)

theorem Table.get?_eq_none (t : Table) (name : String) :
    t.get? name = none ↔ name ∉ t.keys := by
  induction t with
  | nil => simp [Table.get?, Table.keys]
  | cons e rest ih =>
    obtain ⟨n, c⟩ := e
    unfold Table.keys at ih
    by_cases hn : n = name
    · simp [Table.get?, Table.keys, hn]
    · have hn2 : ¬ name = n := fun h => hn h.symm
      simp [Table.get?, Table.keys, hn, hn2, ih]

/-! ## Lemmas on the presence listing -/

theorem removeName_eq_filter (source : String) (names : List String) (hnd : names.Nodup) :
    removeName source names = names.filter (fun n => decide (n ≠ source)) := by
  induction names with
  | nil => rfl
  | cons n rest ih =>
    simp only [List.nodup_cons] at hnd
    by_cases hn : n = source
    · subst hn
      simp only [removeName, if_true, ne_eq, not_true_eq_false, decide_False, List.filter_cons_of_neg,
        Bool.false_eq_true, not_false_eq_true]
      symm
      rw [List.filter_eq_self]
      intro a ha
      have : a ≠ n := fun h => hnd.1 (h ▸ ha)
      simpa using this
    · simp [removeName, hn, ih hnd.2]

/-! ## The consumer on Presence events -/

theorem RunEvent_presence (net : Net) (h : Hub) (source extra : String) (client : Client)
    (hwf : h.clients.WF) (hget : h.clients.get? source = some client) :
    ∃ out,
      RunEvent net h { From := source, Typ := EventType.Presence, Message := extra }
        = some (h, out) ∧
      sendsOf out = [(client, "* The room contains: "
        ++ ", ".intercalate (h.clients.keys.filter (fun n => decide (n ≠ source))))] ∧
      hubOps out = [] := by
  have hrm := removeName_eq_filter source h.clients.keys hwf
  cases hs : net.Send client ("* The room contains: "
        ++ ", ".intercalate (h.clients.keys.filter (fun n => decide (n ≠ source))))
  · refine ⟨[Effect.Send client ("* The room contains: "
        ++ ", ".intercalate (h.clients.keys.filter (fun n => decide (n ≠ source)))),
      Effect.Print ("* The room contains: "
        ++ ", ".intercalate (h.clients.keys.filter (fun n => decide (n ≠ source))) ++ "\n")],
      ?_, ?_, ?_⟩
    · simp only [RunEvent, allClientNames, stringsJoin, hget, hrm, hs]
    · simp [sendsOf]
    · simp [hubOps]
  · rename_i err
    refine ⟨[Effect.Send client ("* The room contains: "
        ++ ", ".intercalate (h.clients.keys.filter (fun n => decide (n ≠ source)))),
      Effect.Print ("failed to send message: " ++ err.Error ++ "\n"),
      Effect.Print ("* The room contains: "
        ++ ", ".intercalate (h.clients.keys.filter (fun n => decide (n ≠ source))) ++ "\n")],
      ?_, ?_, ?_⟩
    · simp only [RunEvent, allClientNames, stringsJoin, hget, hrm, hs]
    · simp [sendsOf]
    · simp [hubOps]

theorem filter_keys_set (t : Table) (name : String) (client : Client) :
    (t.set name client).keys.filter (fun n => decide (n ≠ name))
      = t.keys.filter (fun n => decide (n ≠ name)) := by
  rw [Table.keys_set]
  by_cases hin : name ∈ t.keys
  · simp [hin]
  · simp [hin, List.filter_append]

theorem Register_ok (net : Net) (h : Hub) (client : Client) (name : String)
    (hgreet : net.Send client greetingPhrase = none) (hvalid : validateName name = none) :
    Register net h client (Except.ok name)
      = (none,
          { clients := h.clients.set name client,
            events := h.events ++ [joinEvent name, presenceEvent name] },
          [Effect.Send client greetingPhrase, Effect.Insert name client,
            Effect.Enqueue (joinEvent name), Effect.Enqueue (presenceEvent name),
            Effect.Go name client]) := by
  simp [Register, handshake, hgreet, hvalid]

/-- C5: on a Presence event from a member `source`, `Run` calls `Send` once, on
the transport of `source` and on no other; the line is `* The room contains: `
followed by the names joined with `, `, and the names are the keys of the table
other than `source`, each once (none when `source` is alone).  After a
successful `Register` the listing is the names registered before it, minus
itself. -/
theorem run_presence_lists_others (net : Net) (h : Hub) (source extra : String)
    (client : Client) (hwf : h.clients.WF) (hget : h.clients.get? source = some client) :
    (∃ out names,
      RunEvent net h { From := source, Typ := EventType.Presence, Message := extra }
        = some (h, out) ∧
      sendsOf out = [(client, "* The room contains: " ++ ", ".intercalate names)] ∧
      names.Perm (h.clients.keys.filter (fun n => decide (n ≠ source))) ∧
      names.Nodup ∧ source ∉ names ∧
      (∀ n, n ∈ names ↔ n ∈ h.clients.keys ∧ n ≠ source) ∧
      (h.clients.keys = [source] →
        sendsOf out = [(client, "* The room contains: ")])) ∧
    (∀ before : Hub, before.clients.WF → validateName source = none →
      net.Send client greetingPhrase = none →
      ∃ out names,
        (Register net before client (Except.ok source)).1 = none ∧
        RunEvent net (Register net before client (Except.ok source)).2.1 (presenceEvent source)
          = some ((Register net before client (Except.ok source)).2.1, out) ∧
        sendsOf out = [(client, "* The room contains: " ++ ", ".intercalate names)] ∧
        names.Perm (before.clients.keys.filter (fun n => decide (n ≠ source)))) := by
  constructor
  · obtain ⟨out, h1, h2, _⟩ := RunEvent_presence net h source extra client hwf hget
    refine ⟨out, _, h1, h2, List.Perm.refl _, hwf.filter _, ?_, ?_, ?_⟩
    · simp
    · intro n
      simp
    · intro hk
      rw [h2, hk]
      simp
      rfl
  · intro before hbwf hvalid hgreet
    rw [Register_ok net before client source hgreet hvalid]
    obtain ⟨out, h1, h2, _⟩ := RunEvent_presence net
      { clients := before.clients.set source client,
        events := before.events ++ [joinEvent source, presenceEvent source] }
      source "" client (Table.set_wf _ _ _ hbwf) (Table.get?_set_same _ _ _)
    refine ⟨out, _, rfl, h1, h2, ?_⟩
    simp only
    rw [filter_keys_set]

theorem run_presence_lists_others_witness :
    roomOfThree.clients.WF ∧ roomOfThree.clients.get? "alice" = some 1 ∧
    ∃ out,
      RunEvent lossyNet roomOfThree { From := "alice", Typ := EventType.Presence, Message := "" }
        = some (roomOfThree, out) ∧
      sendsOf out = [(1, "* The room contains: bob, carol")] := by
  refine ⟨by decide, by decide, ?_⟩
  obtain ⟨⟨out, names, h1, h2, _⟩, _⟩ :=
    run_presence_lists_others lossyNet roomOfThree "alice" "" 1 (by decide) (by decide)
  refine ⟨out, h1, ?_⟩
  have hout : some (roomOfThree, out) = some (roomOfThree,
      [Effect.Send 1 "* The room contains: bob, carol",
        Effect.Print "failed to send message: broken pipe\n",
        Effect.Print "* The room contains: bob, carol\n"]) := h1.symm.trans (by decide)
  have hout2 := (Prod.mk.inj (Option.some.inj hout)).2
  rw [hout2]
  decide

/-! ## Register -/

theorem Register_error_iff (net : Net) (h : Hub) (client : Client)
    (received : Except Error String) :
    ((Register net h client received).1 ≠ none ↔
      (net.Send client greetingPhrase ≠ none ∨ (∃ e, received = Except.error e) ∨
        (∃ n, received = Except.ok n ∧ validateName n ≠ none))) ∧
    ((Register net h client received).1 ≠ none →
      (Register net h client received).2.1 = h ∧
      hubOps (Register net h client received).2.2 = []) := by
  cases hg : net.Send client greetingPhrase with
  | some err => simp [Register, handshake, hg, hubOps]
  | none =>
    cases received with
    | error e => simp [Register, handshake, hg, hubOps]
    | ok name =>
      cases hv : validateName name with
      | none => simp [Register, handshake, hg, hv]
      | some e =>
        cases hs : net.Send client ("failed to register: " ++ e.Error) <;>
          simp [Register, handshake, hg, hv, hs, hubOps]

/-- C2: when the greeting is written and the received name is accepted by
`validateName`, `Register` returns nil, leaves the table with `name` mapped to
this transport and otherwise as it was, and leaves the queue with a Join and
then a Presence event of `name` appended; these are its only statements on the
hub.  `Register` returns an error exactly when the greeting fails, the read
fails or the name is invalid, and then the table and the queue are unchanged. -/
theorem register_effect (net : Net) (h : Hub) (client : Client) (name : String)
    (hgreet : net.Send client greetingPhrase = none) (hvalid : validateName name = none) :
    (Register net h client (Except.ok name)).1 = none ∧
    (Register net h client (Except.ok name)).2.1
      = { clients := h.clients.set name client,
          events := h.events ++ [{ From := name, Typ := EventType.Join, Message := "" },
            { From := name, Typ := EventType.Presence, Message := "" }] } ∧
    hubOps (Register net h client (Except.ok name)).2.2
      = [Effect.Insert name client,
          Effect.Enqueue { From := name, Typ := EventType.Join, Message := "" },
          Effect.Enqueue { From := name, Typ := EventType.Presence, Message := "" }] ∧
    (h.clients.set name client).get? name = some client ∧
    (∀ other, other ≠ name → (h.clients.set name client).get? other = h.clients.get? other) ∧
    (∀ (anyNet : Net) (g : Hub) (c : Client) (received : Except Error String),
      ((Register anyNet g c received).1 ≠ none ↔
        (anyNet.Send c greetingPhrase ≠ none ∨ (∃ e, received = Except.error e) ∨
          (∃ n, received = Except.ok n ∧ validateName n ≠ none))) ∧
      ((Register anyNet g c received).1 ≠ none →
        (Register anyNet g c received).2.1 = g ∧
        hubOps (Register anyNet g c received).2.2 = [])) := by
  rw [Register_ok net h client name hgreet hvalid]
  refine ⟨rfl, rfl, rfl, Table.get?_set_same _ _ _, ?_, ?_⟩
  · intro other hne
    exact Table.get?_set_other _ _ _ _ hne
  · intro anyNet g c received
    exact Register_error_iff anyNet g c received

theorem register_effect_witness :
    quietNet.Send 3 greetingPhrase = none ∧ validateName "dave" = none ∧
    (Register quietNet roomOfThree 3 (Except.ok "dave")).1 = none ∧
    (Register quietNet roomOfThree 3 (Except.ok "dave")).2.1
      = { clients := [("bob", 0), ("alice", 1), ("carol", 2), ("dave", 3)],
          events := [{ From := "dave", Typ := EventType.Join, Message := "" },
            { From := "dave", Typ := EventType.Presence, Message := "" }] } := by
  refine ⟨by decide, by decide, ?_⟩
  obtain ⟨h1, h2, _⟩ := register_effect quietNet roomOfThree 3 "dave" (by decide) (by decide)
  exact ⟨h1, h2.trans (by decide)⟩

/-- C3, as the code has it: the validation error is returned only when the
rejection line could be written. -/
theorem register_reject_returns_send_error :
    validateName "" = some errEmptyName ∧
    greetOnlyNet.Send 0 greetingPhrase = none ∧
    (Register greetOnlyNet NewHub 0 (Except.ok "")).1
      = some (Error.Wrap "failed to send error message" (Error.New "broken pipe")) ∧
    (Register greetOnlyNet NewHub 0 (Except.ok "")).1 ≠ some errEmptyName := by
  decide

/-- C3, amended: when the received name fails `validateName` with error `e`,
`Register` calls `Send` with `failed to register: ` followed by the message of
`e`, then closes the transport; it returns `e` itself when that `Send`
succeeds, and the error of that `Send`, wrapped, when it fails; in both cases
the table and the queue are unchanged and nothing else is done. -/
theorem register_rejects_invalid_name (net : Net) (h : Hub) (client : Client)
    (name : String) (e : Error)
    (hgreet : net.Send client greetingPhrase = none) (hbad : validateName name = some e) :
    (Register net h client (Except.ok name)).2.1 = h ∧
    (Register net h client (Except.ok name)).2.2
      = [Effect.Send client greetingPhrase,
          Effect.Send client ("failed to register: " ++ e.Error), Effect.Close client] ∧
    (net.Send client ("failed to register: " ++ e.Error) = none →
      (Register net h client (Except.ok name)).1 = some e) ∧
    (∀ err, net.Send client ("failed to register: " ++ e.Error) = some err →
      (Register net h client (Except.ok name)).1
        = some (Error.Wrap "failed to send error message" err)) := by
  cases hs : net.Send client ("failed to register: " ++ e.Error) <;>
    simp [Register, handshake, hgreet, hbad, hs]

theorem register_rejects_invalid_name_witness :
    quietNet.Send 3 greetingPhrase = none ∧ validateName "a b" = some errInvalidCharacter ∧
    (Register quietNet roomOfThree 3 (Except.ok "a b")).2.1 = roomOfThree ∧
    (Register quietNet roomOfThree 3 (Except.ok "a b")).2.2
      = [Effect.Send 3 greetingPhrase,
          Effect.Send 3 "failed to register: name must contain only alphanumeric characters",
          Effect.Close 3] ∧
    (Register quietNet roomOfThree 3 (Except.ok "a b")).1 = some errInvalidCharacter := by
  refine ⟨by decide, by decide, ?_⟩
  obtain ⟨h1, h2, h3, _⟩ :=
    register_rejects_invalid_name quietNet roomOfThree 3 "a b" errInvalidCharacter
      (by decide) (by decide)
  exact ⟨h1, h2, h3 (by decide)⟩

/-! ## handleClient -/

theorem handleClient_ok (name : String) (client : Client) (h : Hub) (msg : String)
    (rest : List (Except Error String)) :
    handleClient name client h (Except.ok msg :: rest)
      = ((handleClient name client
            { h with events := h.events ++ [messageEvent name msg] } rest).1,
          (handleClient name client
            { h with events := h.events ++ [messageEvent name msg] } rest).2.1,
          Effect.Enqueue (messageEvent name msg)
            :: (handleClient name client
                  { h with events := h.events ++ [messageEvent name msg] } rest).2.2) := rfl

theorem handleClient_run (name : String) (client : Client) (lines : List String)
    (err : Error) (later : List (Except Error String)) (h : Hub) :
    (handleClient name client h (lines.map Except.ok ++ Except.error err :: later)).1 = true ∧
    (handleClient name client h (lines.map Except.ok ++ Except.error err :: later)).2.1
      = { clients := h.clients.delete name,
          events := h.events ++ lines.map (messageEvent name) ++ [leaveEvent name] } ∧
    hubOps (handleClient name client h (lines.map Except.ok ++ Except.error err :: later)).2.2
      = lines.map (fun l => Effect.Enqueue (messageEvent name l))
          ++ [Effect.Delete name, Effect.Enqueue (leaveEvent name)] := by
  induction lines generalizing h with
  | nil =>
    by_cases he : err.IsEOF = true
    · simp [handleClient, he, hubOps]
    · simp [handleClient, he, hubOps]
  | cons l rest ih =>
    obtain ⟨i1, i2, i3⟩ := ih { h with events := h.events ++ [messageEvent name l] }
    rw [List.map_cons, List.cons_append, handleClient_ok]
    refine ⟨i1, ?_, ?_⟩
    · rw [i2]
      simp
    · simp [hubOps, i3]

theorem handleClient_waiting (name : String) (client : Client) (lines : List String) (h : Hub) :
    handleClient name client h (lines.map Except.ok)
      = (false, { h with events := h.events ++ lines.map (messageEvent name) },
          lines.map (fun l => Effect.Enqueue (messageEvent name l))) := by
  induction lines generalizing h with
  | nil => simp [handleClient]
  | cons l rest ih =>
    rw [List.map_cons, handleClient_ok, ih]
    simp

theorem Table.delete_get? (t : Table) (name other : String) :
    (t.delete name).get? other = if other = name then none else t.get? other := by
  induction t with
  | nil => simp [Table.delete, Table.get?]
  | cons e rest ih =>
    obtain ⟨n, c⟩ := e
    unfold Table.delete at ih
    by_cases hn : n = name
    · subst hn
      by_cases ho : other = n
      · simp [Table.delete, ho] at ih ⊢
        simpa using ih
      · have ho2 : ¬ n = other := fun h => ho h.symm
        simp [Table.delete, Table.get?, ho, ho2] at ih ⊢
        exact ih
    · by_cases ho : other = name
      · have hno : ¬ n = other := fun h => hn (h.trans ho)
        simp [Table.delete, Table.get?, hn, ho, hno] at ih ⊢
        simpa [ho] using ih
      · by_cases hno : n = other
        · simp [Table.delete, Table.get?, hn, ho, hno]
        · simp [Table.delete, Table.get?, hn, ho, hno] at ih ⊢
          exact ih

/-- C7: after `k` successful `Receive` results and a failing one, the reader
task has enqueued the `k` Message events of `name` in order, then deleted
`name` from the table, then enqueued one Leave event, and has returned; what
the connection would answer later is not read.  The table and the queue are
left the same whatever the error of the failing `Receive`.  Until a `Receive`
fails the task has not returned and has only enqueued the Message events. -/
theorem handleClient_effect (name : String) (client : Client) (h : Hub)
    (lines : List String) (err : Error) (later : List (Except Error String)) :
    (handleClient name client h (lines.map Except.ok ++ Except.error err :: later)).1 = true ∧
    (handleClient name client h (lines.map Except.ok ++ Except.error err :: later)).2.1
      = { clients := h.clients.delete name,
          events := h.events
            ++ lines.map (fun l => { From := name, Typ := EventType.Message, Message := l })
            ++ [{ From := name, Typ := EventType.Leave, Message := "" }] } ∧
    hubOps (handleClient name client h (lines.map Except.ok ++ Except.error err :: later)).2.2
      = lines.map
          (fun l => Effect.Enqueue { From := name, Typ := EventType.Message, Message := l })
        ++ [Effect.Delete name,
            Effect.Enqueue { From := name, Typ := EventType.Leave, Message := "" }] ∧
    (h.clients.delete name).get? name = none ∧
    (∀ other, other ≠ name → (h.clients.delete name).get? other = h.clients.get? other) ∧
    (∀ (other : Error) (rest : List (Except Error String)),
      (handleClient name client h (lines.map Except.ok ++ Except.error other :: rest)).2.1
        = (handleClient name client h (lines.map Except.ok ++ Except.error err :: later)).2.1 ∧
      hubOps (handleClient name client h (lines.map Except.ok ++ Except.error other :: rest)).2.2
        = hubOps (handleClient name client h
            (lines.map Except.ok ++ Except.error err :: later)).2.2) ∧
    (handleClient name client h (lines.map Except.ok)).1 = false ∧
    (handleClient name client h (lines.map Except.ok)).2.1
      = { h with events := h.events
            ++ lines.map (fun l => { From := name, Typ := EventType.Message, Message := l }) } := by
  obtain ⟨h1, h2, h3⟩ := handleClient_run name client lines err later h
  refine ⟨h1, h2, h3, ?_, ?_, ?_, ?_, ?_⟩
  · simp [Table.delete_get?]
  · intro other hne
    simp [Table.delete_get?, hne]
  · intro other rest
    obtain ⟨_, g2, g3⟩ := handleClient_run name client lines other rest h
    exact ⟨g2.trans h2.symm, g3.trans h3.symm⟩
  · rw [handleClient_waiting]
  · rw [handleClient_waiting]
    rfl

/-! ## Lemmas on the interleaving model -/

theorem Table.mem_keys_set (t : Table) (name other : String) (client : Client) :
    other ∈ (t.set name client).keys ↔ other ∈ t.keys ∨ other = name := by
  rw [Table.keys_set]
  by_cases hin : name ∈ t.keys
  · simp only [hin, if_true]
    constructor
    · exact Or.inl
    · rintro (h | h)
      · exact h
      · rw [h]; exact hin
  · simp [hin]

theorem Table.mem_keys_delete (t : Table) (name other : String) :
    other ∈ (t.delete name).keys ↔ other ∈ t.keys ∧ other ≠ name := by
  unfold Table.delete Table.keys
  simp only [List.mem_map, List.mem_filter, decide_eq_true_eq]
  constructor
  · rintro ⟨e, ⟨he, hne⟩, rfl⟩
    exact ⟨⟨e, he, rfl⟩, hne⟩
  · rintro ⟨⟨e, he, rfl⟩, hne⟩
    exact ⟨e, ⟨he, hne⟩, rfl⟩

theorem RunEvent_hub (net : Net) (h g : Hub) (event : Event) (out : List Effect)
    (hr : RunEvent net h event = some (g, out)) : g = h := by
  unfold RunEvent at hr
  cases hty : event.Typ <;> simp only [hty, broadcast] at hr
  · exact ((Prod.mk.inj (Option.some.inj hr)).1).symm
  · exact ((Prod.mk.inj (Option.some.inj hr)).1).symm
  · exact ((Prod.mk.inj (Option.some.inj hr)).1).symm
  · cases hg : h.clients.get? event.From with
    | none => simp [hg] at hr
    | some client =>
      simp only [hg] at hr
      cases hs : net.Send client
          ("* The room contains: " ++ stringsJoin (removeName event.From (allClientNames h)) ", ")
      · simp only [hs] at hr
        exact ((Prod.mk.inj (Option.some.inj hr)).1).symm
      · simp only [hs] at hr
        exact ((Prod.mk.inj (Option.some.inj hr)).1).symm

theorem send_spec (s r : System) (i : Nat) (t : Task) (event : Event) (pc : Pc)
    (h : s.send i t event pc = some r) :
    r.hub.clients = s.hub.clients ∧ r.hub.events = s.hub.events ++ [event] ∧
    r.tasks = s.tasks.set i { t with pc := pc } ∧ r.accepted = s.accepted ∧
    s.hub.events.length < eventsCap := by
  unfold System.send at h
  by_cases hl : s.hub.events.length < eventsCap
  · simp only [hl, if_true] at h
    have := Option.some.inj h
    subst this
    exact ⟨rfl, rfl, rfl, rfl, hl⟩
  · simp [hl] at h

/-- A channel send by a task keeps the invariant, provided the event is not a
Leave event of `M` sent while `M` is a key, and the task does not move to the
point before the Leave send. -/
theorem send_leaveSafe (M : String) (n : Nat) (s r : System) (i : Nat) (t : Task)
    (event : Event) (pc : Pc) (hinv : LeaveSafe M n s) (ht : t ∈ s.tasks)
    (hsend : s.send i t event pc = some r) (hfrom : event.From = t.name)
    (hpc : pc ≠ Pc.Leave)
    (hev : event.Typ = EventType.Leave → t.pc = Pc.Leave) :
    LeaveSafe M n r := by
  obtain ⟨hc, he, htk, _, _⟩ := send_spec s r i t event pc hsend
  obtain ⟨i1, i2, i3⟩ := hinv
  refine ⟨?_, ?_, ?_⟩
  · intro hn0
    obtain ⟨a1, a2, a3⟩ := i1 hn0
    rw [hc, he, htk]
    refine ⟨a1, ?_, ?_⟩
    · intro t' ht'
      rcases List.mem_or_eq_of_mem_set ht' with h | h
      · exact a2 t' h
      · rw [h]; exact a2 t ht
    · intro e hmem
      rcases List.mem_append.mp hmem with h | h
      · exact a3 e h
      · simp at h
        rw [h, hfrom]
        exact a2 t ht
  · intro e hmem hty hfr
    rw [hc]
    rw [he] at hmem
    rcases List.mem_append.mp hmem with h | h
    · exact i2 e h hty hfr
    · simp at h
      subst h
      exact i3 t ht (hfrom.symm.trans hfr) (hev hty)
  · intro t' ht' hname hpc'
    rw [hc]
    rw [htk] at ht'
    rcases List.mem_or_eq_of_mem_set ht' with h | h
    · exact i3 t' h hname hpc'
    · rw [h] at hpc'
      exact absurd hpc' hpc

theorem exec_leaveSafe (net : Net) (M : String) (n : Nat) (s r : System) (a : Action)
    (hex : exec net s a = some r) (hinv : LeaveSafe M n s)
    (hn : n + (registeredNames net s.accepted [a]).count M ≤ 1) :
    LeaveSafe M (n + (registeredNames net s.accepted [a]).count M) r ∧
    r.accepted = s.accepted + a.accepts := by
  cases a with
  | Connect received =>
    unfold exec at hex
    by_cases hp : s.panicked = true
    · simp [hp] at hex
    · simp only [hp, if_false] at hex
      cases hh : handshake net s.accepted received with
      | mk res out =>
        cases res with
        | error err =>
          simp only [hh] at hex
          have := Option.some.inj hex
          subst this
          simp only [registeredNames, hh, List.count_nil, Nat.add_zero, Action.accepts]
          exact ⟨hinv, trivial⟩
        | ok name =>
          simp only [hh] at hex
          have := Option.some.inj hex
          subst this
          simp only [registeredNames, hh, Action.accepts, and_true] at hn ⊢
          obtain ⟨i1, i2, i3⟩ := hinv
          by_cases hm : name = M
          · subst hm
            have hn0 : n = 0 := by
              simp at hn
              omega
            obtain ⟨a1, a2, a3⟩ := i1 hn0
            refine ⟨?_, ?_, ?_⟩
            · intro h
              simp at h
            · intro e he _ hfr
              exact absurd hfr (a3 e he)
            · intro t ht hname hpc
              simp only [List.mem_append, List.mem_singleton] at ht
              rcases ht with h | h
              · exact absurd hname (a2 t h)
              · rw [h] at hpc
                exact absurd hpc (by simp)
          · have hc : List.count M [name] = 0 := by
              simp [List.count_cons, hm]
            rw [hc, Nat.add_zero]
            have hkeys : M ∉ s.hub.clients.keys →
                M ∉ (s.hub.clients.set name s.accepted).keys := by
              intro h1 h2
              rcases (Table.mem_keys_set _ _ _ _).mp h2 with h | h
              · exact h1 h
              · exact hm h.symm
            refine ⟨?_, ?_, ?_⟩
            · intro hn0
              obtain ⟨a1, a2, a3⟩ := i1 hn0
              refine ⟨hkeys a1, ?_, a3⟩
              intro t ht
              simp only [List.mem_append, List.mem_singleton] at ht
              rcases ht with h | h
              · exact a2 t h
              · rw [h]; exact hm
            · intro e he hty hfr
              exact hkeys (i2 e he hty hfr)
            · intro t ht hname hpc
              simp only [List.mem_append, List.mem_singleton] at ht
              rcases ht with h | h
              · exact hkeys (i3 t h hname hpc)
              · rw [h] at hpc
                exact absurd hpc (by simp)
  | Step i =>
    simp only [registeredNames, List.count_nil, Nat.add_zero, Action.accepts]
    unfold exec at hex
    by_cases hp : s.panicked = true
    · simp [hp] at hex
    · simp only [hp, if_false] at hex
      cases hg : s.tasks[i]? with
      | none => simp [hg] at hex
      | some t =>
        have ht : t ∈ s.tasks := List.getElem?_mem hg
        simp only [hg] at hex
        cases hpc : t.pc with
        | Join =>
          simp only [hpc] at hex
          exact ⟨send_leaveSafe M n s r i t _ _ hinv ht hex rfl (by simp)
            (by simp [joinEvent]), (send_spec _ _ _ _ _ _ hex).2.2.2.1⟩
        | Presence =>
          simp only [hpc] at hex
          exact ⟨send_leaveSafe M n s r i t _ _ hinv ht hex rfl (by simp)
            (by simp [presenceEvent]), (send_spec _ _ _ _ _ _ hex).2.2.2.1⟩
        | Message msg =>
          simp only [hpc] at hex
          exact ⟨send_leaveSafe M n s r i t _ _ hinv ht hex rfl (by simp)
            (by simp [messageEvent]), (send_spec _ _ _ _ _ _ hex).2.2.2.1⟩
        | Leave =>
          simp only [hpc] at hex
          exact ⟨send_leaveSafe M n s r i t _ _ hinv ht hex rfl (by simp)
            (fun _ => hpc), (send_spec _ _ _ _ _ _ hex).2.2.2.1⟩
        | Spawn =>
          simp only [hpc] at hex
          have := Option.some.inj hex
          subst this
          obtain ⟨i1, i2, i3⟩ := hinv
          refine ⟨⟨?_, i2, ?_⟩, rfl⟩
          · intro hn0
            obtain ⟨a1, a2, a3⟩ := i1 hn0
            refine ⟨a1, ?_, a3⟩
            intro t' ht'
            rcases List.mem_or_eq_of_mem_set ht' with h | h
            · exact a2 t' h
            · rw [h]; exact a2 t ht
          · intro t' ht' hname hpc'
            rcases List.mem_or_eq_of_mem_set ht' with h | h
            · exact i3 t' h hname hpc'
            · rw [h] at hpc'
              exact absurd hpc' (by simp)
        | Receive => simp [hpc] at hex
        | Done => simp [hpc] at hex
  | Receive i received =>
    simp only [registeredNames, List.count_nil, Nat.add_zero, Action.accepts]
    unfold exec at hex
    by_cases hp : s.panicked = true
    · simp [hp] at hex
    · simp only [hp, if_false] at hex
      cases hg : s.tasks[i]? with
      | none => simp [hg] at hex
      | some t =>
        have ht : t ∈ s.tasks := List.getElem?_mem hg
        simp only [hg] at hex
        cases hpc : t.pc with
        | Receive =>
          simp only [hpc] at hex
          cases received with
          | ok msg =>
            simp only at hex
            have := Option.some.inj hex
            subst this
            obtain ⟨i1, i2, i3⟩ := hinv
            refine ⟨⟨?_, i2, ?_⟩, rfl⟩
            · intro hn0
              obtain ⟨a1, a2, a3⟩ := i1 hn0
              refine ⟨a1, ?_, a3⟩
              intro t' ht'
              rcases List.mem_or_eq_of_mem_set ht' with h | h
              · exact a2 t' h
              · rw [h]; exact a2 t ht
            · intro t' ht' hname hpc'
              rcases List.mem_or_eq_of_mem_set ht' with h | h
              · exact i3 t' h hname hpc'
              · rw [h] at hpc'
                exact absurd hpc' (by simp)
          | error err =>
            simp only at hex
            have := Option.some.inj hex
            subst this
            obtain ⟨i1, i2, i3⟩ := hinv
            have hkeys : M ∉ s.hub.clients.keys → M ∉ (s.hub.clients.delete t.name).keys :=
              fun h1 h2 => h1 ((Table.mem_keys_delete _ _ _).mp h2).1
            refine ⟨⟨?_, ?_, ?_⟩, rfl⟩
            · intro hn0
              obtain ⟨a1, a2, a3⟩ := i1 hn0
              refine ⟨hkeys a1, ?_, a3⟩
              intro t' ht'
              rcases List.mem_or_eq_of_mem_set ht' with h | h
              · exact a2 t' h
              · rw [h]; exact a2 t ht
            · intro e he hty hfr
              exact hkeys (i2 e he hty hfr)
            · intro t' ht' hname hpc'
              rcases List.mem_or_eq_of_mem_set ht' with h | h
              · exact hkeys (i3 t' h hname hpc')
              · rw [h] at hname
                intro hmem
                exact ((Table.mem_keys_delete _ _ _).mp hmem).2 hname.symm
        | _ => simp [hpc] at hex
  | Consume =>
    simp only [registeredNames, List.count_nil, Nat.add_zero, Action.accepts]
    unfold exec at hex
    by_cases hp : s.panicked = true
    · simp [hp] at hex
    · simp only [hp, if_false] at hex
      cases hev : s.hub.events with
      | nil => simp [hev] at hex
      | cons event rest =>
        simp only [hev] at hex
        obtain ⟨i1, i2, i3⟩ := hinv
        rw [hev] at i1 i2
        have key : r.hub.clients = s.hub.clients ∧ r.hub.events = rest ∧
            r.tasks = s.tasks ∧ r.accepted = s.accepted := by
          cases hr : RunEvent net { clients := s.hub.clients, events := rest } event with
          | none =>
            simp only [hr] at hex
            have := Option.some.inj hex
            subst this
            exact ⟨rfl, rfl, rfl, rfl⟩
          | some p =>
            obtain ⟨g, out⟩ := p
            simp only [hr] at hex
            have hg := RunEvent_hub net _ g event out hr
            have := Option.some.inj hex
            subst this
            subst hg
            exact ⟨rfl, rfl, rfl, rfl⟩
        obtain ⟨k1, k2, k3, k4⟩ := key
        refine ⟨⟨?_, ?_, ?_⟩, k4⟩
        · intro hn0
          obtain ⟨a1, a2, a3⟩ := i1 hn0
          rw [k1, k2, k3]
          exact ⟨a1, a2, fun e he => a3 e (List.mem_cons_of_mem _ he)⟩
        · intro e he hty hfr
          rw [k1]
          rw [k2] at he
          exact i2 e (List.mem_cons_of_mem _ he) hty hfr
        · intro t ht hname hpc
          rw [k1]
          rw [k3] at ht
          exact i3 t ht hname hpc

/-! ## The Leave invariant -/

theorem registeredNames_cons (net : Net) (k : Nat) (a : Action) (rest : List Action) :
    registeredNames net k (a :: rest)
      = registeredNames net k [a] ++ registeredNames net (k + a.accepts) rest := by
  cases a with
  | Connect received =>
    cases hh : handshake net k received with
    | mk res out =>
      cases res <;> simp [registeredNames, hh, Action.accepts]
  | Step i => simp [registeredNames, Action.accepts]
  | Receive i received => simp [registeredNames, Action.accepts]
  | Consume => simp [registeredNames, Action.accepts]

theorem run_leaveSafe (net : Net) (M : String) (acts : List Action) :
    ∀ (s r : System) (n : Nat), run net s acts = some r → LeaveSafe M n s →
      n + (registeredNames net s.accepted acts).count M ≤ 1 → ∃ m, LeaveSafe M m r := by
  induction acts with
  | nil =>
    intro s r n hrun hinv _
    simp only [run] at hrun
    have := Option.some.inj hrun
    subst this
    exact ⟨n, hinv⟩
  | cons a rest ih =>
    intro s r n hrun hinv hn
    simp only [run] at hrun
    cases hex : exec net s a with
    | none => simp [hex] at hrun
    | some s1 =>
      simp only [hex] at hrun
      rw [registeredNames_cons, List.count_append] at hn
      obtain ⟨hinv1, hacc⟩ := exec_leaveSafe net M n s s1 a hex hinv (by omega)
      apply ih s1 r _ hrun hinv1
      rw [hacc]
      omega

theorem initial_leaveSafe (M : String) : LeaveSafe M 0 initial := by
  refine ⟨fun _ => ⟨?_, ?_, ?_⟩, ?_, ?_⟩ <;> simp [initial, NewHub, Table.keys]

theorem recipients_of_absent (t : Table) (source : String) (h : source ∉ t.keys) :
    recipients t source = t.map Prod.snd := by
  unfold recipients
  congr 1
  rw [List.filter_eq_self]
  intro e he
  have : e.1 ≠ source := fun heq => h (heq ▸ List.mem_map_of_mem Prod.fst he)
  simpa using this

/-- C9, as the code has it: a Leave event of `x` is the oldest in the channel
while `x` is a key of the table, registered again by a second client. -/
theorem leave_dequeued_while_name_in_use :
    (run quietNet initial nameReuseSchedule).map (fun s => (s.hub.events, s.hub.clients))
      = some ([{ From := "x", Typ := EventType.Leave, Message := "" }], [("x", 1)]) ∧
    "x" ∈ Table.keys [("x", 1)] ∧
    recipients [("x", 1)] "x" ≠ [1] := by
  decide

/-- A sufficient condition on the whole run: when the oldest event of the
channel is a Leave event of `M` and at most one `Register` call of the run has
inserted `M`, then `M` is not a key of the table. -/
theorem leave_absent_of_single_insertion (net : Net) (acts : List Action) (s : System)
    (e : Event) (rest : List Event)
    (hrun : run net initial acts = some s) (hq : s.hub.events = e :: rest)
    (hty : e.Typ = EventType.Leave)
    (honce : (registeredNames net 0 acts).count e.From ≤ 1) :
    e.From ∉ s.hub.clients.keys ∧ s.hub.clients.get? e.From = none ∧
    recipients s.hub.clients e.From = s.hub.clients.map Prod.snd := by
  obtain ⟨m, _, h2, _⟩ :=
    run_leaveSafe net e.From acts initial s 0 hrun (initial_leaveSafe _) (by
      simpa [initial] using honce)
  have hk : e.From ∉ s.hub.clients.keys := h2 e (by rw [hq]; simp) hty rfl
  exact ⟨hk, (Table.get?_eq_none _ _).mpr hk, recipients_of_absent _ _ hk⟩

/-- C8, the code on the failing schedule: after `quickLeaveSchedule` the Join
and Presence events of `x` are in the channel and `x` is not a key of the
table; the consumer handles the Join event and panics on the Presence event. -/
theorem presence_dequeued_after_removal :
    (run quietNet initial quickLeaveSchedule).map
        (fun s => (s.hub.events, s.hub.clients, s.panicked))
      = some ([{ From := "x", Typ := EventType.Join, Message := "" },
          { From := "x", Typ := EventType.Presence, Message := "" }], [], false) ∧
    "x" ∉ Table.keys [] ∧
    (run quietNet initial (quickLeaveSchedule ++ [Action.Consume])).map
        (fun s => (s.hub.events, s.hub.clients, s.panicked))
      = some ([{ From := "x", Typ := EventType.Presence, Message := "" }], [], false) ∧
    RunEvent quietNet { clients := [], events := [] }
        { From := "x", Typ := EventType.Presence, Message := "" } = none ∧
    (run quietNet initial (quickLeaveSchedule ++ [Action.Consume, Action.Consume])).map
        (fun s => s.panicked) = some true :=
  ⟨by decide, by decide, by decide, by decide, by decide⟩

/-! ## The tables of reachable states -/

theorem Table.values_set (t : Table) (name : String) (client c : Client)
    (h : c ∈ (t.set name client).map Prod.snd) : c ∈ t.map Prod.snd ∨ c = client := by
  induction t with
  | nil =>
    simp [Table.set] at h
    exact Or.inr h
  | cons e rest ih =>
    obtain ⟨n, d⟩ := e
    by_cases hn : n = name
    · simp only [Table.set, hn, if_true, List.map_cons, List.mem_cons] at h ⊢
      rcases h with h | h
      · exact Or.inr h
      · exact Or.inl (Or.inr h)
    · simp only [Table.set, hn, if_false, List.map_cons, List.mem_cons] at h ⊢
      rcases h with h | h
      · exact Or.inl (Or.inl h)
      · rcases ih h with h | h
        · exact Or.inl (Or.inr h)
        · exact Or.inr h

theorem Table.set_exclusive (t : Table) (name : String) (client : Client)
    (hex : t.Exclusive) (hfresh : client ∉ t.map Prod.snd) : (t.set name client).Exclusive := by
  unfold Table.Exclusive at *
  induction t with
  | nil => simp [Table.set]
  | cons e rest ih =>
    obtain ⟨n, d⟩ := e
    simp only [List.map_cons, List.nodup_cons, List.mem_cons, not_or] at hex hfresh
    by_cases hn : n = name
    · simp only [Table.set, hn, if_true, List.map_cons, List.nodup_cons]
      exact ⟨hfresh.2, hex.2⟩
    · simp only [Table.set, hn, if_false, List.map_cons, List.nodup_cons]
      refine ⟨?_, ih hex.2 hfresh.2⟩
      intro hmem
      rcases Table.values_set rest name client d hmem with h | h
      · exact hex.1 h
      · exact hfresh.1 h.symm

theorem Table.delete_wf (t : Table) (name : String) (hwf : t.WF) : (t.delete name).WF := by
  unfold Table.WF Table.keys Table.delete at *
  exact (List.Nodup.sublist (List.Sublist.map _ (List.filter_sublist _)) hwf)

theorem Table.delete_exclusive (t : Table) (name : String) (hex : t.Exclusive) :
    (t.delete name).Exclusive := by
  unfold Table.Exclusive Table.delete at *
  exact (List.Nodup.sublist (List.Sublist.map _ (List.filter_sublist _)) hex)

theorem Table.values_delete (t : Table) (name : String) (c : Client)
    (h : c ∈ (t.delete name).map Prod.snd) : c ∈ t.map Prod.snd := by
  unfold Table.delete at h
  obtain ⟨e, he, hee⟩ := List.mem_map.mp h
  rw [← hee]
  exact List.mem_map_of_mem _ (List.mem_of_mem_filter he)

theorem exec_tableOk (net : Net) (s r : System) (a : Action)
    (hex : exec net s a = some r) (hinv : TableOk s) : TableOk r := by
  obtain ⟨w, x, b⟩ := hinv
  cases a with
  | Connect received =>
    unfold exec at hex
    by_cases hp : s.panicked = true
    · simp [hp] at hex
    · simp only [hp, if_false] at hex
      cases hh : handshake net s.accepted received with
      | mk res out =>
        cases res with
        | error err =>
          simp only [hh] at hex
          have := Option.some.inj hex
          subst this
          exact ⟨w, x, fun c hc => Nat.lt_succ_of_lt (b c hc)⟩
        | ok name =>
          simp only [hh] at hex
          have := Option.some.inj hex
          subst this
          refine ⟨Table.set_wf _ _ _ w,
            Table.set_exclusive _ _ _ x (fun hmem => Nat.lt_irrefl _ (b _ hmem)), ?_⟩
          intro c hc
          rcases Table.values_set _ _ _ _ hc with h | h
          · exact Nat.lt_succ_of_lt (b c h)
          · rw [h]; exact Nat.lt_succ_self _
  | Step i =>
    unfold exec at hex
    by_cases hp : s.panicked = true
    · simp [hp] at hex
    · simp only [hp, if_false] at hex
      cases hg : s.tasks[i]? with
      | none => simp [hg] at hex
      | some t =>
        simp only [hg] at hex
        have send_case : ∀ (event : Event) (pc : Pc), s.send i t event pc = some r →
            TableOk r := by
          intro event pc hsend
          obtain ⟨hc, _, _, ha, _⟩ := send_spec s r i t event pc hsend
          unfold TableOk
          rw [hc, ha]
          exact ⟨w, x, b⟩
        cases hpc : t.pc with
        | Join => simp only [hpc] at hex; exact send_case _ _ hex
        | Presence => simp only [hpc] at hex; exact send_case _ _ hex
        | Message msg => simp only [hpc] at hex; exact send_case _ _ hex
        | Leave => simp only [hpc] at hex; exact send_case _ _ hex
        | Spawn =>
          simp only [hpc] at hex
          have := Option.some.inj hex
          subst this
          exact ⟨w, x, b⟩
        | Receive => simp [hpc] at hex
        | Done => simp [hpc] at hex
  | Receive i received =>
    unfold exec at hex
    by_cases hp : s.panicked = true
    · simp [hp] at hex
    · simp only [hp, if_false] at hex
      cases hg : s.tasks[i]? with
      | none => simp [hg] at hex
      | some t =>
        simp only [hg] at hex
        cases hpc : t.pc with
        | Receive =>
          simp only [hpc] at hex
          cases received with
          | ok msg =>
            simp only at hex
            have := Option.some.inj hex
            subst this
            exact ⟨w, x, b⟩
          | error err =>
            simp only at hex
            have := Option.some.inj hex
            subst this
            exact ⟨Table.delete_wf _ _ w, Table.delete_exclusive _ _ x,
              fun c hc => b c (Table.values_delete _ _ _ hc)⟩
        | _ => simp [hpc] at hex
  | Consume =>
    unfold exec at hex
    by_cases hp : s.panicked = true
    · simp [hp] at hex
    · simp only [hp, if_false] at hex
      cases hev : s.hub.events with
      | nil => simp [hev] at hex
      | cons event rest =>
        simp only [hev] at hex
        cases hr : RunEvent net { clients := s.hub.clients, events := rest } event with
        | none =>
          simp only [hr] at hex
          have := Option.some.inj hex
          subst this
          exact ⟨w, x, b⟩
        | some p =>
          obtain ⟨g, out⟩ := p
          simp only [hr] at hex
          have hg := RunEvent_hub net _ g event out hr
          have := Option.some.inj hex
          subst this
          subst hg
          exact ⟨w, x, b⟩

/-- In every reachable state the table holds every key once and every
transport under one name only. -/
theorem run_tableOk (net : Net) (acts : List Action) :
    ∀ (s r : System), run net s acts = some r → TableOk s → TableOk r := by
  induction acts with
  | nil =>
    intro s r hrun hinv
    simp only [run] at hrun
    have := Option.some.inj hrun
    subst this
    exact hinv
  | cons a rest ih =>
    intro s r hrun hinv
    simp only [run] at hrun
    cases hex : exec net s a with
    | none => simp [hex] at hrun
    | some s1 =>
      simp only [hex] at hrun
      exact ih s1 r hrun (exec_tableOk net s s1 a hex hinv)

theorem reachable_tableOk (net : Net) (acts : List Action) (s : System)
    (hrun : run net initial acts = some s) : TableOk s :=
  run_tableOk net acts initial s hrun
    ⟨by simp [initial, NewHub, Table.WF, Table.keys],
      by simp [initial, NewHub, Table.Exclusive], by simp [initial, NewHub]⟩

/-! ## The tasks of the interleaving model run the functions of the hub -/

theorem send_enabled (s : System) (i : Nat) (t : Task) (event : Event) (pc : Pc)
    (hroom : s.hub.events.length < eventsCap) :
    s.send i t event pc
      = some { s with
          hub := { s.hub with events := s.hub.events ++ [event] }
          tasks := s.tasks.set i { t with pc := pc }
          out := s.out ++ [Effect.Enqueue event] } := by
  simp [System.send, hroom]

theorem handshake_ok (net : Net) (client : Client) (name : String)
    (hgreet : net.Send client greetingPhrase = none) (hvalid : validateName name = none) :
    handshake net client (Except.ok name)
      = (Except.ok name, [Effect.Send client greetingPhrase]) := by
  simp [handshake, hgreet, hvalid]

/-- A `Register` call that fails is one step of the system and leaves the hub
alone. -/
theorem run_register_error (net : Net) (s : System) (received : Except Error String)
    (hp : s.panicked = false)
    (herr : (Register net s.hub s.accepted received).1 ≠ none) :
    run net s [Action.Connect received]
      = some { s with
          accepted := s.accepted + 1
          out := s.out ++ (Register net s.hub s.accepted received).2.2 } := by
  cases hh : handshake net s.accepted received with
  | mk res out =>
    cases res with
    | error err => simp [run, exec, hp, hh, Register]
    | ok name => simp [Register, hh] at herr

/-- A `Register` call that succeeds is four steps of the system, the insertion,
the two channel sends and the `go`, provided the channel has room for two
events; run without interruption they leave the hub that `Register` returns
and a reader task for the client. -/
theorem run_register_ok (net : Net) (s : System) (name : String)
    (hp : s.panicked = false) (hroom : s.hub.events.length + 2 ≤ eventsCap)
    (hgreet : net.Send s.accepted greetingPhrase = none)
    (hvalid : validateName name = none) :
    run net s [Action.Connect (Except.ok name), Action.Step s.tasks.length,
        Action.Step s.tasks.length, Action.Step s.tasks.length]
      = some
          { hub := (Register net s.hub s.accepted (Except.ok name)).2.1
            tasks := s.tasks ++ [{ name := name, client := s.accepted, pc := Pc.Receive }]
            accepted := s.accepted + 1
            out := s.out ++ (Register net s.hub s.accepted (Except.ok name)).2.2
            panicked := false } := by
  have h1 : s.hub.events.length < eventsCap := by omega
  have h2 : s.hub.events.length + 1 < eventsCap := by omega
  rw [Register_ok net s.hub s.accepted name hgreet hvalid]
  simp [run, exec, hp, handshake_ok net s.accepted name hgreet hvalid, System.send, h1, h2]

/-- The run of a reader task is the run of `handleClient`: its steps, taken
without interruption while the channel has room, leave the hub and the effects
that `handleClient` returns. -/
theorem run_handleClient (net : Net) (i : Nat) (name : String) (client : Client)
    (err : Error) (lines : List String) :
    ∀ s : System, s.panicked = false →
      s.tasks[i]? = some { name := name, client := client, pc := Pc.Receive } →
      s.hub.events.length + lines.length + 1 ≤ eventsCap →
      run net s (readerActions i lines err)
        = some { s with
            hub := (handleClient name client s.hub
              (lines.map Except.ok ++ [Except.error err])).2.1
            tasks := s.tasks.set i { name := name, client := client, pc := Pc.Done }
            out := s.out ++ (handleClient name client s.hub
              (lines.map Except.ok ++ [Except.error err])).2.2 } := by
  induction lines with
  | nil =>
    intro s hp ht hroom
    have h1 : s.hub.events.length < eventsCap := by
      simp at hroom
      omega
    have hlt : i < s.tasks.length := by
      rcases Nat.lt_or_ge i s.tasks.length with h | h
      · exact h
      · rw [List.getElem?_eq_none h] at ht
        exact absurd ht (by simp)
    by_cases he : err.IsEOF = true <;>
      simp [readerActions, run, exec, hp, ht, System.send, h1, handleClient, he, hlt]
  | cons line rest ih =>
    intro s hp ht hroom
    have h1 : s.hub.events.length < eventsCap := by
      simp at hroom
      omega
    have hlt : i < s.tasks.length := by
      rcases Nat.lt_or_ge i s.tasks.length with h | h
      · exact h
      · rw [List.getElem?_eq_none h] at ht
        exact absurd ht (by simp)
    have hself : s.tasks.set i { name := name, client := client, pc := Pc.Receive } = s.tasks := by
      apply List.ext_getElem?
      intro j
      by_cases hj : i = j
      · subst hj
        simp [hlt, ht]
      · simp [List.getElem?_set, hj]
    have step2 : run net s (readerActions i (line :: rest) err)
        = run net { s with
            hub := { s.hub with events := s.hub.events ++ [messageEvent name line] }
            out := s.out ++ [Effect.Enqueue (messageEvent name line)] }
          (readerActions i rest err) := by
      simp [readerActions, run, exec, hp, ht, System.send, h1, hlt, hself]
    have hnext := ih
      { s with
        hub := { s.hub with events := s.hub.events ++ [messageEvent name line] }
        out := s.out ++ [Effect.Enqueue (messageEvent name line)] }
      hp ht (by simp at hroom ⊢; omega)
    rw [step2, hnext]
    simp [handleClient_ok]

/-! ## The end-to-end scenario -/

/-- C13: from `NewHub()`, with every queued notification handled before the
next client action: after client 0 registers as `bob` it has been sent the
greeting and the empty listing; after client 1 registers as `alice`, client 0
has also been sent the Join line and client 1 the greeting and the listing
`bob`; after the line `hello` of client 0, client 1 is sent `[bob] hello` and
client 0 nothing; after the stream of client 0 ends, client 1 is sent the
Leave line and the table holds `alice` alone. -/
theorem end_to_end_scenario :
    (run quietNet initial scenarioBob).map scenarioView
      = some ([greetingPhrase, "* The room contains: "], [], [("bob", 0)], []) ∧
    (run quietNet initial scenarioAlice).map scenarioView
      = some ([greetingPhrase, "* The room contains: ", "* alice has entered the room"],
          [greetingPhrase, "* The room contains: bob"], [("bob", 0), ("alice", 1)], []) ∧
    (run quietNet initial scenarioHello).map scenarioView
      = some ([greetingPhrase, "* The room contains: ", "* alice has entered the room"],
          [greetingPhrase, "* The room contains: bob", "[bob] hello"],
          [("bob", 0), ("alice", 1)], []) ∧
    (run quietNet initial scenarioLeave).map scenarioView
      = some ([greetingPhrase, "* The room contains: ", "* alice has entered the room"],
          [greetingPhrase, "* The room contains: bob", "[bob] hello",
            "* bob has left the room"],
          [("alice", 1)], []) :=
  ⟨by decide, by decide, by decide, by decide⟩

/-! ## Register on a name that is in use -/

theorem Table.set_length_of_mem (t : Table) (name : String) (client : Client)
    (h : name ∈ t.keys) : (t.set name client).length = t.length := by
  induction t with
  | nil => simp [Table.keys] at h
  | cons e rest ih =>
    obtain ⟨n, c⟩ := e
    by_cases hn : n = name
    · simp [Table.set, hn]
    · have hin : name ∈ Table.keys rest := by
        simp only [Table.keys, List.map_cons, List.mem_cons] at h
        rcases h with h | h
        · exact absurd h.symm hn
        · exact h
      simp [Table.set, hn, ih hin]

theorem Table.values_set_of_get? (t : Table) (name : String) (old client : Client)
    (hex : t.Exclusive) (hg : t.get? name = some old) :
    ∀ c ∈ (t.set name client).map Prod.snd, c = client ∨ (c ∈ t.map Prod.snd ∧ c ≠ old) := by
  unfold Table.Exclusive at hex
  induction t with
  | nil => simp [Table.get?] at hg
  | cons e rest ih =>
    obtain ⟨m, d⟩ := e
    simp only [List.map_cons, List.nodup_cons] at hex
    intro c hc
    by_cases hm : m = name
    · simp only [Table.get?, hm, if_true, Option.some.injEq] at hg
      subst hg
      simp only [Table.set, hm, if_true, List.map_cons, List.mem_cons] at hc
      rcases hc with h | h
      · exact Or.inl h
      · right
        refine ⟨List.mem_cons_of_mem _ h, ?_⟩
        intro hcd
        exact hex.1 (hcd ▸ h)
    · simp only [Table.get?, hm, if_false] at hg
      have hold : old ∈ rest.map Prod.snd :=
        List.mem_map_of_mem Prod.snd (Table.mem_of_get? rest name old hg)
      simp only [Table.set, hm, if_false, List.map_cons, List.mem_cons] at hc
      rcases hc with h | h
      · right
        refine ⟨by rw [h]; exact List.mem_cons_self _ _, ?_⟩
        intro hcd
        rw [h] at hcd
        exact hex.1 (hcd ▸ hold)
      · rcases ih hex.2 hg c h with h2 | h2
        · exact Or.inl h2
        · exact Or.inr ⟨List.mem_cons_of_mem _ h2.1, h2.2⟩

/-- C14: `Register` does not reject a valid name that is in use.  On a table
that maps `name` to `old`, a new transport that supplies `name` is registered:
`Register` returns nil, the table maps `name` to the new transport, keeps its
keys and its number of entries and every other entry, and the queue and the
statements on the hub are those of a registration under a fresh name; when the
old transport was in the table under this name only, it is in the table no
more. -/
theorem register_overwrites_name (net : Net) (h : Hub) (name : String) (old client : Client)
    (hold : h.clients.get? name = some old)
    (hgreet : net.Send client greetingPhrase = none) (hvalid : validateName name = none) :
    (Register net h client (Except.ok name)).1 = none ∧
    (Register net h client (Except.ok name)).2.1.clients.get? name = some client ∧
    (∀ other, other ≠ name →
      (Register net h client (Except.ok name)).2.1.clients.get? other
        = h.clients.get? other) ∧
    (Register net h client (Except.ok name)).2.1.clients.keys = h.clients.keys ∧
    (Register net h client (Except.ok name)).2.1.clients.length = h.clients.length ∧
    (Register net h client (Except.ok name)).2.1.events
      = h.events ++ [{ From := name, Typ := EventType.Join, Message := "" },
          { From := name, Typ := EventType.Presence, Message := "" }] ∧
    (∀ fresh : Hub, name ∉ fresh.clients.keys →
      (Register net fresh client (Except.ok name)).1 = none ∧
      (Register net fresh client (Except.ok name)).2.2
        = (Register net h client (Except.ok name)).2.2 ∧
      (Register net fresh client (Except.ok name)).2.1.events
        = fresh.events ++ [{ From := name, Typ := EventType.Join, Message := "" },
            { From := name, Typ := EventType.Presence, Message := "" }]) ∧
    (h.clients.Exclusive → old ≠ client →
      old ∉ (Register net h client (Except.ok name)).2.1.clients.map Prod.snd) := by
  have hin : name ∈ h.clients.keys := Table.mem_keys_of_get? _ _ _ hold
  rw [Register_ok net h client name hgreet hvalid]
  refine ⟨rfl, Table.get?_set_same _ _ _, ?_, ?_, Table.set_length_of_mem _ _ _ hin, rfl,
    ?_, ?_⟩
  · intro other hne
    exact Table.get?_set_other _ _ _ _ hne
  · simp [Table.keys_set, hin]
  · intro fresh _
    rw [Register_ok net fresh client name hgreet hvalid]
    exact ⟨rfl, rfl, rfl⟩
  · intro hex hne hmem
    rcases Table.values_set_of_get? _ _ _ _ hex hold old hmem with h1 | h1
    · exact hne h1
    · exact h1.2 rfl

theorem register_overwrites_name_witness :
    roomOfThree.clients.get? "alice" = some 1 ∧
    quietNet.Send 7 greetingPhrase = none ∧ validateName "alice" = none ∧
    (Register quietNet roomOfThree 7 (Except.ok "alice")).1 = none ∧
    (Register quietNet roomOfThree 7 (Except.ok "alice")).2.1.clients.get? "alice" = some 7 ∧
    (Register quietNet roomOfThree 7 (Except.ok "alice")).2.1.clients.length = 3 ∧
    1 ∉ (Register quietNet roomOfThree 7 (Except.ok "alice")).2.1.clients.map Prod.snd := by
  refine ⟨by decide, by decide, by decide, ?_⟩
  obtain ⟨h1, h2, _, _, h5, _, _, h8⟩ :=
    register_overwrites_name quietNet roomOfThree "alice" 1 7 (by decide) (by decide)
      (by decide)
  exact ⟨h1, h2, h5, h8 (by decide) (by decide)⟩

/-! ## The frame of the consumer -/

theorem broadcastLoop_members (net : Net) (source msg : String) (t : Table) :
    ∀ e ∈ broadcastLoop net source msg t,
      (∃ client, e = Effect.Send client msg ∧ client ∈ t.map Prod.snd) ∨
      (∃ text, e = Effect.Print text) := by
  induction t with
  | nil => simp [broadcastLoop]
  | cons x rest ih =>
    obtain ⟨name, client⟩ := x
    have lift : ∀ e, ((∃ c, e = Effect.Send c msg ∧ c ∈ rest.map Prod.snd) ∨
        (∃ text, e = Effect.Print text)) →
        ((∃ c, e = Effect.Send c msg ∧ c ∈ ((name, client) :: rest).map Prod.snd) ∨
        (∃ text, e = Effect.Print text)) := by
      rintro e (⟨c, h1, h2⟩ | h)
      · exact Or.inl ⟨c, h1, List.mem_cons_of_mem _ h2⟩
      · exact Or.inr h
    by_cases hn : name = source
    · intro e he
      simp only [broadcastLoop, hn, if_true] at he
      exact lift e (ih e he)
    · cases hs : net.Send client msg
      · intro e he
        simp only [broadcastLoop, hn, hs, if_false, List.mem_cons] at he
        rcases he with rfl | he
        · exact Or.inl ⟨client, rfl, List.mem_cons_self _ _⟩
        · exact lift e (ih e he)
      · intro e he
        simp only [broadcastLoop, hn, hs, if_false, List.mem_cons] at he
        rcases he with rfl | rfl | he
        · exact Or.inl ⟨client, rfl, List.mem_cons_self _ _⟩
        · exact Or.inr ⟨_, rfl⟩
        · exact lift e (ih e he)

theorem RunEvent_effects (net : Net) (h g : Hub) (event : Event) (out : List Effect)
    (hr : RunEvent net h event = some (g, out)) :
    ∀ e ∈ out,
      (∃ client msg, e = Effect.Send client msg ∧ client ∈ h.clients.map Prod.snd) ∨
      (∃ text, e = Effect.Print text) := by
  have frombc : ∀ (msg : String) (e : Effect),
      e ∈ broadcastLoop net event.From msg h.clients →
      (∃ client msg, e = Effect.Send client msg ∧ client ∈ h.clients.map Prod.snd) ∨
      (∃ text, e = Effect.Print text) := by
    intro msg e he
    rcases broadcastLoop_members net event.From msg h.clients e he with ⟨c, h1, h2⟩ | h1
    · exact Or.inl ⟨c, msg, h1, h2⟩
    · exact Or.inr h1
  unfold RunEvent at hr
  cases hty : event.Typ <;> simp only [hty, broadcast] at hr
  · have := (Prod.mk.inj (Option.some.inj hr)).2
    subst this
    intro e he
    rcases List.mem_append.mp he with h1 | h1
    · exact frombc _ e h1
    · simp at h1
      exact Or.inr ⟨_, h1⟩
  · have := (Prod.mk.inj (Option.some.inj hr)).2
    subst this
    intro e he
    rcases List.mem_append.mp he with h1 | h1
    · exact frombc _ e h1
    · simp at h1
      exact Or.inr ⟨_, h1⟩
  · have := (Prod.mk.inj (Option.some.inj hr)).2
    subst this
    intro e he
    exact frombc _ e he
  · cases hg : h.clients.get? event.From with
    | none => simp [hg] at hr
    | some client =>
      have hmem : client ∈ h.clients.map Prod.snd :=
        List.mem_map_of_mem Prod.snd (Table.mem_of_get? _ _ _ hg)
      simp only [hg] at hr
      cases hs : net.Send client
          ("* The room contains: " ++ stringsJoin (removeName event.From (allClientNames h)) ", ")
      · simp only [hs] at hr
        have := (Prod.mk.inj (Option.some.inj hr)).2
        subst this
        intro e he
        simp only [List.mem_cons, List.mem_singleton, List.not_mem_nil, or_false] at he
        rcases he with rfl | rfl
        · exact Or.inl ⟨client, _, rfl, hmem⟩
        · exact Or.inr ⟨_, rfl⟩
      · simp only [hs] at hr
        have := (Prod.mk.inj (Option.some.inj hr)).2
        subst this
        intro e he
        simp only [List.mem_cons, List.mem_singleton, List.not_mem_nil, or_false] at he
        rcases he with rfl | rfl | rfl
        · exact Or.inl ⟨client, _, rfl, hmem⟩
        · exact Or.inr ⟨_, rfl⟩
        · exact Or.inr ⟨_, rfl⟩

theorem hubOps_of_sends_prints (out : List Effect)
    (h : ∀ e ∈ out, (∃ client msg, e = Effect.Send client msg) ∨ (∃ text, e = Effect.Print text)) :
    hubOps out = [] := by
  induction out with
  | nil => rfl
  | cons e rest ih =>
    have hrest := ih (fun x hx => h x (List.mem_cons_of_mem _ hx))
    rcases h e (List.mem_cons_self _ _) with ⟨c, m, rfl⟩ | ⟨t, rfl⟩ <;> simpa [hubOps] using hrest

theorem RunEvent_none_iff (net : Net) (h : Hub) (event : Event) :
    RunEvent net h event = none ↔
      event.Typ = EventType.Presence ∧ event.From ∉ h.clients.keys := by
  unfold RunEvent
  cases hty : event.Typ <;> simp only [hty, broadcast]
  · simp
  · simp
  · simp
  · cases hg : h.clients.get? event.From with
    | none =>
      simp [(Table.get?_eq_none _ _).mp hg]
    | some client =>
      have hin := Table.mem_keys_of_get? _ _ _ hg
      cases hs : net.Send client
          ("* The room contains: " ++ stringsJoin (removeName event.From (allClientNames h)) ", ")
        <;> simp [hin, hs]

/-- C15: the handling of an event of any kind by `Run` returns the hub as it
was, the table with the same keys mapped to the same transports and the queue
untouched; it makes no statement on the table or on the channel, and apart
from its log lines on standard output all it does is call `Send` on transports
of the table.  It comes to nothing only on a Presence event whose source is
not a key, where it panics. -/
theorem run_event_frame (net : Net) (h g : Hub) (event : Event) (out : List Effect)
    (hr : RunEvent net h event = some (g, out)) :
    g = h ∧ g.clients = h.clients ∧ (∀ name, g.clients.get? name = h.clients.get? name) ∧
    g.events = h.events ∧ hubOps out = [] ∧
    (∀ e ∈ out,
      (∃ client msg, e = Effect.Send client msg ∧ client ∈ h.clients.map Prod.snd) ∨
      (∃ text, e = Effect.Print text)) ∧
    (∀ (anyNet : Net) (k : Hub) (ev : Event),
      RunEvent anyNet k ev = none ↔
        ev.Typ = EventType.Presence ∧ ev.From ∉ k.clients.keys) := by
  have hg := RunEvent_hub net h g event out hr
  have he := RunEvent_effects net h g event out hr
  subst hg
  refine ⟨rfl, rfl, fun _ => rfl, rfl, ?_, he, fun anyNet k ev => RunEvent_none_iff anyNet k ev⟩
  apply hubOps_of_sends_prints
  intro e hmem
  rcases he e hmem with ⟨c, m, h1, _⟩ | h1
  · exact Or.inl ⟨c, m, h1⟩
  · exact Or.inr h1

theorem run_event_frame_witness :
    RunEvent lossyNet roomOfThree { From := "bob", Typ := EventType.Message, Message := "hi" }
      = some (roomOfThree,
          [Effect.Send 1 "[bob] hi", Effect.Print "failed to send message: broken pipe\n",
            Effect.Send 2 "[bob] hi", Effect.Print "[bob] hi\n"]) ∧
    roomOfThree.clients = [("bob", 0), ("alice", 1), ("carol", 2)] ∧
    hubOps [Effect.Send 1 "[bob] hi", Effect.Print "failed to send message: broken pipe\n",
      Effect.Send 2 "[bob] hi", Effect.Print "[bob] hi\n"] = [] := by
  refine ⟨by decide, ?_⟩
  obtain ⟨_, h2, _, _, h5, _⟩ :=
    run_event_frame lossyNet roomOfThree roomOfThree
      { From := "bob", Typ := EventType.Message, Message := "hi" }
      [Effect.Send 1 "[bob] hi", Effect.Print "failed to send message: broken pipe\n",
        Effect.Send 2 "[bob] hi", Effect.Print "[bob] hi\n"] (by decide)
  exact ⟨h2, h5⟩

/-! ## The transport -/

/-- C12, the code on the failing input: the stream `bob\nhello\n` has the two
lines `bob` and `hello`.  When one `Read` brings both, the first `Receive`
returns `bob` and the second one does not return `hello`: it reports the end
of the stream, or returns the next line that arrives.  When each line comes in
a `Read` of its own, or a line comes in pieces, the calls return the lines in
turn. -/
theorem receive_drops_buffered_line :
    streamLines [] ("bob\nhello\n").data = ["bob".data, "hello".data] ∧
    Receive ["bob\nhello\n"] = (Except.ok "bob", []) ∧
    Receive (Receive ["bob\nhello\n"]).2
      = (Except.error (Error.Wrap "failed to read" Error.EOF), []) ∧
    Receive (Receive ["bob\nhello\n", "again\n"]).2 = (Except.ok "again", []) ∧
    Receive ["bob\n", "hello\n"] = (Except.ok "bob", ["hello\n"]) ∧
    Receive (Receive ["bob\n", "hello\n"]).2 = (Except.ok "hello", []) ∧
    Receive (Receive ["bo", "b \r\n", "hel", "lo\n"]).2 = (Except.ok "hello", []) :=
  ⟨by decide, by decide, by decide, by decide, by decide, by decide, by decide⟩

/-! ## The order of the notifications -/

theorem enqueuedOf_append (a b : List Effect) :
    enqueuedOf (a ++ b) = enqueuedOf a ++ enqueuedOf b := by
  induction a with
  | nil => rfl
  | cons e rest ih => cases e <;> simp [enqueuedOf, ih]

theorem sendsTo_append (client : Client) (a b : List Effect) :
    sendsTo client (a ++ b) = sendsTo client a ++ sendsTo client b := by
  simp [sendsTo, sendsOf_append]

theorem enqueuedOf_of_hubOps (out : List Effect) (h : hubOps out = []) :
    enqueuedOf out = [] := by
  induction out with
  | nil => rfl
  | cons e rest ih =>
    cases e <;> simp [hubOps] at h <;> simp [enqueuedOf, ih h]

theorem RunEvent_table_only (net : Net) (t : Table) (q1 q2 : List Event) (event : Event) :
    (RunEvent net { clients := t, events := q1 } event).map Prod.snd
      = (RunEvent net { clients := t, events := q2 } event).map Prod.snd := by
  unfold RunEvent
  cases hty : event.Typ <;> simp only [hty, broadcast, allClientNames, Option.map]
  cases hg : t.get? event.From with
  | none => rfl
  | some client =>
    simp only
    cases hs : net.Send client
      ("* The room contains: " ++ stringsJoin (removeName event.From (Table.keys t)) ", ") <;> rfl

theorem send_out (s r : System) (i : Nat) (t : Task) (event : Event) (pc : Pc)
    (h : s.send i t event pc = some r) : r.out = s.out ++ [Effect.Enqueue event] := by
  unfold System.send at h
  by_cases hl : s.hub.events.length < eventsCap
  · simp only [hl, if_true] at h
    have := Option.some.inj h
    subst this
    rfl
  · simp [hl] at h

/-- What one step adds to the log, and what it does to the channel: the
consumer takes the oldest event, every other step appends what it enqueues. -/
theorem exec_delta (net : Net) (s r : System) (a : Action)
    (hex : exec net s a = some r) :
    ∃ d, r.out = s.out ++ d ∧
      ((a = Action.Consume ∧ ∃ e q, s.hub.events = e :: q ∧ r.hub.events = q ∧
          enqueuedOf d = [] ∧ ∀ c, sendsTo c d = turnSends net c (e, s.hub.clients)) ∨
        (a ≠ Action.Consume ∧ r.hub.events = s.hub.events ++ enqueuedOf d)) := by
  cases a with
  | Connect received =>
    unfold exec at hex
    by_cases hp : s.panicked = true
    · simp [hp] at hex
    · simp only [hp, if_false] at hex
      cases hh : handshake net s.accepted received with
      | mk res out =>
        have hout : enqueuedOf out = [] := by
          unfold handshake at hh
          cases hg : net.Send s.accepted greetingPhrase with
          | some e =>
            simp only [hg] at hh
            rw [← (Prod.mk.inj hh).2]; rfl
          | none =>
            simp only [hg] at hh
            cases received with
            | error e =>
              simp only at hh
              rw [← (Prod.mk.inj hh).2]; rfl
            | ok n =>
              simp only at hh
              cases hv : validateName n with
              | none =>
                simp only [hv] at hh
                rw [← (Prod.mk.inj hh).2]; rfl
              | some e =>
                simp only [hv] at hh
                cases hs : net.Send s.accepted ("failed to register: " ++ e.Error) <;>
                  simp only [hs] at hh <;> rw [← (Prod.mk.inj hh).2] <;> rfl
        cases res with
        | error err =>
          simp only [hh] at hex
          have := Option.some.inj hex
          subst this
          exact ⟨out, rfl, Or.inr ⟨by simp, by simp [hout]⟩⟩
        | ok name =>
          simp only [hh] at hex
          have := Option.some.inj hex
          subst this
          refine ⟨out ++ [Effect.Insert name s.accepted], by simp, Or.inr ⟨by simp, ?_⟩⟩
          simp [enqueuedOf_append, hout, enqueuedOf]
  | Step i =>
    unfold exec at hex
    by_cases hp : s.panicked = true
    · simp [hp] at hex
    · simp only [hp, if_false] at hex
      cases hg : s.tasks[i]? with
      | none => simp [hg] at hex
      | some t =>
        simp only [hg] at hex
        have send_case : ∀ (event : Event) (pc : Pc), s.send i t event pc = some r →
            ∃ d, r.out = s.out ++ d ∧
              ((Action.Step i = Action.Consume ∧ ∃ e q, s.hub.events = e :: q ∧
                  r.hub.events = q ∧ enqueuedOf d = [] ∧
                  ∀ c, sendsTo c d = turnSends net c (e, s.hub.clients)) ∨
                (Action.Step i ≠ Action.Consume ∧
                  r.hub.events = s.hub.events ++ enqueuedOf d)) := by
          intro event pc hsend
          refine ⟨[Effect.Enqueue event], send_out _ _ _ _ _ _ hsend, Or.inr ⟨by simp, ?_⟩⟩
          rw [(send_spec _ _ _ _ _ _ hsend).2.1]
          rfl
        cases hpc : t.pc with
        | Join => simp only [hpc] at hex; exact send_case _ _ hex
        | Presence => simp only [hpc] at hex; exact send_case _ _ hex
        | Message msg => simp only [hpc] at hex; exact send_case _ _ hex
        | Leave => simp only [hpc] at hex; exact send_case _ _ hex
        | Spawn =>
          simp only [hpc] at hex
          have := Option.some.inj hex
          subst this
          exact ⟨[Effect.Go t.name t.client], rfl, Or.inr ⟨by simp, by simp [enqueuedOf]⟩⟩
        | Receive => simp [hpc] at hex
        | Done => simp [hpc] at hex
  | Receive i received =>
    unfold exec at hex
    by_cases hp : s.panicked = true
    · simp [hp] at hex
    · simp only [hp, if_false] at hex
      cases hg : s.tasks[i]? with
      | none => simp [hg] at hex
      | some t =>
        simp only [hg] at hex
        cases hpc : t.pc with
        | Receive =>
          simp only [hpc] at hex
          cases received with
          | ok msg =>
            simp only at hex
            have := Option.some.inj hex
            subst this
            exact ⟨[], by simp, Or.inr ⟨by simp, by simp [enqueuedOf]⟩⟩
          | error err =>
            simp only at hex
            have := Option.some.inj hex
            subst this
            refine ⟨(if err.IsEOF = true then []
                else [Effect.Print ("failed to read message: " ++ err.Error ++ "\n")])
                ++ [Effect.Delete t.name], by simp, Or.inr ⟨by simp, ?_⟩⟩
            by_cases he : err.IsEOF = true <;> simp [he, enqueuedOf]
        | _ => simp [hpc] at hex
  | Consume =>
    unfold exec at hex
    by_cases hp : s.panicked = true
    · simp [hp] at hex
    · simp only [hp, if_false] at hex
      cases hev : s.hub.events with
      | nil => simp [hev] at hex
      | cons event rest =>
        simp only [hev] at hex
        have hsame := RunEvent_table_only net s.hub.clients rest [] event
        cases hr : RunEvent net { clients := s.hub.clients, events := rest } event with
        | none =>
          simp only [hr] at hex
          have := Option.some.inj hex
          subst this
          rw [hr] at hsame
          refine ⟨[], by simp, Or.inl ⟨rfl, event, rest, rfl, rfl, rfl, ?_⟩⟩
          intro c
          cases hr0 : RunEvent net { clients := s.hub.clients, events := [] } event with
          | none => simp [turnSends, hr0, sendsTo, sendsOf]
          | some p => rw [hr0] at hsame; simp at hsame
        | some p =>
          obtain ⟨g, out⟩ := p
          simp only [hr] at hex
          have hg := RunEvent_hub net _ g event out hr
          have := Option.some.inj hex
          subst this
          subst hg
          rw [hr] at hsame
          refine ⟨out, rfl, Or.inl ⟨rfl, event, rest, rfl, rfl, ?_, ?_⟩⟩
          · apply enqueuedOf_of_hubOps
            apply hubOps_of_sends_prints
            intro e hmem
            rcases RunEvent_effects net _ _ event out hr e hmem with ⟨c, m, h1, _⟩ | h1
            · exact Or.inl ⟨c, m, h1⟩
            · exact Or.inr h1
          · intro c
            cases hr0 : RunEvent net { clients := s.hub.clients, events := [] } event with
            | none => rw [hr0] at hsame; simp at hsame
            | some p0 =>
              obtain ⟨g0, out0⟩ := p0
              rw [hr0] at hsame
              simp only [Option.map, Option.some.injEq] at hsame
              simp [turnSends, hr0, hsame]

theorem turns_cons_consume (net : Net) (s s1 : System) (rest : List Action)
    (e : Event) (q : List Event) (hex : exec net s Action.Consume = some s1)
    (hq : s.hub.events = e :: q) :
    turns net s (Action.Consume :: rest) = (e, s.hub.clients) :: turns net s1 rest := by
  simp [turns, hex, hq]

theorem turns_cons_other (net : Net) (s s1 : System) (a : Action) (rest : List Action)
    (hex : exec net s a = some s1) (ha : a ≠ Action.Consume) :
    turns net s (a :: rest) = turns net s1 rest := by
  cases a with
  | Consume => exact absurd rfl ha
  | Connect received => simp [turns, hex]
  | Step i => simp [turns, hex]
  | Receive i received => simp [turns, hex]

/-- The queue discipline along a schedule: the events taken by the consumer,
followed by the events still in the channel, are the events that the channel
held at the start followed by the events enqueued since, in the order of their
enqueueing; and the lines that the consumer sent to a client in its successive
turns occur in the log in the order of the turns. -/
theorem run_fifo (net : Net) (c : Client) (acts : List Action) :
    ∀ s r : System, run net s acts = some r →
      ∃ d, r.out = s.out ++ d ∧
        (turns net s acts).map Prod.fst ++ r.hub.events = s.hub.events ++ enqueuedOf d ∧
        ((turns net s acts).flatMap (turnSends net c)).Sublist (sendsTo c d) := by
  induction acts with
  | nil =>
    intro s r hrun
    simp only [run] at hrun
    have := Option.some.inj hrun
    subst this
    exact ⟨[], by simp, by simp [turns, enqueuedOf], by simp [turns, sendsTo, sendsOf]⟩
  | cons a rest ih =>
    intro s r hrun
    simp only [run] at hrun
    cases hex : exec net s a with
    | none => simp [hex] at hrun
    | some s1 =>
      simp only [hex] at hrun
      obtain ⟨d2, ho2, hq2, hs2⟩ := ih s1 r hrun
      obtain ⟨d1, ho1, hstep⟩ := exec_delta net s s1 a hex
      refine ⟨d1 ++ d2, by rw [ho2, ho1, List.append_assoc], ?_, ?_⟩
      · rcases hstep with ⟨ha, e, q, hq, hq1, hen, _⟩ | ⟨ha, hq1⟩
        · subst ha
          rw [turns_cons_consume net s s1 rest e q hex hq, enqueuedOf_append, hen, hq]
          simp only [List.map_cons, List.cons_append, List.nil_append]
          rw [hq2, hq1]
        · rw [turns_cons_other net s s1 a rest hex ha, enqueuedOf_append, hq2, hq1,
            List.append_assoc]
      · rw [sendsTo_append]
        rcases hstep with ⟨ha, e, q, hq, _, _, hsd⟩ | ⟨ha, _⟩
        · subst ha
          rw [turns_cons_consume net s s1 rest e q hex hq, List.flatMap_cons, hsd c]
          exact List.Sublist.append (List.Sublist.refl _) hs2
        · rw [turns_cons_other net s s1 a rest hex ha]
          exact hs2.trans (List.sublist_append_right _ _)

theorem run_append (net : Net) (a1 a2 : List Action) :
    ∀ s m : System, run net s a1 = some m → run net s (a1 ++ a2) = run net m a2 := by
  induction a1 with
  | nil =>
    intro s m h
    simp only [run] at h
    have := Option.some.inj h
    subst this
    rfl
  | cons a rest ih =>
    intro s m h
    simp only [run, List.cons_append] at h ⊢
    cases hex : exec net s a with
    | none => simp [hex] at h
    | some s1 =>
      simp only [hex] at h ⊢
      exact ih s1 m h

theorem split_at_index {α : Type} (l : List α) :
    ∀ (n : Nat) (a : α), l[n]? = some a → ∃ p q, l = p ++ a :: q ∧ p.length = n := by
  induction l with
  | nil => intro n a h; simp at h
  | cons x rest ih =>
    intro n a h
    cases n with
    | zero =>
      simp at h
      exact ⟨[], rest, by simp [h], rfl⟩
    | succ k =>
      simp at h
      obtain ⟨p, q, hl, hp⟩ := ih k a h
      exact ⟨x :: p, q, by simp [hl], by simp [hp]⟩

theorem split_at_two {α : Type} (l : List α) (n1 n2 : Nat) (a b : α)
    (h1 : l[n1]? = some a) (h2 : l[n2]? = some b) (hlt : n1 < n2) :
    ∃ p q r, l = p ++ a :: (q ++ b :: r) := by
  obtain ⟨p, tl, hl, hp⟩ := split_at_index l n1 a h1
  subst hl
  have h3 : tl[n2 - n1 - 1]? = some b := by
    rw [List.getElem?_append_right (by omega)] at h2
    have : n2 - p.length = (n2 - n1 - 1) + 1 := by omega
    rw [this] at h2
    simpa using h2
  obtain ⟨q, r, hl2, _⟩ := split_at_index tl _ b h3
  exact ⟨p, q, r, by rw [hl2]⟩

theorem turnSends_message (net : Net) (t : Table) (A B l : String) (cB : Client)
    (hB : (B, cB) ∈ t) (hne : B ≠ A) :
    ["[" ++ A ++ "] " ++ l].Sublist (turnSends net cB (messageEvent A l, t)) := by
  have hs := sendsOf_broadcastLoop net A ("[" ++ A ++ "] " ++ l) t
  have hmem : cB ∈ recipients t A := by
    unfold recipients
    refine List.mem_map.mpr ⟨(B, cB), List.mem_filter.mpr ⟨hB, ?_⟩, rfl⟩
    simpa using hne
  have hpos : 0 < (recipients t A).count cB := List.count_pos_iff.mpr hmem
  have heq : turnSends net cB (messageEvent A l, t)
      = List.replicate ((recipients t A).count cB) ("[" ++ A ++ "] " ++ l) := by
    simp only [turnSends, RunEvent, messageEvent, broadcast, sendsTo_append_print]
    exact sendsTo_eq cB _ _ _ hs
  rw [heq]
  obtain ⟨k, hk⟩ := Nat.exists_eq_succ_of_ne_zero (Nat.pos_iff_ne_zero.mp hpos)
  rw [hk, List.replicate_succ]
  exact List.Sublist.cons₂ _ (List.nil_sublist _)

theorem step_message (net : Net) (s r : System) (i : Nat) (A l : String) (cA : Client)
    (hpc : s.tasks[i]? = some { name := A, client := cA, pc := Pc.Message l })
    (hex : exec net s (Action.Step i) = some r) :
    r.out = s.out ++ [Effect.Enqueue (messageEvent A l)] := by
  unfold exec at hex
  by_cases hp : s.panicked = true
  · simp [hp] at hex
  · simp only [hp, if_false, hpc] at hex
    exact send_out _ _ _ _ _ _ hex

theorem run_cons_some (net : Net) (s r : System) (a : Action) (rest : List Action)
    (h : run net s (a :: rest) = some r) :
    ∃ m, exec net s a = some m ∧ run net m rest = some r := by
  simp only [run] at h
  cases hex : exec net s a with
  | none => simp [hex] at h
  | some m =>
    simp only [hex] at h
    exact ⟨m, rfl, h⟩

theorem getElem?_middle {α : Type} (p : List α) (a : α) (r : List α) :
    (p ++ a :: r)[p.length]? = some a := by
  rw [List.getElem?_append_right (Nat.le_refl _), Nat.sub_self]
  exact List.getElem?_cons_zero

theorem run_out_grows (net : Net) (acts : List Action) (s r : System)
    (h : run net s acts = some r) : ∃ d, r.out = s.out ++ d := by
  obtain ⟨d, hd, _⟩ := run_fifo net 0 acts s r h
  exact ⟨d, hd⟩

/-- C11: the channel and the single consumer keep the order in which one
source enqueued its notifications.  Along any schedule from `NewHub()`, let the
reader task of `A` enqueue the Message event of line `l1` and later that of
line `l2`.  The turn of the consumer whose index is the number of events
enqueued before `l1` handles the event of `l1`, and likewise for `l2`; and when
a member `B` other than `A` is in the table, with transport `cB`, at both
turns, the log holds a `Send` of `[A] l1` to `cB` and after it a `Send` of
`[A] l2` to `cB`. -/
theorem messages_from_one_source_in_order (net : Net)
    (acts1 acts2 acts3 : List Action) (s1 s2 s3 : System) (i : Nat)
    (A B l1 l2 : String) (cA cB : Client) (e1 e2 : Event) (t1 t2 : Table)
    (h1 : run net initial acts1 = some s1)
    (hpc1 : s1.tasks[i]? = some { name := A, client := cA, pc := Pc.Message l1 })
    (h2 : run net s1 (Action.Step i :: acts2) = some s2)
    (hpc2 : s2.tasks[i]? = some { name := A, client := cA, pc := Pc.Message l2 })
    (h3 : run net s2 (Action.Step i :: acts3) = some s3)
    (hturn1 : (turns net initial (acts1 ++ Action.Step i :: acts2 ++ Action.Step i :: acts3))[
        (enqueuedOf s1.out).length]? = some (e1, t1))
    (hturn2 : (turns net initial (acts1 ++ Action.Step i :: acts2 ++ Action.Step i :: acts3))[
        (enqueuedOf s2.out).length]? = some (e2, t2))
    (hB1 : (B, cB) ∈ t1) (hB2 : (B, cB) ∈ t2) (hne : B ≠ A) :
    e1 = { From := A, Typ := EventType.Message, Message := l1 } ∧
    e2 = { From := A, Typ := EventType.Message, Message := l2 } ∧
    ["[" ++ A ++ "] " ++ l1, "[" ++ A ++ "] " ++ l2].Sublist (sendsTo cB s3.out) := by
  -- the whole schedule
  have hall : run net initial (acts1 ++ Action.Step i :: acts2 ++ Action.Step i :: acts3)
      = some s3 := by
    rw [List.append_assoc, run_append net acts1 _ initial s1 h1,
      run_append net _ _ s1 s2 h2]
    exact h3
  obtain ⟨d, hd, hq, hs⟩ := run_fifo net cB _ initial s3 hall
  have hout3 : s3.out = d := by simpa [initial] using hd
  have hq' : (turns net initial
      (acts1 ++ Action.Step i :: acts2 ++ Action.Step i :: acts3)).map Prod.fst
        ++ s3.hub.events = enqueuedOf s3.out := by
    rw [hout3]
    simpa [initial, NewHub] using hq
  -- the two enqueueing steps
  obtain ⟨m1, hx1, hr1⟩ := run_cons_some net s1 s2 _ _ h2
  obtain ⟨m2, hx2, hr2⟩ := run_cons_some net s2 s3 _ _ h3
  have ho1 := step_message net s1 m1 i A l1 cA hpc1 hx1
  have ho2 := step_message net s2 m2 i A l2 cA hpc2 hx2
  obtain ⟨d12, hd12⟩ := run_out_grows net acts2 m1 s2 hr1
  obtain ⟨d23, hd23⟩ := run_out_grows net acts3 m2 s3 hr2
  have hE2 : enqueuedOf s2.out
      = enqueuedOf s1.out ++ messageEvent A l1 :: enqueuedOf d12 := by
    rw [hd12, ho1]
    simp [enqueuedOf_append, enqueuedOf]
  have hE3 : enqueuedOf s3.out
      = enqueuedOf s2.out ++ messageEvent A l2 :: enqueuedOf d23 := by
    rw [hd23, ho2]
    simp [enqueuedOf_append, enqueuedOf]
  -- the events of the two turns
  have hidx : ∀ (n : Nat) (e : Event) (t : Table),
      (turns net initial (acts1 ++ Action.Step i :: acts2 ++ Action.Step i :: acts3))[n]?
        = some (e, t) → (enqueuedOf s3.out)[n]? = some e := by
    intro n e t hn
    rw [← hq']
    have hlt : n < ((turns net initial
        (acts1 ++ Action.Step i :: acts2 ++ Action.Step i :: acts3)).map Prod.fst).length := by
      rw [List.length_map]
      by_contra hcon
      rw [List.getElem?_eq_none (by omega)] at hn
      exact absurd hn (by simp)
    rw [List.getElem?_append_left hlt, List.getElem?_map, hn]
    rfl
  have hE31 : enqueuedOf s3.out = enqueuedOf s1.out
      ++ messageEvent A l1 :: (enqueuedOf d12 ++ messageEvent A l2 :: enqueuedOf d23) := by
    rw [hE3, hE2]
    simp
  have he1 : e1 = messageEvent A l1 := by
    have := hidx _ e1 t1 hturn1
    rw [hE31, getElem?_middle] at this
    exact (Option.some.inj this).symm
  have he2 : e2 = messageEvent A l2 := by
    have := hidx _ e2 t2 hturn2
    rw [hE3, getElem?_middle] at this
    exact (Option.some.inj this).symm
  refine ⟨he1, he2, ?_⟩
  -- the two turns in the log
  have hlt : (enqueuedOf s1.out).length < (enqueuedOf s2.out).length := by
    rw [hE2]
    simp
  obtain ⟨p, q, r, hT⟩ := split_at_two _ _ _ _ _ hturn1 hturn2 hlt
  rw [hT] at hs
  rw [hout3]
  refine List.Sublist.trans ?_ hs
  subst he1
  subst he2
  simp only [List.flatMap_append, List.flatMap_cons]
  have s1' := turnSends_message net t1 A B l1 cB hB1 hne
  have s2' := turnSends_message net t2 A B l2 cB hB2 hne
  have step1 : ["[" ++ A ++ "] " ++ l1, "[" ++ A ++ "] " ++ l2].Sublist
      (turnSends net cB (messageEvent A l1, t1) ++ turnSends net cB (messageEvent A l2, t2)) :=
    List.Sublist.append s1' s2'
  refine step1.trans ?_
  apply List.Sublist.trans _ (List.sublist_append_right _ _)
  apply List.Sublist.append (List.Sublist.refl _)
  apply List.Sublist.trans _ (List.sublist_append_right _ _)
  exact List.sublist_append_left _ _

theorem messages_from_one_source_in_order_witness :
    run quietNet initial fifoFirst = some (stateAfter quietNet fifoFirst) ∧
    (stateAfter quietNet fifoFirst).tasks[0]?
      = some { name := "bob", client := 0, pc := Pc.Message "hello" } ∧
    run quietNet (stateAfter quietNet fifoFirst) (Action.Step 0 :: fifoSecond)
      = some (stateAfter quietNet (fifoFirst ++ Action.Step 0 :: fifoSecond)) ∧
    (stateAfter quietNet (fifoFirst ++ Action.Step 0 :: fifoSecond)).tasks[0]?
      = some { name := "bob", client := 0, pc := Pc.Message "again" } ∧
    run quietNet (stateAfter quietNet (fifoFirst ++ Action.Step 0 :: fifoSecond))
        (Action.Step 0 :: fifoThird)
      = some (stateAfter quietNet
          (fifoFirst ++ Action.Step 0 :: fifoSecond ++ Action.Step 0 :: fifoThird)) ∧
    (turns quietNet initial
        (fifoFirst ++ Action.Step 0 :: fifoSecond ++ Action.Step 0 :: fifoThird))[
        (enqueuedOf (stateAfter quietNet fifoFirst).out).length]?
      = some (messageEvent "bob" "hello", [("bob", 0), ("alice", 1)]) ∧
    (turns quietNet initial
        (fifoFirst ++ Action.Step 0 :: fifoSecond ++ Action.Step 0 :: fifoThird))[
        (enqueuedOf (stateAfter quietNet (fifoFirst ++ Action.Step 0 :: fifoSecond)).out).length]?
      = some (messageEvent "bob" "again", [("bob", 0), ("alice", 1)]) ∧
    ["[bob] hello", "[bob] again"].Sublist
      (sendsTo 1 (stateAfter quietNet
        (fifoFirst ++ Action.Step 0 :: fifoSecond ++ Action.Step 0 :: fifoThird)).out) := by
  refine ⟨by decide, by decide, by decide, by decide, by decide, by decide, by decide, ?_⟩
  exact (messages_from_one_source_in_order quietNet fifoFirst fifoSecond fifoThird
    (stateAfter quietNet fifoFirst)
    (stateAfter quietNet (fifoFirst ++ Action.Step 0 :: fifoSecond))
    (stateAfter quietNet (fifoFirst ++ Action.Step 0 :: fifoSecond ++ Action.Step 0 :: fifoThird))
    0 "bob" "alice" "hello" "again" 0 1
    (messageEvent "bob" "hello") (messageEvent "bob" "again")
    [("bob", 0), ("alice", 1)] [("bob", 0), ("alice", 1)]
    (by decide) (by decide) (by decide) (by decide) (by decide) (by decide) (by decide)
    (by decide) (by decide) (by decide)).2.2

/-! ## The table along the log -/

theorem keyAfter_append (M : String) (d1 d2 : List Effect) :
    ∀ before : Bool, keyAfter M before (d1 ++ d2) = keyAfter M (keyAfter M before d1) d2 := by
  induction d1 with
  | nil => intro before; rfl
  | cons e rest ih =>
    intro before
    rw [List.cons_append]
    cases e <;> simp only [keyAfter] <;> exact ih _

theorem no_insert_of_hubOps (d : List Effect) (h : hubOps d = []) (name : String)
    (client : Client) : Effect.Insert name client ∉ d := by
  induction d with
  | nil => exact List.not_mem_nil _
  | cons e rest ih =>
    intro hmem
    cases e <;> simp [hubOps] at h <;> simp only [List.mem_cons] at hmem <;>
      rcases hmem with he | he <;> first | exact ih h he | simp at he

theorem keyAfter_of_hubOps (M : String) (d : List Effect) (h : hubOps d = []) :
    ∀ before : Bool, keyAfter M before d = before := by
  induction d with
  | nil => intro before; rfl
  | cons e rest ih =>
    intro before
    cases e <;> simp [hubOps] at h <;> simp only [keyAfter, ih h]

theorem keyAfter_enqueue (M : String) (event : Event) (before : Bool) :
    keyAfter M before [Effect.Enqueue event] = before := rfl

/-- A log that makes `M` a key holds an insertion of `M`. -/
theorem keyAfter_insert (M : String) (d : List Effect) :
    ∀ before : Bool, keyAfter M before d = true →
      before = true ∨ ∃ client, Effect.Insert M client ∈ d := by
  induction d with
  | nil => intro before h; exact Or.inl h
  | cons e rest ih =>
    intro before h
    have lift : (∃ client, Effect.Insert M client ∈ rest) →
        ∃ client, Effect.Insert M client ∈ e :: rest :=
      fun ⟨c, hc⟩ => ⟨c, List.mem_cons_of_mem _ hc⟩
    cases e with
    | Insert name client =>
      simp only [keyAfter] at h
      by_cases hn : name = M
      · subst hn
        exact Or.inr ⟨client, List.mem_cons_self _ _⟩
      · simp only [hn, if_false] at h
        rcases ih before h with hb | hb
        · exact Or.inl hb
        · exact Or.inr (lift hb)
    | Delete name =>
      simp only [keyAfter] at h
      by_cases hn : name = M
      · simp only [hn, if_true] at h
        rcases ih false h with hb | hb
        · exact absurd hb (by decide)
        · exact Or.inr (lift hb)
      · simp only [hn, if_false] at h
        rcases ih before h with hb | hb
        · exact Or.inl hb
        · exact Or.inr (lift hb)
    | Send client msg =>
      simp only [keyAfter] at h
      rcases ih before h with hb | hb
      · exact Or.inl hb
      · exact Or.inr (lift hb)
    | Close client =>
      simp only [keyAfter] at h
      rcases ih before h with hb | hb
      · exact Or.inl hb
      · exact Or.inr (lift hb)
    | Print text =>
      simp only [keyAfter] at h
      rcases ih before h with hb | hb
      · exact Or.inl hb
      · exact Or.inr (lift hb)
    | Go name client =>
      simp only [keyAfter] at h
      rcases ih before h with hb | hb
      · exact Or.inl hb
      · exact Or.inr (lift hb)
    | Enqueue event =>
      simp only [keyAfter] at h
      rcases ih before h with hb | hb
      · exact Or.inl hb
      · exact Or.inr (lift hb)

theorem handshake_hubOps (net : Net) (client : Client) (received : Except Error String) :
    hubOps (handshake net client received).2 = [] := by
  unfold handshake
  cases hg : net.Send client greetingPhrase with
  | some e => rfl
  | none =>
    cases received with
    | error e => rfl
    | ok n =>
      simp only
      cases hv : validateName n with
      | none => rfl
      | some e =>
        simp only
        cases hs : net.Send client ("failed to register: " ++ e.Error) <;> rfl

/-- What one step adds to the log and does to the keys of the table: the keys
afterwards are those that the insertions and deletions of the step make of the
keys before, and an insertion is that of a `Register` call of the step. -/
theorem exec_keys (net : Net) (s r : System) (a : Action)
    (hex : exec net s a = some r) :
    ∃ d, r.out = s.out ++ d ∧ r.accepted = s.accepted + a.accepts ∧
      (∀ (M : String) (before : Bool), (before = true ↔ M ∈ s.hub.clients.keys) →
        (keyAfter M before d = true ↔ M ∈ r.hub.clients.keys)) ∧
      (∀ (name : String) (client : Client), Effect.Insert name client ∈ d →
        name ∈ registeredNames net s.accepted [a]) := by
  cases a with
  | Connect received =>
    unfold exec at hex
    by_cases hp : s.panicked = true
    · simp [hp] at hex
    · simp only [hp, if_false] at hex
      have hops := handshake_hubOps net s.accepted received
      cases hh : handshake net s.accepted received with
      | mk res out =>
        rw [hh] at hops
        simp only at hops
        have hnoins := no_insert_of_hubOps out hops
        cases res with
        | error err =>
          simp only [hh] at hex
          have := Option.some.inj hex
          subst this
          refine ⟨out, rfl, rfl, ?_, ?_⟩
          · intro M before hb
            rw [keyAfter_of_hubOps M out hops]
            exact hb
          · intro name client hmem
            exact absurd hmem (hnoins name client)
        | ok name =>
          simp only [hh] at hex
          have := Option.some.inj hex
          subst this
          refine ⟨out ++ [Effect.Insert name s.accepted], by simp, rfl, ?_, ?_⟩
          · intro M before hb
            rw [keyAfter_append, keyAfter_of_hubOps M out hops]
            simp only [keyAfter, Table.mem_keys_set]
            by_cases hn : name = M
            · simp [hn]
            · have hn2 : ¬ M = name := fun h => hn h.symm
              simp only [hn, if_false, hn2, or_false]
              exact hb
          · intro nm client hmem
            rcases List.mem_append.mp hmem with h1 | h1
            · exact absurd h1 (hnoins nm client)
            · simp only [List.mem_singleton, Effect.Insert.injEq] at h1
              simp only [registeredNames, hh, List.mem_singleton]
              exact h1.1
  | Step i =>
    unfold exec at hex
    by_cases hp : s.panicked = true
    · simp [hp] at hex
    · simp only [hp, if_false] at hex
      cases hg : s.tasks[i]? with
      | none => simp [hg] at hex
      | some t =>
        simp only [hg] at hex
        have send_case : ∀ (event : Event) (pc : Pc), s.send i t event pc = some r →
            ∃ d, r.out = s.out ++ d ∧ r.accepted = s.accepted + (Action.Step i).accepts ∧
              (∀ (M : String) (before : Bool), (before = true ↔ M ∈ s.hub.clients.keys) →
                (keyAfter M before d = true ↔ M ∈ r.hub.clients.keys)) ∧
              (∀ (name : String) (client : Client), Effect.Insert name client ∈ d →
                name ∈ registeredNames net s.accepted [Action.Step i]) := by
          intro event pc hsend
          have hspec := send_spec _ _ _ _ _ _ hsend
          refine ⟨[Effect.Enqueue event], send_out _ _ _ _ _ _ hsend, hspec.2.2.2.1, ?_, ?_⟩
          · intro M before hb
            rw [keyAfter_enqueue, hspec.1]
            exact hb
          · intro name client hmem
            simp at hmem
        cases hpc : t.pc with
        | Join => simp only [hpc] at hex; exact send_case _ _ hex
        | Presence => simp only [hpc] at hex; exact send_case _ _ hex
        | Message msg => simp only [hpc] at hex; exact send_case _ _ hex
        | Leave => simp only [hpc] at hex; exact send_case _ _ hex
        | Spawn =>
          simp only [hpc] at hex
          have := Option.some.inj hex
          subst this
          refine ⟨[Effect.Go t.name t.client], rfl, rfl, ?_, ?_⟩
          · intro M before hb
            exact hb
          · intro name client hmem
            simp at hmem
        | Receive => simp [hpc] at hex
        | Done => simp [hpc] at hex
  | Receive i received =>
    unfold exec at hex
    by_cases hp : s.panicked = true
    · simp [hp] at hex
    · simp only [hp, if_false] at hex
      cases hg : s.tasks[i]? with
      | none => simp [hg] at hex
      | some t =>
        simp only [hg] at hex
        cases hpc : t.pc with
        | Receive =>
          simp only [hpc] at hex
          cases received with
          | ok msg =>
            simp only at hex
            have := Option.some.inj hex
            subst this
            refine ⟨[], by simp, rfl, ?_, ?_⟩
            · intro M before hb
              exact hb
            · intro name client hmem
              simp at hmem
          | error err =>
            simp only at hex
            have := Option.some.inj hex
            subst this
            refine ⟨(if err.IsEOF = true then []
                else [Effect.Print ("failed to read message: " ++ err.Error ++ "\n")])
                ++ [Effect.Delete t.name], by simp, rfl, ?_, ?_⟩
            · intro M before hb
              have hlog : ∀ b : Bool, keyAfter M b (if err.IsEOF = true then []
                  else [Effect.Print ("failed to read message: " ++ err.Error ++ "\n")]) = b := by
                intro b
                by_cases he : err.IsEOF = true <;> simp [he, keyAfter]
              rw [keyAfter_append, hlog]
              simp only [keyAfter, Table.mem_keys_delete]
              by_cases hn : t.name = M
              · simp [hn]
              · have hn2 : M ≠ t.name := fun h => hn h.symm
                simp only [hn, if_false, ne_eq, hn2, not_false_eq_true, and_true]
                exact hb
            · intro name client hmem
              by_cases he : err.IsEOF = true <;> simp [he] at hmem
        | _ => simp [hpc] at hex
  | Consume =>
    unfold exec at hex
    by_cases hp : s.panicked = true
    · simp [hp] at hex
    · simp only [hp, if_false] at hex
      cases hev : s.hub.events with
      | nil => simp [hev] at hex
      | cons event rest =>
        simp only [hev] at hex
        cases hr : RunEvent net { clients := s.hub.clients, events := rest } event with
        | none =>
          simp only [hr] at hex
          have := Option.some.inj hex
          subst this
          refine ⟨[], by simp, rfl, ?_, ?_⟩
          · intro M before hb
            exact hb
          · intro name client hmem
            simp at hmem
        | some p =>
          obtain ⟨g, out⟩ := p
          simp only [hr] at hex
          have hg := RunEvent_hub net _ g event out hr
          have := Option.some.inj hex
          subst this
          subst hg
          have heff := RunEvent_effects net _ _ event out hr
          have hops : hubOps out = [] := by
            apply hubOps_of_sends_prints
            intro e hmem
            rcases heff e hmem with ⟨c, m, h1, _⟩ | h1
            · exact Or.inl ⟨c, m, h1⟩
            · exact Or.inr h1
          refine ⟨out, rfl, rfl, ?_, ?_⟩
          · intro M before hb
            rw [keyAfter_of_hubOps M out hops]
            exact hb
          · intro name client hmem
            rcases heff _ hmem with ⟨c, m, h1, _⟩ | ⟨t, h1⟩ <;> simp at h1

/-- The keys of the table along a schedule: they are what the insertions and
deletions of the log make of the keys at the start, and every insertion of the
log is that of a `Register` call of the schedule. -/
theorem run_keys (net : Net) (acts : List Action) :
    ∀ s r : System, run net s acts = some r →
      ∃ d, r.out = s.out ++ d ∧
        (∀ (M : String) (before : Bool), (before = true ↔ M ∈ s.hub.clients.keys) →
          (keyAfter M before d = true ↔ M ∈ r.hub.clients.keys)) ∧
        (∀ (name : String) (client : Client), Effect.Insert name client ∈ d →
          name ∈ registeredNames net s.accepted acts) := by
  induction acts with
  | nil =>
    intro s r hrun
    simp only [run] at hrun
    have := Option.some.inj hrun
    subst this
    exact ⟨[], by simp, fun M before hb => hb, fun name client hmem => by simp at hmem⟩
  | cons a rest ih =>
    intro s r hrun
    obtain ⟨m, hex, hrest⟩ := run_cons_some net s r a rest hrun
    obtain ⟨d1, ho1, hacc, hk1, hi1⟩ := exec_keys net s m a hex
    obtain ⟨d2, ho2, hk2, hi2⟩ := ih m r hrest
    refine ⟨d1 ++ d2, by rw [ho2, ho1, List.append_assoc], ?_, ?_⟩
    · intro M before hb
      rw [keyAfter_append]
      exact hk2 M _ (hk1 M before hb)
    · intro name client hmem
      rw [registeredNames_cons, List.mem_append]
      rcases List.mem_append.mp hmem with h1 | h1
      · exact Or.inl (hi1 name client h1)
      · rw [← hacc]
        exact Or.inr (hi2 name client h1)

theorem step_leave (net : Net) (s r : System) (i : Nat) (M : String) (c : Client)
    (hpc : s.tasks[i]? = some { name := M, client := c, pc := Pc.Leave })
    (hex : exec net s (Action.Step i) = some r) :
    r.out = s.out ++ [Effect.Enqueue (leaveEvent M)] := by
  unfold exec at hex
  by_cases hp : s.panicked = true
  · simp [hp] at hex
  · simp only [hp, if_false, hpc] at hex
    exact send_out _ _ _ _ _ _ hex

/-- The step of a reader task whose `Receive` fails: the deferred function
deletes the name of the task. -/
theorem receive_error_spec (net : Net) (s r : System) (i : Nat) (M : String) (c : Client)
    (err : Error)
    (hpc : s.tasks[i]? = some { name := M, client := c, pc := Pc.Receive })
    (hex : exec net s (Action.Receive i (Except.error err)) = some r) :
    r.hub.clients = s.hub.clients.delete M ∧ r.accepted = s.accepted ∧
    ∃ log, r.out = s.out ++ (log ++ [Effect.Delete M]) ∧ hubOps log = [] := by
  unfold exec at hex
  by_cases hp : s.panicked = true
  · simp [hp] at hex
  · simp only [hp, if_false, hpc] at hex
    have := Option.some.inj hex
    subst this
    refine ⟨rfl, rfl, (if err.IsEOF = true then []
      else [Effect.Print ("failed to read message: " ++ err.Error ++ "\n")]), by simp, ?_⟩
    by_cases he : err.IsEOF = true <;> simp [he, hubOps]

/-- C9, amended: along any schedule from `NewHub()`, let a reader task of `M`
leave its loop, which deletes `M` from the table, and later enqueue its Leave
event, and let the consumer have taken exactly the events enqueued before that
one.  Then the Leave event of `M` is the oldest in the channel, the one that
the consumer dequeues next.  At that moment `M` is a key exactly when the last
operation of the log on `M` since the deletion is an insertion; when no
`Register` call has inserted `M` between the deletion and that moment, `M` is
not a key, its lookup yields nothing, and excluding `M` from the Leave
broadcast excludes nobody. -/
theorem leave_dequeued_after_removal (net : Net) (acts1 acts2 acts3 : List Action)
    (s1 s2 s3 : System) (i : Nat) (M : String) (c : Client) (err : Error)
    (h1 : run net initial acts1 = some s1)
    (hpc1 : s1.tasks[i]? = some { name := M, client := c, pc := Pc.Receive })
    (h2 : run net s1 (Action.Receive i (Except.error err) :: acts2) = some s2)
    (hpc2 : s2.tasks[i]? = some { name := M, client := c, pc := Pc.Leave })
    (h3 : run net s2 (Action.Step i :: acts3) = some s3)
    (hturn : (turns net initial
        (acts1 ++ Action.Receive i (Except.error err) :: acts2 ++ Action.Step i :: acts3)).length
      = (enqueuedOf s2.out).length) :
    (∃ rest, s3.hub.events = leaveEvent M :: rest) ∧
    (∀ before : Bool,
      M ∈ s3.hub.clients.keys ↔ keyAfter M before (s3.out.drop s1.out.length) = true) ∧
    (M ∉ registeredNames net s1.accepted (acts2 ++ Action.Step i :: acts3) →
      M ∉ s3.hub.clients.keys ∧ s3.hub.clients.get? M = none ∧
      recipients s3.hub.clients M = s3.hub.clients.map Prod.snd) := by
  -- the whole schedule
  have hall : run net initial
      (acts1 ++ Action.Receive i (Except.error err) :: acts2 ++ Action.Step i :: acts3)
        = some s3 := by
    rw [List.append_assoc, run_append net acts1 _ initial s1 h1,
      run_append net _ _ s1 s2 h2]
    exact h3
  obtain ⟨d, hd, hq, _⟩ := run_fifo net 0 _ initial s3 hall
  have hout3 : s3.out = d := by simpa [initial] using hd
  have hq2 : (turns net initial
      (acts1 ++ Action.Receive i (Except.error err) :: acts2 ++ Action.Step i :: acts3)).map
        Prod.fst ++ s3.hub.events = enqueuedOf s3.out := by
    rw [hout3]
    simpa [initial, NewHub] using hq
  -- the deletion and the enqueueing step
  obtain ⟨m1, hx1, hr1⟩ := run_cons_some net s1 s2 _ _ h2
  obtain ⟨m2, hx2, hr2⟩ := run_cons_some net s2 s3 _ _ h3
  have hleave := step_leave net s2 m2 i M c hpc2 hx2
  obtain ⟨d23, hd23⟩ := run_out_grows net acts3 m2 s3 hr2
  obtain ⟨hdel, hacc1, log, hlog, hlogops⟩ := receive_error_spec net s1 m1 i M c err hpc1 hx1
  -- the rest of the schedule, from the deletion on
  have hrest : run net m1 (acts2 ++ Action.Step i :: acts3) = some s3 := by
    rw [run_append net acts2 _ m1 s2 hr1]
    exact h3
  obtain ⟨dr, hdr, hkeys, hins⟩ := run_keys net _ m1 s3 hrest
  have hm1 : (false = true ↔ M ∈ m1.hub.clients.keys) := by
    rw [hdel, Table.mem_keys_delete]
    simp
  have hkey : keyAfter M false dr = true ↔ M ∈ s3.hub.clients.keys := hkeys M false hm1
  refine ⟨?_, ?_, ?_⟩
  · refine ⟨enqueuedOf d23, ?_⟩
    have hE : enqueuedOf s3.out = enqueuedOf s2.out ++ leaveEvent M :: enqueuedOf d23 := by
      rw [hd23, hleave]
      simp [enqueuedOf_append, enqueuedOf]
    rw [hE] at hq2
    exact (List.append_inj hq2 (by rw [List.length_map]; exact hturn)).2
  · intro before
    have hdrop : s3.out.drop s1.out.length = (log ++ [Effect.Delete M]) ++ dr := by
      rw [hdr, hlog, List.append_assoc, List.drop_left]
    have hreset : keyAfter M before (log ++ [Effect.Delete M]) = false := by
      rw [keyAfter_append, keyAfter_of_hubOps M log hlogops]
      simp [keyAfter]
    rw [hdrop, keyAfter_append, hreset]
    exact hkey.symm
  · intro hno
    have hk : M ∉ s3.hub.clients.keys := by
      intro hmem
      rcases keyAfter_insert M dr false (hkey.mpr hmem) with hb | ⟨client, hc⟩
      · exact absurd hb (by decide)
      · apply hno
        have := hins M client hc
        rw [hacc1] at this
        exact this
    exact ⟨hk, (Table.get?_eq_none _ _).mpr hk, recipients_of_absent _ _ hk⟩

theorem leave_dequeued_after_removal_witness :
    run quietNet initial reuseFirst = some (stateAfter quietNet reuseFirst) ∧
    (stateAfter quietNet reuseFirst).tasks[2]?
      = some { name := "bob", client := 2, pc := Pc.Receive } ∧
    run quietNet (stateAfter quietNet reuseFirst)
        (Action.Receive 2 (Except.error streamEnd) :: reuseSecond)
      = some (stateAfter quietNet
          (reuseFirst ++ Action.Receive 2 (Except.error streamEnd) :: reuseSecond)) ∧
    (stateAfter quietNet
        (reuseFirst ++ Action.Receive 2 (Except.error streamEnd) :: reuseSecond)).tasks[2]?
      = some { name := "bob", client := 2, pc := Pc.Leave } ∧
    (registeredNames quietNet 0
        (reuseFirst ++ Action.Receive 2 (Except.error streamEnd) :: reuseSecond
          ++ Action.Step 2 :: reuseThird)).count "bob" = 2 ∧
    (stateAfter quietNet
        (reuseFirst ++ Action.Receive 2 (Except.error streamEnd) :: reuseSecond
          ++ Action.Step 2 :: reuseThird)).hub
      = { clients := [("alice", 1)], events := [leaveEvent "bob", messageEvent "alice" "hi"] } ∧
    "bob" ∉ (stateAfter quietNet
        (reuseFirst ++ Action.Receive 2 (Except.error streamEnd) :: reuseSecond
          ++ Action.Step 2 :: reuseThird)).hub.clients.keys ∧
    recipients (stateAfter quietNet
        (reuseFirst ++ Action.Receive 2 (Except.error streamEnd) :: reuseSecond
          ++ Action.Step 2 :: reuseThird)).hub.clients "bob"
      = (stateAfter quietNet
        (reuseFirst ++ Action.Receive 2 (Except.error streamEnd) :: reuseSecond
          ++ Action.Step 2 :: reuseThird)).hub.clients.map Prod.snd := by
  have h := leave_dequeued_after_removal quietNet reuseFirst reuseSecond reuseThird
    (stateAfter quietNet reuseFirst)
    (stateAfter quietNet
      (reuseFirst ++ Action.Receive 2 (Except.error streamEnd) :: reuseSecond))
    (stateAfter quietNet
      (reuseFirst ++ Action.Receive 2 (Except.error streamEnd) :: reuseSecond
        ++ Action.Step 2 :: reuseThird))
    2 "bob" 2 streamEnd
    (by decide) (by decide) (by decide) (by decide) (by decide) (by decide)
  have h3 := h.2.2 (by decide)
  exact ⟨by decide, by decide, by decide, by decide, by decide, by decide, h3.1, h3.2.2⟩

end Budgetchat

namespace MeansToAnEnd

/-! ## Lemmas on the machine integers -/

theorem wrap32_of_isInt32 (v : Int) (h : IsInt32 v) : wrap32 v = v := by
  unfold wrap32
  unfold IsInt32 at h
  omega

theorem wrap32_isInt32 (v : Int) : IsInt32 (wrap32 v) := by
  unfold wrap32 IsInt32
  omega

theorem wrap64_of_range (v : Int) (h1 : -2 ^ 63 ≤ v) (h2 : v < 2 ^ 63) : wrap64 v = v := by
  unfold wrap64
  omega

theorem bits32_wrap32_natCast (n : Nat) (h : n < 2 ^ 32) : bits32 (wrap32 (n : Int)) = n := by
  unfold bits32 wrap32
  omega

theorem bits32_natCast (n : Nat) (h : n < 2 ^ 32) : bits32 (n : Int) = n := by
  unfold bits32
  omega

theorem or32_natCast (a b : Nat) (ha : a < 2 ^ 32) :
    or32 (wrap32 (a : Int)) (wrap32 (b : Int)) = wrap32 ((a ||| b % 2 ^ 32 : Nat) : Int) := by
  unfold or32
  rw [bits32_wrap32_natCast a ha]
  have : bits32 (wrap32 (b : Int)) = b % 2 ^ 32 := by
    unfold bits32 wrap32
    omega
  rw [this]
  rfl

theorem lor_bytes (b0 b1 b2 b3 : Nat) (h1 : b1 < 256) (h2 : b2 < 256) (h3 : b3 < 256) :
    ((b0 * 2 ^ 24 ||| b1 * 2 ^ 16) ||| b2 * 2 ^ 8) ||| b3
      = b0 * 2 ^ 24 + b1 * 2 ^ 16 + b2 * 2 ^ 8 + b3 := by
  have e1 : b0 * 2 ^ 24 ||| b1 * 2 ^ 16 = b0 * 2 ^ 24 + b1 * 2 ^ 16 := by
    have := Nat.mul_add_lt_is_or (i := 24) (b := b1 * 2 ^ 16) (by omega) b0
    rw [Nat.mul_comm (2 ^ 24) b0] at this
    exact this.symm
  have e2 : (b0 * 2 ^ 24 + b1 * 2 ^ 16) ||| b2 * 2 ^ 8
      = b0 * 2 ^ 24 + b1 * 2 ^ 16 + b2 * 2 ^ 8 := by
    have := Nat.mul_add_lt_is_or (i := 16) (b := b2 * 2 ^ 8) (by omega) (b0 * 2 ^ 8 + b1)
    have h : 2 ^ 16 * (b0 * 2 ^ 8 + b1) = b0 * 2 ^ 24 + b1 * 2 ^ 16 := by omega
    rw [h] at this
    exact this.symm
  have e3 : (b0 * 2 ^ 24 + b1 * 2 ^ 16 + b2 * 2 ^ 8) ||| b3
      = b0 * 2 ^ 24 + b1 * 2 ^ 16 + b2 * 2 ^ 8 + b3 := by
    have := Nat.mul_add_lt_is_or (i := 8) (b := b3) (by omega) (b0 * 2 ^ 16 + b1 * 2 ^ 8 + b2)
    have h : 2 ^ 8 * (b0 * 2 ^ 16 + b1 * 2 ^ 8 + b2)
        = b0 * 2 ^ 24 + b1 * 2 ^ 16 + b2 * 2 ^ 8 := by omega
    rw [h] at this
    exact this.symm
  rw [e1, e2, e3]

/-- The shifts and ors of the `unmarshal` methods read the four bytes as a
big-endian two's-complement integer. -/
theorem decodeInt32_eq (b0 b1 b2 b3 : Byte) :
    decodeInt32 b0 b1 b2 b3 = beInt32 b0 b1 b2 b3 := by
  have h0 := b0.isLt
  have h1 := b1.isLt
  have h2 := b2.isLt
  have h3 := b3.isLt
  unfold decodeInt32 shl32 int32OfByte
  have c0 : (Int.ofNat b0.val) * 2 ^ 24 = ((b0.val * 2 ^ 24 : Nat) : Int) := by
    simp
  have c1 : (Int.ofNat b1.val) * 2 ^ 16 = ((b1.val * 2 ^ 16 : Nat) : Int) := by
    simp
  have c2 : (Int.ofNat b2.val) * 2 ^ 8 = ((b2.val * 2 ^ 8 : Nat) : Int) := by
    simp
  have c3 : Int.ofNat b3.val = wrap32 ((b3.val : Nat) : Int) := by
    rw [wrap32_of_isInt32]
    · rfl
    · unfold IsInt32
      omega
  rw [c0, c1, c2, c3]
  rw [or32_natCast _ _ (by omega)]
  rw [Nat.mod_eq_of_lt (by omega : b1.val * 2 ^ 16 < 2 ^ 32)]
  have l1 : b0.val * 2 ^ 24 ||| b1.val * 2 ^ 16 = b0.val * 2 ^ 24 + b1.val * 2 ^ 16 := by
    have := Nat.mul_add_lt_is_or (i := 24) (b := b1.val * 2 ^ 16) (by omega) b0.val
    rw [Nat.mul_comm (2 ^ 24) b0.val] at this
    exact this.symm
  rw [l1, or32_natCast _ _ (by omega)]
  rw [Nat.mod_eq_of_lt (by omega : b2.val * 2 ^ 8 < 2 ^ 32)]
  have l2 : (b0.val * 2 ^ 24 + b1.val * 2 ^ 16) ||| b2.val * 2 ^ 8
      = b0.val * 2 ^ 24 + b1.val * 2 ^ 16 + b2.val * 2 ^ 8 := by
    have := lor_bytes b0.val b1.val b2.val 0 h1 h2 (by omega)
    rw [l1] at this
    simpa using this
  rw [l2, or32_natCast _ _ (by omega)]
  rw [Nat.mod_eq_of_lt (by omega : b3.val < 2 ^ 32)]
  have l3 := lor_bytes b0.val b1.val b2.val b3.val h1 h2 h3
  rw [l1, l2] at l3
  rw [l3]
  unfold wrap32 beInt32
  simp only
  split_ifs with hlt <;> push_cast at hlt ⊢ <;> omega

theorem beInt32_isInt32 (b0 b1 b2 b3 : Byte) : IsInt32 (beInt32 b0 b1 b2 b3) := by
  have h0 := b0.isLt
  have h1 := b1.isLt
  have h2 := b2.isLt
  have h3 := b3.isLt
  unfold beInt32 IsInt32
  simp only
  split_ifs with hlt <;> omega

/-! ## marshalQueryMessageResponse -/

theorem fin_ofNat_val (n : Nat) : (Fin.ofNat n : Byte).val = n % 256 := rfl

theorem marshal_eq_beBytes32 (v : Int) : marshalQueryMessageResponse v = beBytes32 v := by
  unfold marshalQueryMessageResponse beBytes32 byteOfInt32 shr32
  have e0 : (Fin.ofNat ((v / 2 ^ 24) % 256).toNat : Byte)
      = Fin.ofNat ((v % 2 ^ 32).toNat / 2 ^ 24) := by
    apply Fin.ext
    rw [fin_ofNat_val, fin_ofNat_val]
    omega
  have e1 : (Fin.ofNat ((v / 2 ^ 16) % 256).toNat : Byte)
      = Fin.ofNat ((v % 2 ^ 32).toNat / 2 ^ 16 % 256) := by
    apply Fin.ext
    rw [fin_ofNat_val, fin_ofNat_val]
    omega
  have e2 : (Fin.ofNat ((v / 2 ^ 8) % 256).toNat : Byte)
      = Fin.ofNat ((v % 2 ^ 32).toNat / 2 ^ 8 % 256) := by
    apply Fin.ext
    rw [fin_ofNat_val, fin_ofNat_val]
    omega
  have e3 : (Fin.ofNat (v % 256).toNat : Byte) = Fin.ofNat ((v % 2 ^ 32).toNat % 256) := by
    apply Fin.ext
    rw [fin_ofNat_val, fin_ofNat_val]
    omega
  rw [e0, e1, e2, e3]

theorem beInt32_beBytes32 (v : Int) (hv : IsInt32 v) :
    beInt32 (Fin.ofNat ((v % 2 ^ 32).toNat / 2 ^ 24))
      (Fin.ofNat ((v % 2 ^ 32).toNat / 2 ^ 16 % 256))
      (Fin.ofNat ((v % 2 ^ 32).toNat / 2 ^ 8 % 256))
      (Fin.ofNat ((v % 2 ^ 32).toNat % 256)) = v := by
  unfold IsInt32 at hv
  unfold beInt32
  simp only [fin_ofNat_val]
  split_ifs with hlt <;> push_cast at hlt ⊢ <;> omega

/-- C18: for every `int32` `v`, `marshalQueryMessageResponse(v)` is 4 bytes, the
big-endian two's-complement encoding of `v`, and the expression of the message
parser decodes them to `v`; 17 gives 00 00 00 11 and -5 gives ff ff ff fb. -/
theorem marshal_roundtrip (v : Int) (hv : IsInt32 v) :
    (marshalQueryMessageResponse v).length = 4 ∧
    marshalQueryMessageResponse v = beBytes32 v ∧
    (∃ b0 b1 b2 b3 : Byte, marshalQueryMessageResponse v = [b0, b1, b2, b3] ∧
      (b0.val * 2 ^ 24 + b1.val * 2 ^ 16 + b2.val * 2 ^ 8 + b3.val : Int) = v % 2 ^ 32 ∧
      decodeInt32 b0 b1 b2 b3 = v) ∧
    marshalQueryMessageResponse 17 = [0x00, 0x00, 0x00, 0x11] ∧
    marshalQueryMessageResponse (-5) = [0xff, 0xff, 0xff, 0xfb] := by
  refine ⟨rfl, marshal_eq_beBytes32 v, ?_, by decide, by decide⟩
  refine ⟨_, _, _, _, marshal_eq_beBytes32 v, ?_, ?_⟩
  · simp only [fin_ofNat_val]
    push_cast
    omega
  · rw [decodeInt32_eq]
    exact beInt32_beBytes32 v hv

theorem marshal_roundtrip_witness :
    IsInt32 (-2) ∧ marshalQueryMessageResponse (-2) = beBytes32 (-2) ∧
    beBytes32 (-2) = [0xff, 0xff, 0xff, 0xfe] ∧ decodeInt32 0xff 0xff 0xff 0xfe = -2 :=
  ⟨by decide, (marshal_roundtrip (-2) (by decide)).2.1, by decide, by decide⟩

/-! ## ParseMessage -/

theorem payloadLen_eq : MessagePayloadLen = 8 := by decide

theorem insert_unmarshal_eq (b : List Byte) :
    InsertMessage.unmarshal b
      = if b.length ≠ 8 then Except.error ParseError.ErrUnexpectedEOF
        else Except.ok { Timestamp := (insertOf b).1, Price := (insertOf b).2 } := by
  unfold InsertMessage.unmarshal insertOf
  rw [decodeInt32_eq, decodeInt32_eq, payloadLen_eq]

theorem query_unmarshal_eq (b : List Byte) :
    QueryMessage.unmarshal b
      = if b.length ≠ 8 then Except.error ParseError.ErrUnexpectedEOF
        else Except.ok { MinTime := (insertOf b).1, MaxTime := (insertOf b).2 } := by
  unfold QueryMessage.unmarshal insertOf
  rw [decodeInt32_eq, decodeInt32_eq, payloadLen_eq]

theorem ParseMessage_insert (p : List Byte) (hp : p.length = 8) :
    ParseMessage (MessageTypeInsert :: p)
      = some (Except.ok (Message.Insert
          { Timestamp := (insertOf p).1, Price := (insertOf p).2 })) := by
  simp [ParseMessage, insert_unmarshal_eq, hp]

theorem ParseMessage_query (p : List Byte) (hp : p.length = 8) :
    ParseMessage (MessageTypeQuery :: p)
      = some (Except.ok (Message.Query
          { MinTime := (insertOf p).1, MaxTime := (insertOf p).2 })) := by
  have hne : MessageTypeQuery ≠ MessageTypeInsert := by decide
  simp [ParseMessage, query_unmarshal_eq, hp, hne]

/-- C17: on a non-empty slice `ParseMessage` returns an error exactly when the
first byte is neither `I` nor `Q` or the length is not 9.  On 9 bytes that
start with `I` it returns the insert message, on 9 bytes that start with `Q`
the query message, whose first field is bytes 1 to 4 and whose second field is
bytes 5 to 8, each read as a big-endian two's-complement 32-bit integer; ff ff
ff fb reads as -5. -/
theorem parseMessage_spec (t : Byte) (payload : List Byte) :
    ((∃ err, ParseMessage (t :: payload) = some (Except.error err)) ↔
      ((t ≠ MessageTypeInsert ∧ t ≠ MessageTypeQuery) ∨ (t :: payload).length ≠ 9)) ∧
    (t = MessageTypeInsert → (t :: payload).length = 9 →
      ParseMessage (t :: payload)
        = some (Except.ok (Message.Insert
            { Timestamp := beInt32 (payload.getD 0 0) (payload.getD 1 0) (payload.getD 2 0)
                (payload.getD 3 0)
              Price := beInt32 (payload.getD 4 0) (payload.getD 5 0) (payload.getD 6 0)
                (payload.getD 7 0) }))) ∧
    (t = MessageTypeQuery → (t :: payload).length = 9 →
      ParseMessage (t :: payload)
        = some (Except.ok (Message.Query
            { MinTime := beInt32 (payload.getD 0 0) (payload.getD 1 0) (payload.getD 2 0)
                (payload.getD 3 0)
              MaxTime := beInt32 (payload.getD 4 0) (payload.getD 5 0) (payload.getD 6 0)
                (payload.getD 7 0) }))) ∧
    ParseMessage (t :: payload) ≠ none ∧
    beInt32 0xff 0xff 0xff 0xfb = -5 ∧
    decodeInt32 0xff 0xff 0xff 0xfb = -5 := by
  have hne : MessageTypeQuery ≠ MessageTypeInsert := by decide
  refine ⟨?_, ?_, ?_, ?_, by decide, by decide⟩
  · by_cases hI : t = MessageTypeInsert
    · subst hI
      by_cases hl : payload.length = 8
      · rw [ParseMessage_insert payload hl]
        simp [hl]
      · simp [ParseMessage, insert_unmarshal_eq, hl]
    · by_cases hQ : t = MessageTypeQuery
      · subst hQ
        by_cases hl : payload.length = 8
        · rw [ParseMessage_query payload hl]
          simp [hl]
        · simp [ParseMessage, query_unmarshal_eq, hl, hne]
      · simp [ParseMessage, hI, hQ]
  · intro hI hl
    subst hI
    have hl8 : payload.length = 8 := by simpa using hl
    rw [ParseMessage_insert payload hl8]
    simp only [insertOf]
  · intro hQ hl
    subst hQ
    have hl8 : payload.length = 8 := by simpa using hl
    rw [ParseMessage_query payload hl8]
    simp only [insertOf]
  · by_cases hI : t = MessageTypeInsert
    · subst hI
      by_cases hl : payload.length = 8
      · rw [ParseMessage_insert payload hl]
        simp
      · simp [ParseMessage, insert_unmarshal_eq, hl]
    · by_cases hQ : t = MessageTypeQuery
      · subst hQ
        by_cases hl : payload.length = 8
        · rw [ParseMessage_query payload hl]
          simp
        · simp [ParseMessage, query_unmarshal_eq, hl, hne]
      · simp [ParseMessage, hI, hQ]

theorem parseMessage_spec_examples :
    ParseMessage [0x49, 0x00, 0x00, 0xa0, 0x00, 0xff, 0xff, 0xff, 0xfb]
      = some (Except.ok (Message.Insert { Timestamp := 40960, Price := -5 })) ∧
    ParseMessage [0x45, 0x00, 0x00, 0x30, 0x39, 0x00, 0x00, 0x00, 0x65]
      = some (Except.error (ParseError.Unrecognized 0x45)) ∧
    ParseMessage [0x49, 0x00, 0x00, 0x30] = some (Except.error ParseError.ErrUnexpectedEOF) ∧
    ParseMessage [] = none :=
  ⟨by decide, by decide, by decide, by decide⟩

/-! ## Lemmas on the map of prices -/

/-- The lookup after an assignment. -/
theorem Assets.get?_set (a : Assets) (t p t' : Int) :
    (a.set t p).get? t' = if t' = t then some p else a.get? t' := by
  induction a with
  | nil =>
    by_cases h : t' = t
    · simp [Assets.set, Assets.get?, h]
    · have h2 : ¬ t = t' := fun e => h e.symm
      simp [Assets.set, Assets.get?, h, h2]
  | cons e rest ih =>
    obtain ⟨k, v⟩ := e
    by_cases hk : k = t
    · subst hk
      by_cases h : t' = k
      · simp [Assets.set, Assets.get?, h]
      · have h2 : ¬ k = t' := fun e => h e.symm
        simp [Assets.set, Assets.get?, h, h2]
    · by_cases h : t' = t
      · subst h
        simp [Assets.set, Assets.get?, hk, ih]
      · by_cases hkt : k = t'
        · simp [Assets.set, Assets.get?, hk, hkt, h]
        · simp [Assets.set, Assets.get?, hk, hkt, ih, h]

theorem Assets.keys_after_set (a : Assets) (t p : Int) :
    (a.set t p).map Prod.fst
      = if t ∈ a.map Prod.fst then a.map Prod.fst else a.map Prod.fst ++ [t] := by
  induction a with
  | nil => simp [Assets.set]
  | cons e rest ih =>
    obtain ⟨k, v⟩ := e
    by_cases hk : k = t
    · subst hk
      simp [Assets.set]
    · have hk2 : ¬ t = k := fun e => hk e.symm
      by_cases hin : t ∈ rest.map Prod.fst
      · simp [Assets.set, hk, hk2, hin, ih]
      · simp [Assets.set, hk, hk2, hin, ih]

theorem Assets.set_nodup (a : Assets) (t p : Int) (h : (a.map Prod.fst).Nodup) :
    ((a.set t p).map Prod.fst).Nodup := by
  rw [Assets.keys_after_set]
  by_cases hin : t ∈ a.map Prod.fst
  · simp only [hin, if_true]
    exact h
  · simp only [hin, if_false]
    rw [List.nodup_append]
    refine ⟨h, List.nodup_singleton _, ?_⟩
    intro x hx hy
    simp at hy
    subst hy
    exact hin hx

theorem Assets.mem_set (a : Assets) (t p : Int) (e : Int × Int) (h : e ∈ a.set t p) :
    e = (t, p) ∨ e ∈ a := by
  induction a with
  | nil =>
    simp [Assets.set] at h
    exact Or.inl h
  | cons x rest ih =>
    obtain ⟨k, v⟩ := x
    by_cases hk : k = t
    · simp only [Assets.set, hk, if_true, List.mem_cons] at h
      rcases h with h | h
      · exact Or.inl h
      · exact Or.inr (List.mem_cons_of_mem _ h)
    · simp only [Assets.set, hk, if_false, List.mem_cons] at h
      rcases h with h | h
      · exact Or.inr (by rw [h]; exact List.mem_cons_self _ _)
      · rcases ih h with h | h
        · exact Or.inl h
        · exact Or.inr (List.mem_cons_of_mem _ h)

theorem Assets.get?_of_mem (a : Assets) (h : (a.map Prod.fst).Nodup) (e : Int × Int)
    (he : e ∈ a) : a.get? e.1 = some e.2 := by
  induction a with
  | nil => simp at he
  | cons x rest ih =>
    obtain ⟨k, v⟩ := x
    simp only [List.map_cons, List.nodup_cons] at h
    rcases List.mem_cons.mp he with heq | hin
    · subst heq
      simp [Assets.get?]
    · have hne : k ≠ e.1 := by
        intro hke
        apply h.1
        rw [hke]
        exact List.mem_map_of_mem Prod.fst hin
      simp [Assets.get?, hne, ih h.2 hin]

/-- The map after a sequence of inserts. -/
theorem foldl_set_spec (ins : List (Int × Int)) :
    ∀ a : Assets, (a.map Prod.fst).Nodup →
      ((ins.foldl (fun x e => x.set e.1 e.2) a).map Prod.fst).Nodup ∧
      (∀ t, (ins.foldl (fun x e => x.set e.1 e.2) a).get? t
        = match storedPrice ins t with
          | some q => some q
          | none => a.get? t) ∧
      (∀ t, t ∈ (ins.foldl (fun x e => x.set e.1 e.2) a).map Prod.fst ↔
        t ∈ a.map Prod.fst ∨ t ∈ ins.map Prod.fst) ∧
      (∀ e ∈ ins.foldl (fun x e => x.set e.1 e.2) a, e ∈ a ∨ e ∈ ins) := by
  induction ins with
  | nil =>
    intro a h
    exact ⟨h, fun t => by simp [storedPrice], fun t => by simp, fun e he => Or.inl he⟩
  | cons x rest ih =>
    intro a h
    obtain ⟨k, v⟩ := x
    obtain ⟨i1, i2, i3, i4⟩ := ih (a.set k v) (Assets.set_nodup a k v h)
    simp only [List.foldl_cons]
    refine ⟨i1, ?_, ?_, ?_⟩
    · intro t
      rw [i2 t, Assets.get?_set]
      simp only [storedPrice]
      cases hs : storedPrice rest t with
      | some q => rfl
      | none =>
        by_cases hk : t = k
        · subst hk
          simp
        · have hk2 : ¬ k = t := fun e => hk e.symm
          simp [hk, hk2]
    · intro t
      rw [i3 t, Assets.keys_after_set]
      by_cases hin : k ∈ a.map Prod.fst
      · simp only [hin, if_true, List.map_cons, List.mem_cons]
        constructor
        · rintro (h1 | h1)
          · exact Or.inl h1
          · exact Or.inr (Or.inr h1)
        · rintro (h1 | h1 | h1)
          · exact Or.inl h1
          · exact Or.inl (h1 ▸ hin)
          · exact Or.inr h1
      · simp only [hin, if_false, List.map_cons, List.mem_cons, List.mem_append,
          List.mem_singleton]
        tauto
    · intro e he
      rcases i4 e he with h1 | h1
      · rcases Assets.mem_set a k v e h1 with h2 | h2
        · exact Or.inr (by rw [h2]; exact List.mem_cons_self _ _)
        · exact Or.inl h2
      · exact Or.inr (List.mem_cons_of_mem _ h1)

/-! ## Lemmas on the loop of handleQuery -/

theorem queryLoop_exact (m : QueryMessage) (l : Assets) (hl : ∀ e ∈ l, IsInt32 e.2) :
    ∀ s k : Int, 0 ≤ k → k + l.length ≤ 2 ^ 32 → -(k * 2 ^ 31) ≤ s → s ≤ k * (2 ^ 31 - 1) →
      queryLoop m l (s, k)
        = (s + ((l.filter (fun e => decide (m.MinTime ≤ e.1 ∧ e.1 ≤ m.MaxTime))).map
              Prod.snd).sum,
            k + (l.filter (fun e => decide (m.MinTime ≤ e.1 ∧ e.1 ≤ m.MaxTime))).length) ∧
      -((k + (l.filter (fun e => decide (m.MinTime ≤ e.1 ∧ e.1 ≤ m.MaxTime))).length)
          * 2 ^ 31)
        ≤ s + ((l.filter (fun e => decide (m.MinTime ≤ e.1 ∧ e.1 ≤ m.MaxTime))).map
              Prod.snd).sum ∧
      s + ((l.filter (fun e => decide (m.MinTime ≤ e.1 ∧ e.1 ≤ m.MaxTime))).map Prod.snd).sum
        ≤ (k + (l.filter (fun e => decide (m.MinTime ≤ e.1 ∧ e.1 ≤ m.MaxTime))).length)
            * (2 ^ 31 - 1) := by
  induction l with
  | nil =>
    intro s k _ _ h1 h2
    simp only [queryLoop, List.filter_nil, List.map_nil, List.sum_nil, List.length_nil]
    refine ⟨by simp, ?_, ?_⟩ <;> simp <;> omega
  | cons e rest ih =>
    intro s k hk hlen h1 h2
    obtain ⟨t, p⟩ := e
    have hp : IsInt32 p := hl (t, p) (List.mem_cons_self _ _)
    have hrest : ∀ e ∈ rest, IsInt32 e.2 := fun e he => hl e (List.mem_cons_of_mem _ he)
    unfold IsInt32 at hp
    simp only [List.length_cons] at hlen
    push_cast at hlen
    by_cases hin : m.MinTime ≤ t ∧ t ≤ m.MaxTime
    · have hcond : t ≥ m.MinTime ∧ t ≤ m.MaxTime := hin
      have hw1 : wrap64 (s + p) = s + p := wrap64_of_range _ (by omega) (by omega)
      have hw2 : wrap64 (k + 1) = k + 1 := wrap64_of_range _ (by omega) (by omega)
      obtain ⟨i1, i2, i3⟩ := ih hrest (s + p) (k + 1) (by omega) (by omega) (by omega)
        (by omega)
      simp only [queryLoop, hcond, and_self, if_true, hw1, hw2, i1]
      simp only [List.filter_cons, hin, and_self, decide_True, if_true, List.map_cons,
        List.sum_cons, List.length_cons]
      push_cast
      refine ⟨?_, ?_, ?_⟩
      · rw [add_assoc s p, add_assoc k 1, add_comm (1 : Int)]
      · have := i2; push_cast at this ⊢; omega
      · have := i3; push_cast at this ⊢; omega
    · have hcond : ¬ (t ≥ m.MinTime ∧ t ≤ m.MaxTime) := hin
      obtain ⟨i1, i2, i3⟩ := ih hrest s k hk (by omega) h1 h2
      simp only [queryLoop, hcond, if_false, i1]
      simp only [List.filter_cons, hin, decide_False, Bool.false_eq_true, if_false]
      exact ⟨trivial, i2, i3⟩

theorem assets_length_le (a : Assets) (hnd : (a.map Prod.fst).Nodup)
    (hk : ∀ e ∈ a, IsInt32 e.1) : (a.length : Int) ≤ 2 ^ 32 := by
  have hsub : (a.map Prod.fst).toFinset ⊆ Finset.Ico (-2 ^ 31 : Int) (2 ^ 31) := by
    intro t ht
    rw [List.mem_toFinset] at ht
    obtain ⟨e, he, rfl⟩ := List.mem_map.mp ht
    have := hk e he
    unfold IsInt32 at this
    rw [Finset.mem_Ico]
    exact this
  have hcard := Finset.card_le_card hsub
  rw [List.toFinset_card_of_nodup hnd, Int.card_Ico, List.length_map] at hcard
  have : ((2 : Int) ^ 31 - -2 ^ 31).toNat = 2 ^ 32 := by decide
  rw [this] at hcard
  exact_mod_cast hcard

theorem tdiv_isInt32 (S n : Int) (hn : 0 < n) (h1 : -(n * 2 ^ 31) ≤ S)
    (h2 : S ≤ n * (2 ^ 31 - 1)) : IsInt32 (Int.tdiv S n) := by
  unfold IsInt32
  by_cases hS : 0 ≤ S
  · rw [Int.tdiv_eq_ediv hS (le_of_lt hn)]
    have a1 : 0 ≤ S / n := Int.ediv_nonneg hS (le_of_lt hn)
    have a2 : S / n ≤ 2 ^ 31 - 1 := Int.ediv_le_of_le_mul hn (by rw [mul_comm]; exact h2)
    constructor <;> omega
  · have hneg : 0 ≤ -S := by omega
    have e : Int.tdiv S n = -(Int.tdiv (-S) n) := by
      rw [Int.neg_tdiv, neg_neg]
    rw [e, Int.tdiv_eq_ediv hneg (le_of_lt hn)]
    have a1 : 0 ≤ -S / n := Int.ediv_nonneg hneg (le_of_lt hn)
    have a2 : -S / n ≤ 2 ^ 31 := Int.ediv_le_of_le_mul hn (by rw [mul_comm]; omega)
    constructor <;> omega

/-! ## Handle -/

theorem Handle_insert (c : Client) (p : List Byte) (hp : p.length = 8) :
    c.Handle (MessageTypeInsert :: p)
      = some ({ c with assets := c.assets.set (insertOf p).1 (insertOf p).2 }, []) := by
  simp only [Client.Handle, ParseMessage_insert p hp, Client.handleInsert]

theorem Handle_query (c : Client) (q : List Byte) (hq : q.length = 8) :
    c.Handle (MessageTypeQuery :: q)
      = some (c, [marshalQueryMessageResponse
          (queryAverage { MinTime := (insertOf q).1, MaxTime := (insertOf q).2 } c.assets)]) := by
  simp only [Client.Handle, ParseMessage_query q hq, Client.handleQuery]

theorem handleAll_cons (c c1 : Client) (b : List Byte) (rest : List (List Byte))
    (w : List (List Byte)) (h : c.Handle b = some (c1, w)) :
    handleAll c (b :: rest)
      = (handleAll c1 rest).map (fun r => (r.1, w :: r.2)) := by
  simp only [handleAll, h]
  cases handleAll c1 rest with
  | none => rfl
  | some r => rfl

theorem handleAll_inserts (payloads : List (List Byte)) (hp : ∀ p ∈ payloads, p.length = 8) :
    ∀ c : Client,
      handleAll c (payloads.map (fun p => MessageTypeInsert :: p))
        = some ({ c with
              assets := (payloads.map insertOf).foldl
                (fun (x : Assets) (e : Int × Int) => Assets.set x e.1 e.2) c.assets },
            payloads.map (fun _ => [])) := by
  induction payloads with
  | nil => intro c; rfl
  | cons p rest ih =>
    intro c
    have hp8 : p.length = 8 := hp p (List.mem_cons_self _ _)
    have hrest : ∀ x ∈ rest, x.length = 8 := fun x hx => hp x (List.mem_cons_of_mem _ hx)
    rw [List.map_cons, handleAll_cons c _ _ _ _ (Handle_insert c p hp8), ih hrest]
    rfl

theorem insertOf_isInt32 (p : List Byte) :
    IsInt32 (insertOf p).1 ∧ IsInt32 (insertOf p).2 := by
  simp only [insertOf]
  exact ⟨beInt32_isInt32 _ _ _ _, beInt32_isInt32 _ _ _ _⟩

theorem storedPrice_match (ins : List (Int × Int)) (t : Int) :
    (match storedPrice ins t with
      | some q => some q
      | none => Assets.get? [] t) = storedPrice ins t := by
  cases storedPrice ins t <;> rfl

/-- The entries of the map that the loop selects are the stored prices of the
distinct timestamps of the range. -/
theorem selected_eq_range (ins : List (Int × Int)) (lo hi : Int) :
    (((ins.foldl (fun (x : Assets) (e : Int × Int) => Assets.set x e.1 e.2) ([] : Assets)).filter
        (fun e => decide (lo ≤ e.1 ∧ e.1 ≤ hi))).map Prod.snd).sum = rangeSum ins lo hi ∧
    ((ins.foldl (fun (x : Assets) (e : Int × Int) => Assets.set x e.1 e.2) ([] : Assets)).filter
        (fun e => decide (lo ≤ e.1 ∧ e.1 ≤ hi))).length
      = (timestampsInRange ins lo hi).length := by
  obtain ⟨hnd, hget, hkeys, _⟩ := foldl_set_spec ins [] (by simp)
  generalize hA : ins.foldl (fun (x : Assets) (e : Int × Int) => Assets.set x e.1 e.2) ([] : Assets) = A at hnd hget hkeys
  -- the selected entries, by their keys
  have hvals : (A.filter (fun e => decide (lo ≤ e.1 ∧ e.1 ≤ hi))).map Prod.snd
      = ((A.filter (fun e => decide (lo ≤ e.1 ∧ e.1 ≤ hi))).map Prod.fst).map
          (fun t => (storedPrice ins t).getD 0) := by
    rw [List.map_map]
    apply List.map_congr_left
    intro e he
    have hmem := List.mem_of_mem_filter he
    have := Assets.get?_of_mem A hnd e hmem
    rw [hget e.1] at this
    have hsp : storedPrice ins e.1 = some e.2 := by
      cases hs : storedPrice ins e.1 with
      | none =>
        rw [hs] at this
        simp [Assets.get?] at this
      | some q =>
        rw [hs] at this
        simpa using this
    simp [hsp]
  have hkeysel : (A.filter (fun e => decide (lo ≤ e.1 ∧ e.1 ≤ hi))).map Prod.fst
      = (A.map Prod.fst).filter (fun t => decide (lo ≤ t ∧ t ≤ hi)) := by
    rw [List.filter_map]
    rfl
  have hperm : ((A.map Prod.fst).filter (fun t => decide (lo ≤ t ∧ t ≤ hi))).Perm
      (timestampsInRange ins lo hi) := by
    unfold timestampsInRange
    apply List.Perm.filter
    rw [List.perm_ext_iff_of_nodup hnd (List.nodup_dedup _)]
    intro t
    rw [hkeys t, List.mem_dedup]
    simp
  constructor
  · rw [hvals, hkeysel]
    unfold rangeSum
    exact (hperm.map _).sum_eq
  · have := hperm.length_eq
    rw [← hkeysel, List.length_map] at this
    exact this

/-- The answer to a query on the map left by a sequence of inserts: the sum
and the count of the loop are the exact ones, within `int64`, and the average
is the truncated mean, within `int32`. -/
theorem query_on_inserts (ins : List (Int × Int))
    (hins : ∀ e ∈ ins, IsInt32 e.1 ∧ IsInt32 e.2) (lo hi : Int) :
    queryLoop { MinTime := lo, MaxTime := hi }
        (ins.foldl (fun (x : Assets) (e : Int × Int) => Assets.set x e.1 e.2) []) (0, 0)
      = (rangeSum ins lo hi, ((timestampsInRange ins lo hi).length : Int)) ∧
    queryAverage { MinTime := lo, MaxTime := hi }
        (ins.foldl (fun (x : Assets) (e : Int × Int) => Assets.set x e.1 e.2) [])
      = rangeMean ins lo hi ∧
    -2 ^ 63 ≤ rangeSum ins lo hi ∧ rangeSum ins lo hi < 2 ^ 63 ∧
    IsInt32 (rangeMean ins lo hi) := by
  obtain ⟨hnd, _, _, hmem⟩ := foldl_set_spec ins [] (by simp)
  obtain ⟨hsum, hlen⟩ := selected_eq_range ins lo hi
  generalize hA : ins.foldl (fun (x : Assets) (e : Int × Int) => Assets.set x e.1 e.2) [] = A
    at hnd hmem hsum hlen
  have hrange : ∀ e ∈ A, IsInt32 e.1 ∧ IsInt32 e.2 := by
    intro e he
    rcases hmem e he with h | h
    · simp at h
    · exact hins e h
  have hAlen := assets_length_le A hnd (fun e he => (hrange e he).1)
  obtain ⟨l1, l2, l3⟩ := queryLoop_exact { MinTime := lo, MaxTime := hi } A
    (fun e he => (hrange e he).2) 0 0 (le_refl _) (by omega) (by simp) (by simp)
  simp only at l1 l2 l3
  rw [hsum, hlen] at l1 l2 l3
  simp only [zero_add] at l1 l2 l3
  have hnle : ((timestampsInRange ins lo hi).length : Int) ≤ 2 ^ 32 := by
    have h1 : (A.filter (fun e => decide (lo ≤ e.1 ∧ e.1 ≤ hi))).length ≤ A.length :=
      List.length_filter_le _ _
    rw [hlen] at h1
    have h2 : ((timestampsInRange ins lo hi).length : Int) ≤ (A.length : Int) := by
      exact_mod_cast h1
    omega
  have hmean : IsInt32 (rangeMean ins lo hi) := by
    unfold rangeMean
    by_cases h0 : (timestampsInRange ins lo hi).length = 0
    · simp only [h0, if_true]
      unfold IsInt32
      omega
    · simp only [h0, if_false]
      exact tdiv_isInt32 _ _ (by omega) l2 l3
  refine ⟨l1, ?_, by omega, by omega, hmean⟩
  unfold queryAverage
  simp only [l1]
  unfold rangeMean at hmean ⊢
  by_cases h0 : (timestampsInRange ins lo hi).length = 0
  · simp [h0]
  · have hpos : ((timestampsInRange ins lo hi).length : Int) > 0 := by omega
    simp only [h0, if_false] at hmean ⊢
    simp only [hpos, if_true]
    exact wrap32_of_isInt32 _ hmean

/-- C16: one client handles a sequence of insert messages and then a query.
`Handle` writes nothing for an insert.  For the query it writes once, 4 bytes:
the big-endian two's-complement encoding of the mean, truncated toward zero,
of the prices stored at the distinct timestamps of the range, a later insert at
a timestamp replacing the earlier one; that is 0 when no stored timestamp lies
in the range, as when `MinTime > MaxTime`.  The `int64` sum and count of the
loop are the exact sum and count, and the mean is an `int32`. -/
theorem handle_session_mean (ip : String) (payloads : List (List Byte)) (query : List Byte)
    (hp : ∀ p ∈ payloads, p.length = 8) (hq : query.length = 8) :
    ∃ c : Client,
      handleAll (NewClient ip) (payloads.map (fun p => MessageTypeInsert :: p))
        = some (c, payloads.map (fun _ => [])) ∧
      c.Handle (MessageTypeQuery :: query)
        = some (c, [beBytes32
            (rangeMean (payloads.map insertOf) (insertOf query).1 (insertOf query).2)]) ∧
      (beBytes32
        (rangeMean (payloads.map insertOf) (insertOf query).1 (insertOf query).2)).length
        = 4 ∧
      queryLoop { MinTime := (insertOf query).1, MaxTime := (insertOf query).2 } c.assets
          (0, 0)
        = (rangeSum (payloads.map insertOf) (insertOf query).1 (insertOf query).2,
            ((timestampsInRange (payloads.map insertOf) (insertOf query).1
              (insertOf query).2).length : Int)) ∧
      -2 ^ 63 ≤ rangeSum (payloads.map insertOf) (insertOf query).1 (insertOf query).2 ∧
      rangeSum (payloads.map insertOf) (insertOf query).1 (insertOf query).2 < 2 ^ 63 ∧
      IsInt32 (rangeMean (payloads.map insertOf) (insertOf query).1 (insertOf query).2) ∧
      (timestampsInRange (payloads.map insertOf) (insertOf query).1 (insertOf query).2 = [] →
        c.Handle (MessageTypeQuery :: query) = some (c, [[0, 0, 0, 0]])) ∧
      ((insertOf query).1 > (insertOf query).2 →
        timestampsInRange (payloads.map insertOf) (insertOf query).1 (insertOf query).2
          = []) := by
  have hins : ∀ e ∈ payloads.map insertOf, IsInt32 e.1 ∧ IsInt32 e.2 := by
    intro e he
    obtain ⟨p, _, rfl⟩ := List.mem_map.mp he
    exact insertOf_isInt32 p
  obtain ⟨q1, q2, q3, q4, q5⟩ :=
    query_on_inserts (payloads.map insertOf) hins (insertOf query).1 (insertOf query).2
  have hAll := handleAll_inserts payloads hp (NewClient ip)
  refine ⟨_, hAll, ?_, rfl, q1, q3, q4, q5, ?_, ?_⟩
  · rw [Handle_query _ query hq]
    simp only [NewClient]
    rw [q2, marshal_eq_beBytes32]
  · intro hnil
    rw [Handle_query _ query hq]
    simp only [NewClient]
    rw [q2, marshal_eq_beBytes32]
    unfold rangeMean
    rw [hnil]
    have hz : beBytes32 0 = [0, 0, 0, 0] := by decide
    simp only [List.length_nil, if_true, hz]
  · intro hgt
    unfold timestampsInRange
    rw [List.filter_eq_nil_iff]
    intro t _
    simp only [decide_eq_true_eq]
    omega

theorem handle_session_mean_witness :
    (∀ p ∈ negativeSession, p.length = 8) ∧ testQuery.length = 8 ∧
    rangeMean (negativeSession.map insertOf) (insertOf testQuery).1 (insertOf testQuery).2
      = -2 ∧
    beBytes32 (-2) = [0xff, 0xff, 0xff, 0xfe] ∧
    ∃ c : Client,
      handleAll (NewClient "127.0.0.1:1000")
          (negativeSession.map (fun p => MessageTypeInsert :: p))
        = some (c, negativeSession.map (fun _ => [])) ∧
      c.Handle (MessageTypeQuery :: testQuery)
        = some (c, [beBytes32
            (rangeMean (negativeSession.map insertOf) (insertOf testQuery).1
              (insertOf testQuery).2)]) := by
  refine ⟨by decide, by decide, by decide, by decide, ?_⟩
  obtain ⟨c, h1, h2, _⟩ :=
    handle_session_mean "127.0.0.1:1000" negativeSession testQuery (by decide) (by decide)
  exact ⟨c, h1, h2⟩

end MeansToAnEnd

namespace SpeedDaemon

/-! ## Lemmas on the big-endian readers -/

theorem Uint16_eq (b0 b1 : Byte) (rest : List Byte) :
    Uint16 (b0 :: b1 :: rest) = some (b0.val * 256 + b1.val) := by
  have h1 := b1.isLt
  simp only [Uint16, Nat.shiftLeft_eq]
  have := Nat.mul_add_lt_is_or (i := 8) (b := b1.val) (by omega) b0.val
  rw [Nat.lor_comm, Nat.mul_comm b0.val, ← this, Nat.mul_comm]

theorem Uint32_eq (b0 b1 b2 b3 : Byte) (rest : List Byte) :
    Uint32 (b0 :: b1 :: b2 :: b3 :: rest)
      = some (b0.val * 2 ^ 24 + b1.val * 2 ^ 16 + b2.val * 2 ^ 8 + b3.val) := by
  have h1 := b1.isLt
  have h2 := b2.isLt
  have h3 := b3.isLt
  simp only [Uint32, Nat.shiftLeft_eq]
  have e1 := Nat.mul_add_lt_is_or (i := 8) (b := b3.val) (by omega) b2.val
  have e2 := Nat.mul_add_lt_is_or (i := 16) (b := 2 ^ 8 * b2.val + b3.val) (by omega) b1.val
  have e3 := Nat.mul_add_lt_is_or (i := 24)
    (b := 2 ^ 16 * b1.val + (2 ^ 8 * b2.val + b3.val)) (by omega) b0.val
  congr 1
  have c1 : b3.val ||| b2.val * 2 ^ 8 = 2 ^ 8 * b2.val + b3.val := by
    rw [Nat.lor_comm, Nat.mul_comm]; exact e1.symm
  have c2 : (2 ^ 8 * b2.val + b3.val) ||| b1.val * 2 ^ 16
      = 2 ^ 16 * b1.val + (2 ^ 8 * b2.val + b3.val) := by
    rw [Nat.lor_comm, Nat.mul_comm]; exact e2.symm
  have c3 : (2 ^ 16 * b1.val + (2 ^ 8 * b2.val + b3.val)) ||| b0.val * 2 ^ 24
      = 2 ^ 24 * b0.val + (2 ^ 16 * b1.val + (2 ^ 8 * b2.val + b3.val)) := by
    rw [Nat.lor_comm, Nat.mul_comm]; exact e3.symm
  rw [c1, c2, c3]
  omega

/-! ## MessagePlate.UnmarshalBinary -/

theorem four_of_length {α : Type} (l : List α) (h : 4 ≤ l.length) :
    ∃ x0 x1 x2 x3 rest, l = x0 :: x1 :: x2 :: x3 :: rest := by
  match l, h with
  | x0 :: x1 :: x2 :: x3 :: rest, _ => exact ⟨x0, x1, x2, x3, rest, rfl⟩

theorem beValue_four (x0 x1 x2 x3 : Byte) :
    beValue [x0, x1, x2, x3] = x0.val * 2 ^ 24 + x1.val * 2 ^ 16 + x2.val * 2 ^ 8 + x3.val := by
  simp only [beValue, List.length_cons, List.length_nil]
  omega

theorem beValue_two (x0 x1 : Byte) : beValue [x0, x1] = x0.val * 256 + x1.val := by
  simp only [beValue, List.length_cons, List.length_nil]
  omega

/-- The decoding of a message that is long enough. -/
theorem plate_unmarshal_ok (p : MessagePlate) (b : List Byte)
    (h5 : 5 ≤ b.length) (hn : 5 + (b.getD 0 0).val ≤ b.length) :
    p.UnmarshalBinary b
      = some (none,
          { Plate := slice b 1 (1 + (b.getD 0 0).val)
            Timestamp := beValue (slice b (1 + (b.getD 0 0).val) (5 + (b.getD 0 0).val)) }) := by
  obtain ⟨x0, x1, x2, x3, rest, hd⟩ :=
    four_of_length (b.drop (1 + (b.getD 0 0).val)) (by rw [List.length_drop]; omega)
  have hts : slice b (1 + (b.getD 0 0).val) (5 + (b.getD 0 0).val) = [x0, x1, x2, x3] := by
    unfold slice
    rw [List.drop_take, hd]
    have : 5 + (b.getD 0 0).val - (1 + (b.getD 0 0).val) = 4 := by omega
    rw [this]
    rfl
  have c1 : ¬ b.length < 1 + 4 := by omega
  have c2 : ¬ b.length < 1 + 4 + (b.getD 0 0).val := by omega
  unfold MessagePlate.UnmarshalBinary
  simp only [c1, c2, if_false, hd, Uint32_eq, hts, beValue_four]
  rfl

theorem plate_unmarshal_short (p : MessagePlate) (b : List Byte)
    (h : b.length < 5 ∨ b.length < 5 + (b.getD 0 0).val) :
    ∃ err, p.UnmarshalBinary b = some (some err, p) ∧ err.IsInvalidMessage = true := by
  unfold MessagePlate.UnmarshalBinary
  by_cases c1 : b.length < 1 + 4
  · simp only [c1, if_true]
    exact ⟨_, rfl, rfl⟩
  · have c2 : b.length < 1 + 4 + (b.getD 0 0).val := by omega
    simp only [c1, c2, if_true, if_false]
    exact ⟨_, rfl, rfl⟩

/-- C19: `MessagePlate.UnmarshalBinary` returns an error, one that wraps
`ErrInvalidMessage`, and leaves the receiver as it was, exactly when
`len(b) < 5` or `len(b) < 5 + b[0]`.  Otherwise it returns nil, sets `Plate` to
the `b[0]` bytes from index 1 on and `Timestamp` to the big-endian unsigned
value of the 4 bytes that follow the plate; the bytes after them are ignored.
It never panics. -/
theorem plate_unmarshal_spec (p : MessagePlate) (b : List Byte) :
    ((∃ err, p.UnmarshalBinary b = some (some err, p) ∧ err.IsInvalidMessage = true) ↔
      (b.length < 5 ∨ b.length < 5 + (b.getD 0 0).val)) ∧
    ((∃ q, p.UnmarshalBinary b = some (none, q)) ↔
      ¬ (b.length < 5 ∨ b.length < 5 + (b.getD 0 0).val)) ∧
    (¬ (b.length < 5 ∨ b.length < 5 + (b.getD 0 0).val) →
      p.UnmarshalBinary b
        = some (none,
            { Plate := slice b 1 (1 + (b.getD 0 0).val)
              Timestamp :=
                beValue (slice b (1 + (b.getD 0 0).val) (5 + (b.getD 0 0).val)) }) ∧
      (slice b 1 (1 + (b.getD 0 0).val)).length = (b.getD 0 0).val ∧
      (slice b (1 + (b.getD 0 0).val) (5 + (b.getD 0 0).val)).length = 4 ∧
      ∀ extra : List Byte, p.UnmarshalBinary (b ++ extra) = p.UnmarshalBinary b) ∧
    p.UnmarshalBinary b ≠ none := by
  by_cases hc : b.length < 5 ∨ b.length < 5 + (b.getD 0 0).val
  · obtain ⟨err, he, hw⟩ := plate_unmarshal_short p b hc
    refine ⟨⟨fun _ => hc, fun _ => ⟨err, he, hw⟩⟩, ⟨?_, fun h => absurd hc h⟩,
      fun h => absurd hc h, ?_⟩
    · rintro ⟨q, hq⟩
      rw [he] at hq
      simp at hq
    · rw [he]
      simp
  · have h5 : 5 ≤ b.length := by omega
    have hn : 5 + (b.getD 0 0).val ≤ b.length := by omega
    have hok := plate_unmarshal_ok p b h5 hn
    refine ⟨⟨?_, fun h => absurd h hc⟩, ⟨fun _ => hc, fun _ => ⟨_, hok⟩⟩, fun _ => ⟨hok, ?_, ?_, ?_⟩,
      ?_⟩
    · rintro ⟨err, he, _⟩
      rw [hok] at he
      simp at he
    · unfold slice
      rw [List.length_drop, List.length_take]
      omega
    · unfold slice
      rw [List.length_drop, List.length_take]
      omega
    · intro extra
      have hb : b ≠ [] := by
        intro h0
        rw [h0] at h5
        simp at h5
      have hget : (b ++ extra).getD 0 0 = b.getD 0 0 := by
        cases b with
        | nil => exact absurd rfl hb
        | cons x rest => rfl
      have h5' : 5 ≤ (b ++ extra).length := by
        rw [List.length_append]; omega
      have hn' : 5 + ((b ++ extra).getD 0 0).val ≤ (b ++ extra).length := by
        rw [hget, List.length_append]; omega
      rw [plate_unmarshal_ok p (b ++ extra) h5' hn', hok, hget]
      unfold slice
      rw [List.take_append_of_le_length (by omega), List.take_append_of_le_length (by omega)]
    · rw [hok]
      simp

/-- The cases of `TestMessagePlate_UnmarshalBinary`. -/
theorem plate_unmarshal_examples :
    MessagePlate.UnmarshalBinary { Plate := [], Timestamp := 0 } plateSample
      = some (none, { Plate := [0x55, 0x4e, 0x31, 0x32, 0x33, 0x34], Timestamp := 1 }) ∧
    MessagePlate.UnmarshalBinary { Plate := [], Timestamp := 0 } [0]
      = some (some (Error.Wrap "message too short to be valid" Error.ErrInvalidMessage),
          { Plate := [], Timestamp := 0 }) ∧
    MessagePlate.UnmarshalBinary { Plate := [], Timestamp := 0 }
        [10, 0x54, 0x4f, 0x4f, 0x4c, 0x4f, 0x4e, 0x47]
      = some (some (Error.Wrap "message length does not match plate length and timestamp"
            Error.ErrInvalidMessage),
          { Plate := [], Timestamp := 0 }) :=
  ⟨by decide, by decide, by decide⟩

/-! ## MessageIAmDispatcher.UnmarshalBinary -/

/-- The road at index `i` of a message: the big-endian value of the bytes
`b[1+2i]` and `b[2+2i]`. -/
theorem Uint16_drop (b : List Byte) (i : Nat) (h : 3 + i * 2 ≤ b.length) :
    Uint16 (b.drop (1 + i * 2))
      = some ((b.getD (1 + i * 2) 0).val * 256 + (b.getD (2 + i * 2) 0).val) := by
  have hlen : 2 ≤ (b.drop (1 + i * 2)).length := by
    rw [List.length_drop]; omega
  match hd : b.drop (1 + i * 2), hlen with
  | x0 :: x1 :: rest, _ =>
    rw [Uint16_eq]
    have g0 : b.getD (1 + i * 2) 0 = x0 := by
      have := congrArg (fun l => l.getD 0 0) hd
      simp only [List.getD_eq_getElem?_getD, List.getElem?_drop] at this
      simpa using this
    have g1 : b.getD (2 + i * 2) 0 = x1 := by
      have := congrArg (fun l => l.getD 1 0) hd
      simp only [List.getD_eq_getElem?_getD, List.getElem?_drop] at this
      have e : 1 + i * 2 + 1 = 2 + i * 2 := by omega
      rw [e] at this
      simpa using this
    rw [g0, g1]

theorem take_set_succ {α : Type} (l : List α) (i : Nat) (v : α) (h : i < l.length) :
    (l.set i v).take (i + 1) = l.take i ++ [v] := by
  induction l generalizing i with
  | nil => simp at h
  | cons x rest ih =>
    cases i with
    | zero => simp
    | succ k =>
      simp only [List.length_cons, Nat.add_lt_add_iff_right] at h
      simp [List.set, List.take, ih k h]

theorem fillRoads_eq (b : List Byte) (remaining : Nat) :
    ∀ (i : Nat) (roads : List Nat), roads.length = i + remaining →
      1 + (i + remaining) * 2 ≤ b.length →
      fillRoads b remaining i roads
        = some (roads.take i ++ (List.range' i remaining).map
            (fun j => (b.getD (1 + j * 2) 0).val * 256 + (b.getD (2 + j * 2) 0).val)) := by
  induction remaining with
  | zero =>
    intro i roads hl _
    simp only [fillRoads, List.range', List.map_nil, List.append_nil]
    rw [List.take_of_length_le (by omega)]
  | succ k ih =>
    intro i roads hl hb
    simp only [fillRoads]
    rw [Uint16_drop b i (by omega)]
    simp only
    rw [ih (i + 1) _ (by rw [List.length_set]; omega) (by omega)]
    rw [take_set_succ roads i _ (by omega)]
    simp [List.range']

theorem dispatcher_unmarshal_ok (d : MessageIAmDispatcher) (b : List Byte)
    (h1 : 1 ≤ b.length) (hn : 1 + 2 * (b.getD 0 0).val ≤ b.length) :
    d.UnmarshalBinary b
      = some (none,
          { NumRoads := (b.getD 0 0).val
            Roads := some ((List.range (b.getD 0 0).val).map
              (fun i => beValue [b.getD (1 + 2 * i) 0, b.getD (2 + 2 * i) 0])) }) := by
  have c1 : ¬ b.length < 1 := by omega
  have c2 : ¬ b.length < 1 + (b.getD 0 0).val * 2 := by omega
  have hfill := fillRoads_eq b (b.getD 0 0).val 0 (List.replicate (b.getD 0 0).val 0)
    (by simp) (by omega)
  have hmod : (b.getD 0 0).val % 256 = (b.getD 0 0).val := Nat.mod_eq_of_lt (b.getD 0 0).isLt
  have hl : (List.range' 0 (b.getD 0 0).val).map
        (fun j => (b.getD (1 + j * 2) 0).val * 256 + (b.getD (2 + j * 2) 0).val)
      = (List.range (b.getD 0 0).val).map
        (fun i => beValue [b.getD (1 + 2 * i) 0, b.getD (2 + 2 * i) 0]) := by
    rw [List.range_eq_range']
    apply List.map_congr_left
    intro i _
    rw [beValue_two]
    have e1 : 1 + i * 2 = 1 + 2 * i := by omega
    have e2 : 2 + i * 2 = 2 + 2 * i := by omega
    rw [e1, e2]
  rw [List.take_zero, List.nil_append, hl] at hfill
  unfold MessageIAmDispatcher.UnmarshalBinary
  simp only [c1, c2, if_false, hfill, hmod]

theorem dispatcher_unmarshal_short (d : MessageIAmDispatcher) (b : List Byte)
    (h : b.length = 0 ∨ b.length < 1 + 2 * (b.getD 0 0).val) :
    ∃ err, d.UnmarshalBinary b = some (some err, d) ∧ err.IsInvalidMessage = true := by
  unfold MessageIAmDispatcher.UnmarshalBinary
  by_cases c1 : b.length < 1
  · simp only [c1, if_true]
    exact ⟨_, rfl, rfl⟩
  · have c2 : b.length < 1 + (b.getD 0 0).val * 2 := by omega
    simp only [c1, c2, if_true, if_false]
    exact ⟨_, rfl, rfl⟩

/-- C20: `MessageIAmDispatcher.UnmarshalBinary` returns an error, one that
wraps `ErrInvalidMessage`, and leaves the receiver as it was, exactly when `b`
is empty or `len(b) < 1 + 2*b[0]`.  Otherwise it returns nil and sets
`NumRoads` to `b[0]` and `Roads` to a list, not nil, of `NumRoads` elements, the
element at index `i` being the big-endian unsigned value of the bytes `b[1+2i]`
and `b[2+2i]`; the list is empty when `b[0]` is 0.  It never panics. -/
theorem dispatcher_unmarshal_spec (d : MessageIAmDispatcher) (b : List Byte) :
    ((∃ err, d.UnmarshalBinary b = some (some err, d) ∧ err.IsInvalidMessage = true) ↔
      (b.length = 0 ∨ b.length < 1 + 2 * (b.getD 0 0).val)) ∧
    ((∃ q, d.UnmarshalBinary b = some (none, q)) ↔
      ¬ (b.length = 0 ∨ b.length < 1 + 2 * (b.getD 0 0).val)) ∧
    (¬ (b.length = 0 ∨ b.length < 1 + 2 * (b.getD 0 0).val) →
      d.UnmarshalBinary b
        = some (none,
            { NumRoads := (b.getD 0 0).val
              Roads := some ((List.range (b.getD 0 0).val).map
                (fun i => beValue [b.getD (1 + 2 * i) 0, b.getD (2 + 2 * i) 0])) }) ∧
      ((List.range (b.getD 0 0).val).map
          (fun i => beValue [b.getD (1 + 2 * i) 0, b.getD (2 + 2 * i) 0])).length
        = (b.getD 0 0).val ∧
      ((b.getD 0 0).val = 0 →
        d.UnmarshalBinary b = some (none, { NumRoads := 0, Roads := some [] }))) ∧
    d.UnmarshalBinary b ≠ none := by
  by_cases hc : b.length = 0 ∨ b.length < 1 + 2 * (b.getD 0 0).val
  · obtain ⟨err, he, hw⟩ := dispatcher_unmarshal_short d b hc
    refine ⟨⟨fun _ => hc, fun _ => ⟨err, he, hw⟩⟩, ⟨?_, fun h => absurd hc h⟩,
      fun h => absurd hc h, ?_⟩
    · rintro ⟨q, hq⟩
      rw [he] at hq
      simp at hq
    · rw [he]
      simp
  · have h1 : 1 ≤ b.length := by omega
    have hn : 1 + 2 * (b.getD 0 0).val ≤ b.length := by omega
    have hok := dispatcher_unmarshal_ok d b h1 hn
    refine ⟨⟨?_, fun h => absurd h hc⟩, ⟨fun _ => hc, fun _ => ⟨_, hok⟩⟩,
      fun _ => ⟨hok, by simp, ?_⟩, ?_⟩
    · rintro ⟨err, he, _⟩
      rw [hok] at he
      simp at he
    · intro h0
      rw [hok, h0]
      rfl
    · rw [hok]
      simp

/-- The cases of `TestMessageIAmDispatcher_UnmarshalBinary`. -/
theorem dispatcher_unmarshal_examples :
    MessageIAmDispatcher.UnmarshalBinary { NumRoads := 0, Roads := none } dispatcherSample
      = some (none, { NumRoads := 3, Roads := some [66, 368, 5000] }) ∧
    MessageIAmDispatcher.UnmarshalBinary { NumRoads := 0, Roads := none } [0x00]
      = some (none, { NumRoads := 0, Roads := some [] }) ∧
    MessageIAmDispatcher.UnmarshalBinary { NumRoads := 0, Roads := none } []
      = some (some (Error.Wrap "invalid message length" Error.ErrInvalidMessage),
          { NumRoads := 0, Roads := none }) ∧
    MessageIAmDispatcher.UnmarshalBinary { NumRoads := 0, Roads := none } [0x01]
      = some (some (Error.Wrap "invalid message length" Error.ErrInvalidMessage),
          { NumRoads := 0, Roads := none }) :=
  ⟨by decide, by decide, by decide, by decide⟩

/-! ## MessageError.MarshalBinary -/

theorem byteOf_val (n : Nat) : (byteOf n).val = n % 256 := rfl

theorem copy_of_length (dst src : List Byte) (h : src.length = dst.length) :
    copy dst src = src := by
  unfold copy
  rw [← h, List.take_length, List.drop_eq_nil_of_le (Nat.le_of_eq h.symm), List.append_nil]

/-- The bytes that `MessageError.MarshalBinary` returns for a message that it
does not cut. -/
theorem error_marshal_bytes (msg : List Byte) :
    ((List.replicate (1 + msg.length) (0 : Byte)).set 0 (byteOf msg.length)).take 1
      = [byteOf msg.length] ∧
    ((List.replicate (1 + msg.length) (0 : Byte)).set 0 (byteOf msg.length)).drop 1
      = List.replicate msg.length 0 := by
  rw [Nat.add_comm, List.replicate_succ]
  exact ⟨rfl, rfl⟩

theorem error_marshal_eq (e : MessageError) :
    e.MarshalBinary
      = (byteOf (min e.Msg.length 255) :: e.Msg.take 255, none,
          { Msg := e.Msg.take 255 }) := by
  unfold MessageError.MarshalBinary
  by_cases h : e.Msg.length > 255
  · have hl : (e.Msg.take 255).length = 255 := by
      rw [List.length_take]; omega
    have hm : min e.Msg.length 255 = 255 := by omega
    simp only [h, if_true, hl, hm]
    have hb := error_marshal_bytes (e.Msg.take 255)
    rw [hl] at hb
    rw [hb.1, hb.2, copy_of_length _ _ (by rw [hl, List.length_replicate])]
    rfl
  · have hm : min e.Msg.length 255 = e.Msg.length := by omega
    have ht : e.Msg.take 255 = e.Msg := List.take_of_length_le (by omega)
    simp only [h, if_false, hm, ht]
    have hb := error_marshal_bytes e.Msg
    rw [hb.1, hb.2, copy_of_length _ _ (by rw [List.length_replicate])]
    rfl

/-- C22: `MessageError.MarshalBinary` returns no error and `1 + min(len(m), 255)`
bytes: the first byte is `min(len(m), 255)` and the rest are the first
`min(len(m), 255)` bytes of `m`.  The output has at most 256 bytes, its first
byte is the number of bytes that follow, and a message of 300 bytes is cut to
its first 255 bytes. -/
theorem error_marshal_spec (e : MessageError) :
    e.MarshalBinary.2.1 = none ∧
    e.MarshalBinary.1.length = 1 + min e.Msg.length 255 ∧
    (e.MarshalBinary.1.getD 0 0).val = min e.Msg.length 255 ∧
    e.MarshalBinary.1.drop 1 = e.Msg.take (min e.Msg.length 255) ∧
    e.MarshalBinary.1.length ≤ 256 ∧
    (e.MarshalBinary.1.getD 0 0).val = (e.MarshalBinary.1.drop 1).length ∧
    (e.Msg.length = 300 →
      e.MarshalBinary.1.length = 256 ∧ (e.MarshalBinary.1.getD 0 0).val = 255 ∧
      e.MarshalBinary.1.drop 1 = e.Msg.take 255) := by
  have hlen : (e.Msg.take 255).length = min e.Msg.length 255 := by
    rw [List.length_take, Nat.min_comm]
  have htake : e.Msg.take (min e.Msg.length 255) = e.Msg.take 255 := by
    by_cases h : e.Msg.length ≤ 255
    · rw [Nat.min_eq_left h, List.take_of_length_le h, List.take_of_length_le (Nat.le_refl _)]
    · rw [Nat.min_eq_right (by omega)]
  have hval : (byteOf (min e.Msg.length 255)).val = min e.Msg.length 255 := by
    rw [byteOf_val]; omega
  rw [error_marshal_eq]
  simp only [List.length_cons, List.getD_cons_zero, List.drop_succ_cons, List.drop_zero, hlen,
    htake, hval]
  refine ⟨trivial, by omega, trivial, trivial, by omega, trivial, ?_⟩
  intro h
  rw [h]
  exact ⟨by decide, by decide, trivial⟩

set_option maxRecDepth 100000 in
/-- The cases of `TestMessageError_MarshalBinary`. -/
theorem error_marshal_examples :
    shortError.MarshalBinary.1
      = [13, 115, 104, 111, 114, 116, 32, 109, 101, 115, 115, 97, 103, 101] ∧
    shortError.MarshalBinary.2.1 = none ∧
    longError.MarshalBinary.1 = 255 :: List.replicate 255 97 ∧
    longError.MarshalBinary.2.1 = none :=
  ⟨by decide, by decide, by decide, by decide⟩

/-! ## MessageTicket.MarshalBinary -/

theorem beValue_PutUint16 (v : Nat) (h : v < 2 ^ 16) : beValue (PutUint16 v) = v := by
  unfold PutUint16
  rw [beValue_two, byteOf_val, byteOf_val, Nat.shiftRight_eq_div_pow]
  omega

theorem beValue_PutUint32 (v : Nat) (h : v < 2 ^ 32) : beValue (PutUint32 v) = v := by
  unfold PutUint32
  rw [beValue_four, byteOf_val, byteOf_val, byteOf_val, byteOf_val, Nat.shiftRight_eq_div_pow,
    Nat.shiftRight_eq_div_pow, Nat.shiftRight_eq_div_pow]
  omega

/-- The slice that covers the middle one of three pieces. -/
theorem slice_middle (pre mid post : List Byte) (i j : Nat) (hi : i = pre.length)
    (hj : j = pre.length + mid.length) : slice (pre ++ (mid ++ post)) i j = mid := by
  subst hi hj
  unfold slice
  rw [← List.append_assoc, List.take_append_of_le_length (by rw [List.length_append]),
    List.take_of_length_le (by rw [List.length_append]), List.drop_left]

/-- The buffer of `MessageTicket.MarshalBinary` when it returns. -/
theorem ticket_marshal_eq (t : MessageTicket) :
    t.MarshalBinary
      = (byteOf t.Plate.length :: (t.Plate ++ (PutUint16 t.Road ++ (PutUint16 t.Mile1 ++
          (PutUint32 t.Timestamp1 ++ (PutUint16 t.Mile2 ++ (PutUint32 t.Timestamp2 ++
          PutUint16 t.Speed)))))), none) := by
  simp only [MessageTicket.MarshalBinary, Buffer.WriteByte, Buffer.WriteString, WriteUint16,
    WriteUint32, List.nil_append, List.append_assoc, List.singleton_append, List.cons_append]

theorem PutUint16_length (v : Nat) : (PutUint16 v).length = 2 := rfl

theorem PutUint32_length (v : Nat) : (PutUint32 v).length = 4 := rfl

/-- C21: for a ticket whose plate has at most 255 bytes, `MarshalBinary`
returns no error and `17 + len(Plate)` bytes: the first byte is the number of
bytes of the plate, the bytes of the plate follow, and then 16 bytes hold
`Road`, `Mile1`, `Timestamp1`, `Mile2`, `Timestamp2` and `Speed`, big-endian,
in 2, 2, 4, 2, 4 and 2 bytes. -/
theorem ticket_marshal_spec (t : MessageTicket) (ht : t.WellTyped)
    (hp : t.Plate.length ≤ 255) :
    t.MarshalBinary.2 = none ∧
    t.MarshalBinary.1.length = 17 + t.Plate.length ∧
    (t.MarshalBinary.1.getD 0 0).val = t.Plate.length ∧
    slice t.MarshalBinary.1 1 (1 + t.Plate.length) = t.Plate ∧
    (slice t.MarshalBinary.1 (1 + t.Plate.length) (17 + t.Plate.length)).length = 16 ∧
    beValue (slice t.MarshalBinary.1 (1 + t.Plate.length) (3 + t.Plate.length)) = t.Road ∧
    beValue (slice t.MarshalBinary.1 (3 + t.Plate.length) (5 + t.Plate.length)) = t.Mile1 ∧
    beValue (slice t.MarshalBinary.1 (5 + t.Plate.length) (9 + t.Plate.length))
      = t.Timestamp1 ∧
    beValue (slice t.MarshalBinary.1 (9 + t.Plate.length) (11 + t.Plate.length)) = t.Mile2 ∧
    beValue (slice t.MarshalBinary.1 (11 + t.Plate.length) (15 + t.Plate.length))
      = t.Timestamp2 ∧
    beValue (slice t.MarshalBinary.1 (15 + t.Plate.length) (17 + t.Plate.length))
      = t.Speed := by
  obtain ⟨h1, h2, h3, h4, h5, h6⟩ := ht
  rw [ticket_marshal_eq]
  simp only
  have hlen : (byteOf t.Plate.length :: (t.Plate ++ (PutUint16 t.Road ++ (PutUint16 t.Mile1 ++
      (PutUint32 t.Timestamp1 ++ (PutUint16 t.Mile2 ++ (PutUint32 t.Timestamp2 ++
      PutUint16 t.Speed))))))).length = 17 + t.Plate.length := by
    simp only [List.length_cons, List.length_append, PutUint16_length, PutUint32_length]
    omega
  refine ⟨trivial, hlen, ?_, ?_, ?_, ?_, ?_, ?_, ?_, ?_, ?_⟩
  · rw [List.getD_cons_zero, byteOf_val]
    omega
  · exact slice_middle [byteOf t.Plate.length] t.Plate _ _ _ rfl
      (by rw [List.length_singleton])
  · unfold slice
    rw [List.length_drop, List.length_take, hlen]
    omega
  · have := slice_middle (byteOf t.Plate.length :: t.Plate) (PutUint16 t.Road)
      (PutUint16 t.Mile1 ++ (PutUint32 t.Timestamp1 ++ (PutUint16 t.Mile2 ++
        (PutUint32 t.Timestamp2 ++ PutUint16 t.Speed))))
      (1 + t.Plate.length) (3 + t.Plate.length)
      (by rw [List.length_cons]; omega) (by rw [List.length_cons, PutUint16_length]; omega)
    rw [List.cons_append] at this
    rw [this, beValue_PutUint16 _ h1]
  · have := slice_middle (byteOf t.Plate.length :: (t.Plate ++ PutUint16 t.Road))
      (PutUint16 t.Mile1)
      (PutUint32 t.Timestamp1 ++ (PutUint16 t.Mile2 ++
        (PutUint32 t.Timestamp2 ++ PutUint16 t.Speed)))
      (3 + t.Plate.length) (5 + t.Plate.length)
      (by simp only [List.length_cons, List.length_append, PutUint16_length]; omega)
      (by simp only [List.length_cons, List.length_append, PutUint16_length]; omega)
    simp only [List.cons_append, List.append_assoc] at this
    rw [this, beValue_PutUint16 _ h2]
  · have := slice_middle
      (byteOf t.Plate.length :: (t.Plate ++ (PutUint16 t.Road ++ PutUint16 t.Mile1)))
      (PutUint32 t.Timestamp1)
      (PutUint16 t.Mile2 ++ (PutUint32 t.Timestamp2 ++ PutUint16 t.Speed))
      (5 + t.Plate.length) (9 + t.Plate.length)
      (by simp only [List.length_cons, List.length_append, PutUint16_length]; omega)
      (by simp only [List.length_cons, List.length_append, PutUint16_length,
        PutUint32_length]; omega)
    simp only [List.cons_append, List.append_assoc] at this
    rw [this, beValue_PutUint32 _ h3]
  · have := slice_middle
      (byteOf t.Plate.length :: (t.Plate ++ (PutUint16 t.Road ++ (PutUint16 t.Mile1 ++
        PutUint32 t.Timestamp1))))
      (PutUint16 t.Mile2)
      (PutUint32 t.Timestamp2 ++ PutUint16 t.Speed)
      (9 + t.Plate.length) (11 + t.Plate.length)
      (by simp only [List.length_cons, List.length_append, PutUint16_length,
        PutUint32_length]; omega)
      (by simp only [List.length_cons, List.length_append, PutUint16_length,
        PutUint32_length]; omega)
    simp only [List.cons_append, List.append_assoc] at this
    rw [this, beValue_PutUint16 _ h4]
  · have := slice_middle
      (byteOf t.Plate.length :: (t.Plate ++ (PutUint16 t.Road ++ (PutUint16 t.Mile1 ++
        (PutUint32 t.Timestamp1 ++ PutUint16 t.Mile2)))))
      (PutUint32 t.Timestamp2)
      (PutUint16 t.Speed)
      (11 + t.Plate.length) (15 + t.Plate.length)
      (by simp only [List.length_cons, List.length_append, PutUint16_length,
        PutUint32_length]; omega)
      (by simp only [List.length_cons, List.length_append, PutUint16_length,
        PutUint32_length]; omega)
    simp only [List.cons_append, List.append_assoc] at this
    rw [this, beValue_PutUint32 _ h5]
  · have := slice_middle
      (byteOf t.Plate.length :: (t.Plate ++ (PutUint16 t.Road ++ (PutUint16 t.Mile1 ++
        (PutUint32 t.Timestamp1 ++ (PutUint16 t.Mile2 ++ PutUint32 t.Timestamp2))))))
      (PutUint16 t.Speed)
      []
      (15 + t.Plate.length) (17 + t.Plate.length)
      (by simp only [List.length_cons, List.length_append, PutUint16_length,
        PutUint32_length]; omega)
      (by simp only [List.length_cons, List.length_append, PutUint16_length,
        PutUint32_length]; omega)
    simp only [List.cons_append, List.append_assoc, List.append_nil] at this
    rw [this, beValue_PutUint16 _ h6]

/-- The case of `TestMessageTicket_MarshalBinary`. -/
theorem ticket_marshal_spec_witness :
    ticketSample.WellTyped ∧ ticketSample.Plate.length ≤ 255 ∧
    ticketSample.MarshalBinary.1
      = [6, 85, 78, 49, 50, 51, 52, 0, 1, 0, 2, 0, 0, 0, 3, 0, 4, 0, 0, 0, 5, 0, 6] ∧
    ticketSample.MarshalBinary.2 = none ∧
    ticketSample.MarshalBinary.1.length = 17 + ticketSample.Plate.length ∧
    (ticketSample.MarshalBinary.1.getD 0 0).val = ticketSample.Plate.length :=
  have h := ticket_marshal_spec ticketSample (by decide) (by decide)
  ⟨by decide, by decide, by decide, h.1, h.2.1, h.2.2.1⟩

set_option maxRecDepth 100000 in
/-- On a plate of 256 bytes the first byte of the encoding is 0, not the number
of bytes of the plate, and the plate that follows it has 256 bytes. -/
theorem ticket_marshal_long_plate :
    longTicket.WellTyped ∧ longTicket.Plate.length = 256 ∧
    longTicket.MarshalBinary.2 = none ∧
    longTicket.MarshalBinary.1.getD 0 0 = 0 ∧
    ¬ ((longTicket.MarshalBinary.1.getD 0 0).val = longTicket.Plate.length) :=
  ⟨by decide, by decide, by decide, by decide, by decide⟩

/-! ## MessageWantHeartbeat.UnmarshalBinary and MessageIAmCamera.UnmarshalBinary -/

theorem six_of_length {α : Type} (l : List α) (h : 6 ≤ l.length) :
    ∃ x0 x1 x2 x3 x4 x5 rest, l = x0 :: x1 :: x2 :: x3 :: x4 :: x5 :: rest := by
  match l, h with
  | x0 :: x1 :: x2 :: x3 :: x4 :: x5 :: rest, _ => exact ⟨x0, x1, x2, x3, x4, x5, rest, rfl⟩

/-- The decoding of a heartbeat request that is long enough. -/
theorem heartbeat_unmarshal_ok (h : MessageWantHeartbeat) (b : List Byte)
    (h4 : 4 ≤ b.length) :
    h.UnmarshalBinary b = some (none, { Interval := beValue (slice b 0 4) }) := by
  obtain ⟨x0, x1, x2, x3, rest, hb⟩ := four_of_length b h4
  subst hb
  have c1 : ¬ (x0 :: x1 :: x2 :: x3 :: rest).length < 4 := by
    simp only [List.length_cons]; omega
  have hs : slice (x0 :: x1 :: x2 :: x3 :: rest) 0 4 = [x0, x1, x2, x3] := rfl
  unfold MessageWantHeartbeat.UnmarshalBinary
  simp only [c1, if_false, Uint32_eq, hs, beValue_four]

theorem heartbeat_unmarshal_short (h : MessageWantHeartbeat) (b : List Byte)
    (hlt : b.length < 4) :
    h.UnmarshalBinary b
      = some (some (Error.Wrap "invalid message length" Error.ErrInvalidMessage), h) := by
  unfold MessageWantHeartbeat.UnmarshalBinary
  simp only [hlt, if_true]

/-- The decoding of a camera message that is long enough. -/
theorem camera_unmarshal_ok (c : MessageIAmCamera) (b : List Byte) (h6 : 6 ≤ b.length) :
    c.UnmarshalBinary b
      = some (none,
          { Road := beValue (slice b 0 2), Mile := beValue (slice b 2 4),
            Limit := beValue (slice b 4 6) }) := by
  obtain ⟨x0, x1, x2, x3, x4, x5, rest, hb⟩ := six_of_length b h6
  subst hb
  have c1 : ¬ (x0 :: x1 :: x2 :: x3 :: x4 :: x5 :: rest).length < 6 := by
    simp only [List.length_cons]; omega
  have s1 : slice (x0 :: x1 :: x2 :: x3 :: x4 :: x5 :: rest) 0 2 = [x0, x1] := rfl
  have s2 : slice (x0 :: x1 :: x2 :: x3 :: x4 :: x5 :: rest) 2 4 = [x2, x3] := rfl
  have s3 : slice (x0 :: x1 :: x2 :: x3 :: x4 :: x5 :: rest) 4 6 = [x4, x5] := rfl
  have d2 : (x0 :: x1 :: x2 :: x3 :: x4 :: x5 :: rest).drop 2 = x2 :: x3 :: x4 :: x5 :: rest :=
    rfl
  have d4 : (x0 :: x1 :: x2 :: x3 :: x4 :: x5 :: rest).drop 4 = x4 :: x5 :: rest := rfl
  unfold MessageIAmCamera.UnmarshalBinary
  simp only [c1, if_false, d2, d4, Uint16_eq, s1, s2, s3, beValue_two]

theorem camera_unmarshal_short (c : MessageIAmCamera) (b : List Byte) (hlt : b.length < 6) :
    c.UnmarshalBinary b
      = some (some (Error.Wrap "invalid message length" Error.ErrInvalidMessage), c) := by
  unfold MessageIAmCamera.UnmarshalBinary
  simp only [hlt, if_true]

theorem slice_append_left (b extra : List Byte) (i j : Nat) (h : j ≤ b.length) :
    slice (b ++ extra) i j = slice b i j := by
  unfold slice
  rw [List.take_append_of_le_length h]

/-- C23: `MessageWantHeartbeat.UnmarshalBinary` returns an error exactly when
`len(b) < 4` and `MessageIAmCamera.UnmarshalBinary` exactly when `len(b) < 6`;
the error wraps `ErrInvalidMessage` and the receiver is left as it was.
Otherwise they return nil and set `Interval` to the big-endian value of
`b[0..4)`, and `Road`, `Mile`, `Limit` to the big-endian values of `b[0..2)`,
`b[2..4)`, `b[4..6)`; the bytes after the fixed width are ignored.  Neither
panics. -/
theorem fixed_width_unmarshal_spec (h : MessageWantHeartbeat) (c : MessageIAmCamera)
    (b : List Byte) :
    (((∃ err h1, h.UnmarshalBinary b = some (some err, h1)) ↔ b.length < 4) ∧
      (∀ err h1, h.UnmarshalBinary b = some (some err, h1) →
        err.IsInvalidMessage = true ∧ h1 = h) ∧
      (¬ b.length < 4 →
        h.UnmarshalBinary b = some (none, { Interval := beValue (slice b 0 4) }) ∧
        (slice b 0 4).length = 4 ∧
        ∀ extra : List Byte, h.UnmarshalBinary (b ++ extra) = h.UnmarshalBinary b) ∧
      h.UnmarshalBinary b ≠ none) ∧
    (((∃ err c1, c.UnmarshalBinary b = some (some err, c1)) ↔ b.length < 6) ∧
      (∀ err c1, c.UnmarshalBinary b = some (some err, c1) →
        err.IsInvalidMessage = true ∧ c1 = c) ∧
      (¬ b.length < 6 →
        c.UnmarshalBinary b
          = some (none,
              { Road := beValue (slice b 0 2), Mile := beValue (slice b 2 4),
                Limit := beValue (slice b 4 6) }) ∧
        (slice b 0 2).length = 2 ∧ (slice b 2 4).length = 2 ∧ (slice b 4 6).length = 2 ∧
        ∀ extra : List Byte, c.UnmarshalBinary (b ++ extra) = c.UnmarshalBinary b) ∧
      c.UnmarshalBinary b ≠ none) := by
  constructor
  · by_cases hlt : b.length < 4
    · have hs := heartbeat_unmarshal_short h b hlt
      refine ⟨⟨fun _ => hlt, fun _ => ⟨_, _, hs⟩⟩, ?_, fun hn => absurd hlt hn, ?_⟩
      · intro err h1 he
        rw [hs] at he
        simp only [Option.some.injEq, Prod.mk.injEq] at he
        obtain ⟨h2, h3⟩ := he
        subst h2 h3
        exact ⟨rfl, rfl⟩
      · rw [hs]; simp
    · have hok := heartbeat_unmarshal_ok h b (by omega)
      refine ⟨⟨?_, fun hl => absurd hl hlt⟩, ?_, fun _ => ⟨hok, ?_, ?_⟩, ?_⟩
      · rintro ⟨err, h1, he⟩
        rw [hok] at he
        simp at he
      · intro err h1 he
        rw [hok] at he
        simp at he
      · unfold slice
        rw [List.length_drop, List.length_take]
        omega
      · intro extra
        rw [heartbeat_unmarshal_ok h (b ++ extra) (by rw [List.length_append]; omega), hok,
          slice_append_left b extra 0 4 (by omega)]
      · rw [hok]; simp
  · by_cases hlt : b.length < 6
    · have hs := camera_unmarshal_short c b hlt
      refine ⟨⟨fun _ => hlt, fun _ => ⟨_, _, hs⟩⟩, ?_, fun hn => absurd hlt hn, ?_⟩
      · intro err c1 he
        rw [hs] at he
        simp only [Option.some.injEq, Prod.mk.injEq] at he
        obtain ⟨h2, h3⟩ := he
        subst h2 h3
        exact ⟨rfl, rfl⟩
      · rw [hs]; simp
    · have hok := camera_unmarshal_ok c b (by omega)
      refine ⟨⟨?_, fun hl => absurd hl hlt⟩, ?_, fun _ => ⟨hok, ?_, ?_, ?_, ?_⟩, ?_⟩
      · rintro ⟨err, c1, he⟩
        rw [hok] at he
        simp at he
      · intro err c1 he
        rw [hok] at he
        simp at he
      · unfold slice
        rw [List.length_drop, List.length_take]
        omega
      · unfold slice
        rw [List.length_drop, List.length_take]
        omega
      · unfold slice
        rw [List.length_drop, List.length_take]
        omega
      · intro extra
        rw [camera_unmarshal_ok c (b ++ extra) (by rw [List.length_append]; omega), hok,
          slice_append_left b extra 0 2 (by omega), slice_append_left b extra 2 4 (by omega),
          slice_append_left b extra 4 6 (by omega)]
      · rw [hok]; simp

/-- The cases of `TestMessageWantHeartbeat_UnmarshalBinary` and
`TestMessageIAmCamera_UnmarshalBinary`. -/
theorem fixed_width_unmarshal_examples :
    MessageWantHeartbeat.UnmarshalBinary { Interval := 0 } [0, 0, 0, 1]
      = some (none, { Interval := 1 }) ∧
    MessageWantHeartbeat.UnmarshalBinary { Interval := 0 } [0, 0, 0]
      = some (some (Error.Wrap "invalid message length" Error.ErrInvalidMessage),
          { Interval := 0 }) ∧
    MessageIAmCamera.UnmarshalBinary { Road := 0, Mile := 0, Limit := 0 }
        [0x00, 0x42, 0x00, 0x64, 0x00, 0x3c]
      = some (none, { Road := 66, Mile := 100, Limit := 60 }) ∧
    MessageIAmCamera.UnmarshalBinary { Road := 0, Mile := 0, Limit := 0 } [0, 0, 0]
      = some (some (Error.Wrap "invalid message length" Error.ErrInvalidMessage),
          { Road := 0, Mile := 0, Limit := 0 }) :=
  ⟨by decide, by decide, by decide, by decide⟩

end SpeedDaemon

namespace MobInTheMiddle

/-! ## Lemmas on Trim -/

theorem trimLeftByte_spec (s : List Byte) (c : Byte) :
    (∃ k, s = List.replicate k c ++ trimLeftByte s c) ∧ (trimLeftByte s c).head? ≠ some c := by
  induction s with
  | nil => exact ⟨⟨0, rfl⟩, by simp [trimLeftByte]⟩
  | cons b rest ih =>
    by_cases hb : b = c
    · obtain ⟨⟨k, hk⟩, hh⟩ := ih
      simp only [trimLeftByte, hb, if_true]
      refine ⟨⟨k + 1, ?_⟩, hh⟩
      rw [List.replicate_succ, List.cons_append, ← hk]
    · simp only [trimLeftByte, hb, if_false]
      refine ⟨⟨0, rfl⟩, ?_⟩
      simp only [List.head?_cons, ne_eq, Option.some.injEq]
      exact hb

theorem trimLeftByte_of_head (s : List Byte) (c : Byte) (h : s.head? ≠ some c) :
    trimLeftByte s c = s := by
  cases s with
  | nil => rfl
  | cons b rest =>
    have hb : b ≠ c := by
      intro hbc
      apply h
      rw [hbc]
      rfl
    simp only [trimLeftByte, hb, if_false]

theorem trimRightByte_spec (s : List Byte) (c : Byte) :
    (∃ l, s = trimRightByte s c ++ List.replicate l c) ∧
      (trimRightByte s c).getLast? ≠ some c := by
  obtain ⟨⟨l, hl⟩, hh⟩ := trimLeftByte_spec s.reverse c
  unfold trimRightByte
  refine ⟨⟨l, ?_⟩, ?_⟩
  · have := congrArg List.reverse hl
    rw [List.reverse_reverse, List.reverse_append, List.reverse_replicate] at this
    exact this
  · rw [List.getLast?_reverse]
    exact hh

theorem trimRightByte_concat (s : List Byte) (c : Byte) (h : s.getLast? ≠ some c) :
    trimRightByte (s ++ [c]) c = s := by
  unfold trimRightByte
  rw [List.reverse_append, List.reverse_singleton, List.singleton_append]
  simp only [trimLeftByte, if_true]
  rw [trimLeftByte_of_head _ _ (by rw [List.head?_reverse]; exact h), List.reverse_reverse]

/-- The result of `strings.Trim` is the input without its leading and trailing
occurrences of the byte. -/
theorem Trim_spec (s : List Byte) (c : Byte) :
    (∃ k l, s = List.replicate k c ++ (Trim s c ++ List.replicate l c)) ∧
      (Trim s c).head? ≠ some c ∧ (Trim s c).getLast? ≠ some c := by
  obtain ⟨⟨l, hl⟩, hlast⟩ := trimRightByte_spec s c
  obtain ⟨⟨k, hk⟩, hhead⟩ := trimLeftByte_spec (trimRightByte s c) c
  unfold Trim
  refine ⟨⟨k, l, ?_⟩, hhead, ?_⟩
  · rw [← List.append_assoc, ← hk, ← hl]
  · intro hx
    apply hlast
    rw [hk]
    cases ht : trimLeftByte (trimRightByte s c) c with
    | nil => rw [ht] at hx; simp at hx
    | cons a t =>
      rw [ht] at hx
      rw [List.getLast?_append_of_ne_nil _ (List.cons_ne_nil a t)]
      exact hx

/-- A line that neither starts nor ends with the byte, followed by the byte, is
trimmed back to the line. -/
theorem Trim_concat (s : List Byte) (c : Byte) (hh : s.head? ≠ some c)
    (hl : s.getLast? ≠ some c) : Trim (s ++ [c]) c = s := by
  unfold Trim
  rw [trimRightByte_concat s c hl, trimLeftByte_of_head s c hh]

/-! ## Lemmas on Split and Join -/

theorem Split_ne_nil (s : List Byte) (sep : Byte) : Split s sep ≠ [] := by
  cases s with
  | nil => simp [Split]
  | cons b rest =>
    by_cases hb : b = sep
    · simp [Split, hb]
    · simp only [Split, hb, if_false]
      cases Split rest sep <;> simp

theorem Join_cons_cons (b : Byte) (w : List Byte) (ws : List (List Byte)) (sep : Byte) :
    Join ((b :: w) :: ws) sep = b :: Join (w :: ws) sep := by
  cases ws with
  | nil => rfl
  | cons w2 rest => rfl

theorem Join_nil_cons (ws : List (List Byte)) (sep : Byte) (h : ws ≠ []) :
    Join ([] :: ws) sep = sep :: Join ws sep := by
  cases ws with
  | nil => exact absurd rfl h
  | cons w2 rest => rfl

/-- Joining the pieces of a split gives the string back. -/
theorem Join_Split (s : List Byte) (sep : Byte) : Join (Split s sep) sep = s := by
  induction s with
  | nil => rfl
  | cons b rest ih =>
    by_cases hb : b = sep
    · simp only [Split, hb, if_true]
      rw [Join_nil_cons _ _ (Split_ne_nil rest sep), ih]
    · simp only [Split, hb, if_false]
      cases hs : Split rest sep with
      | nil => exact absurd hs (Split_ne_nil rest sep)
      | cons w ws =>
        rw [hs] at ih
        simp only
        rw [Join_cons_cons, ih]

/-- No piece of a split holds the separator. -/
theorem Split_no_sep (s : List Byte) (sep : Byte) : ∀ w ∈ Split s sep, sep ∉ w := by
  induction s with
  | nil =>
    intro w hw
    simp only [Split, List.mem_singleton] at hw
    rw [hw]
    exact List.not_mem_nil sep
  | cons b rest ih =>
    intro w hw
    by_cases hb : b = sep
    · simp only [Split, hb, if_true, List.mem_cons] at hw
      rcases hw with hw | hw
      · rw [hw]; exact List.not_mem_nil sep
      · exact ih w hw
    · simp only [Split, hb, if_false] at hw
      cases hs : Split rest sep with
      | nil => exact absurd hs (Split_ne_nil rest sep)
      | cons w1 ws =>
        rw [hs] at hw ih
        simp only [List.mem_cons] at hw
        rcases hw with hw | hw
        · rw [hw]
          intro hmem
          rcases List.mem_cons.mp hmem with h1 | h1
          · exact hb h1.symm
          · exact ih w1 (List.mem_cons_self _ _) h1
        · exact ih w (List.mem_cons_of_mem _ hw)

theorem Split_of_no_sep (w : List Byte) (sep : Byte) (h : sep ∉ w) : Split w sep = [w] := by
  induction w with
  | nil => rfl
  | cons b rest ih =>
    have hb : b ≠ sep := fun hbs => h (by rw [hbs]; exact List.mem_cons_self _ _)
    have hr : sep ∉ rest := fun hm => h (List.mem_cons_of_mem _ hm)
    simp only [Split, hb, if_false, ih hr]

theorem Split_append_sep (w t : List Byte) (sep : Byte) (h : sep ∉ w) :
    Split (w ++ sep :: t) sep = w :: Split t sep := by
  induction w with
  | nil => simp only [List.nil_append, Split, if_true]
  | cons b rest ih =>
    have hb : b ≠ sep := fun hbs => h (by rw [hbs]; exact List.mem_cons_self _ _)
    have hr : sep ∉ rest := fun hm => h (List.mem_cons_of_mem _ hm)
    rw [List.cons_append]
    simp only [Split, hb, if_false, ih hr]

/-- Splitting the join of pieces that do not hold the separator gives the
pieces back. -/
theorem Split_Join (ws : List (List Byte)) (sep : Byte) (hne : ws ≠ [])
    (h : ∀ w ∈ ws, sep ∉ w) : Split (Join ws sep) sep = ws := by
  induction ws with
  | nil => exact absurd rfl hne
  | cons w rest ih =>
    cases rest with
    | nil => exact Split_of_no_sep w sep (h w (List.mem_cons_self _ _))
    | cons w2 rest2 =>
      have hrest : ∀ x ∈ w2 :: rest2, sep ∉ x := fun x hx => h x (List.mem_cons_of_mem _ hx)
      simp only [Join]
      rw [Split_append_sep _ _ _ (h w (List.mem_cons_self _ _)),
        ih (List.cons_ne_nil _ _) hrest]

/-! ## Lemmas on the loop of replaceAddress -/

theorem isBogusCoinAddress_iff (w : List Byte) : isBogusCoinAddress w = true ↔ Qualifying w := by
  simp only [isBogusCoinAddress, Qualifying, Bool.and_eq_true, decide_eq_true_eq, ge_iff_le,
    and_assoc]

theorem substitute_of_bogus (w : List Byte) (h : isBogusCoinAddress w = true) :
    substitute w = tonyAddress := by
  unfold substitute
  rw [if_pos ((isBogusCoinAddress_iff w).mp h)]

theorem substitute_of_not_bogus (w : List Byte) (h : ¬ isBogusCoinAddress w = true) :
    substitute w = w := by
  unfold substitute
  rw [if_neg (fun hq => h ((isBogusCoinAddress_iff w).mpr hq))]

theorem getD_at_length (pre post : List (List Byte)) (w d : List Byte) :
    (pre ++ w :: post).getD pre.length d = w := by
  induction pre with
  | nil => rfl
  | cons x pre ih => simpa using ih

theorem set_at_length (pre post : List (List Byte)) (w x : List Byte) :
    (pre ++ w :: post).set pre.length x = pre ++ x :: post := by
  induction pre with
  | nil => rfl
  | cons y pre ih => simp only [List.cons_append, List.length_cons, List.set_cons_succ, ih]

/-- The loop, started at index `len(pre)` with the words from there on still to
visit, replaces the qualifying ones among them and raises the flag when there
is one. -/
theorem replaceLoop_append (post pre : List (List Byte)) (flag : Bool) :
    replaceLoop post.length pre.length (pre ++ post) flag
      = (pre ++ post.map substitute, flag || post.any isBogusCoinAddress) := by
  induction post generalizing pre flag with
  | nil => simp [replaceLoop]
  | cons w post ih =>
    have hlen : (pre ++ [w]).length = pre.length + 1 := by simp
    by_cases hw : isBogusCoinAddress w = true
    · have hnext := ih (pre ++ [tonyAddress]) true
      have hl : (pre ++ [tonyAddress]).length = pre.length + 1 := by simp
      rw [hl, List.append_assoc, List.singleton_append] at hnext
      simp only [List.length_cons, replaceLoop, getD_at_length, hw, if_true, set_at_length,
        hnext, List.map_cons, substitute_of_bogus w hw, List.any_cons, Bool.true_or,
        Bool.or_true, List.append_assoc, List.singleton_append]
    · have hnext := ih (pre ++ [w]) flag
      rw [hlen, List.append_assoc, List.singleton_append] at hnext
      have hf : isBogusCoinAddress w = false := by
        cases h : isBogusCoinAddress w with
        | true => exact absurd h hw
        | false => rfl
      simp only [List.length_cons, replaceLoop, getD_at_length, hf, Bool.false_eq_true, if_false,
        hnext, List.map_cons, substitute_of_not_bogus w hw, List.any_cons, Bool.false_or,
        List.append_assoc, List.singleton_append]

/-- The function `replaceAddress` in terms of the pieces of its input. -/
theorem replaceAddress_eq (s : List Byte) :
    replaceAddress s
      = if (pieces s).any isBogusCoinAddress = true then
          Join ((pieces s).map substitute) space ++ [newline]
        else s := by
  have h := replaceLoop_append (pieces s) [] false
  simp only [List.length_nil, List.nil_append, Bool.false_or] at h
  unfold replaceAddress
  simp only
  unfold pieces at h ⊢
  rw [h]
  cases (List.any (Split (Trim s newline) space) isBogusCoinAddress) <;> simp

/-! ## Lemmas on the ends of a joined line -/

theorem Join_head (w : List Byte) (ws : List (List Byte)) (sep : Byte) :
    (Join (w :: ws) sep).head?.getD sep = w.head?.getD sep := by
  cases ws with
  | nil => rfl
  | cons w2 rest =>
    cases w with
    | nil => rfl
    | cons b w => rfl

theorem Join_last (w w2 : List Byte) (ws : List (List Byte)) (sep : Byte) :
    (Join (w :: w2 :: ws) sep).getLast?.getD sep = (Join (w2 :: ws) sep).getLast?.getD sep := by
  simp only [Join]
  rw [List.getLast?_append_of_ne_nil _ (List.cons_ne_nil _ _)]
  cases Join (w2 :: ws) sep with
  | nil => rfl
  | cons b t => rw [List.getLast?_cons_cons]

theorem head_getD_ne (x : List Byte) (sep c : Byte) (hsc : sep ≠ c) :
    x.head?.getD sep ≠ c ↔ x.head? ≠ some c := by
  cases x with
  | nil => simp [hsc]
  | cons b t => simp

theorem last_getD_ne (x : List Byte) (sep c : Byte) (hsc : sep ≠ c) :
    x.getLast?.getD sep ≠ c ↔ x.getLast? ≠ some c := by
  cases h : x.getLast? with
  | none => simp [hsc]
  | some b => simp

/-- A replacement of pieces that brings the byte `c` to neither end of a piece
brings it to neither end of the joined line. -/
theorem Join_map_ends (f : List Byte → List Byte) (sep c : Byte)
    (hhead : ∀ w : List Byte, w.head?.getD sep ≠ c → (f w).head?.getD sep ≠ c)
    (hlast : ∀ w : List Byte, w.getLast?.getD sep ≠ c → (f w).getLast?.getD sep ≠ c)
    (ws : List (List Byte)) (hne : ws ≠ []) :
    ((Join ws sep).head?.getD sep ≠ c → (Join (ws.map f) sep).head?.getD sep ≠ c) ∧
    ((Join ws sep).getLast?.getD sep ≠ c → (Join (ws.map f) sep).getLast?.getD sep ≠ c) := by
  constructor
  · cases ws with
    | nil => exact absurd rfl hne
    | cons w rest =>
      rw [List.map_cons, Join_head, Join_head]
      exact hhead w
  · induction ws with
    | nil => exact absurd rfl hne
    | cons w rest ih =>
      cases rest with
      | nil => exact hlast w
      | cons w2 rest2 =>
        rw [List.map_cons, List.map_cons, Join_last, Join_last, ← List.map_cons]
        exact ih (List.cons_ne_nil _ _)

theorem qualifying_tonyAddress : Qualifying tonyAddress := by decide

theorem substitute_idem (w : List Byte) : substitute (substitute w) = substitute w := by
  by_cases h : Qualifying w
  · have : substitute w = tonyAddress := by unfold substitute; rw [if_pos h]
    rw [this]
    unfold substitute
    rw [if_pos qualifying_tonyAddress]
  · have : substitute w = w := by unfold substitute; rw [if_neg h]
    rw [this, this]

theorem substitute_cases (w : List Byte) : substitute w = w ∨ substitute w = tonyAddress := by
  unfold substitute
  by_cases h : Qualifying w
  · rw [if_pos h]; exact Or.inr rfl
  · rw [if_neg h]; exact Or.inl rfl

theorem substitute_head (w : List Byte) (h : w.head?.getD space ≠ newline) :
    (substitute w).head?.getD space ≠ newline := by
  rcases substitute_cases w with hs | hs
  · rw [hs]; exact h
  · rw [hs]; decide

theorem substitute_last (w : List Byte) (h : w.getLast?.getD space ≠ newline) :
    (substitute w).getLast?.getD space ≠ newline := by
  rcases substitute_cases w with hs | hs
  · rw [hs]; exact h
  · rw [hs]; decide

theorem substitute_no_space (w : List Byte) (h : space ∉ w) : space ∉ substitute w := by
  rcases substitute_cases w with hs | hs
  · rw [hs]; exact h
  · rw [hs]; decide

/-! ## replaceAddress -/

theorem pieces_ne_nil (s : List Byte) : pieces s ≠ [] := Split_ne_nil _ _

/-- The rewritten line is trimmed and split back into the rewritten pieces. -/
theorem pieces_of_rewritten (s : List Byte) :
    pieces (Join ((pieces s).map substitute) space ++ [newline])
      = (pieces s).map substitute := by
  have hsc : space ≠ newline := by decide
  obtain ⟨_, hh, hl⟩ := Trim_spec s newline
  have hj : Join (pieces s) space = Trim s newline := Join_Split _ _
  have hends := Join_map_ends substitute space newline substitute_head substitute_last
    (pieces s) (pieces_ne_nil s)
  rw [hj] at hends
  have h1 := (head_getD_ne _ space newline hsc).mp
    (hends.1 ((head_getD_ne _ space newline hsc).mpr hh))
  have h2 := (last_getD_ne _ space newline hsc).mp
    (hends.2 ((last_getD_ne _ space newline hsc).mpr hl))
  have hne : (pieces s).map substitute ≠ [] := by
    intro h
    exact pieces_ne_nil s (List.map_eq_nil_iff.mp h)
  have hsp : ∀ w ∈ (pieces s).map substitute, space ∉ w := by
    intro w hw
    obtain ⟨w0, hw0, rfl⟩ := List.mem_map.mp hw
    exact substitute_no_space w0 (Split_no_sep _ _ w0 hw0)
  show Split (Trim (Join ((pieces s).map substitute) space ++ [newline]) newline) space = _
  rw [Trim_concat _ _ h1 h2, Split_Join _ _ hne hsp]

/-- C24: the pieces of `s` are `s` without its leading and trailing newlines,
split on single spaces.  If no piece qualifies, `replaceAddress(s) = s`;
otherwise `replaceAddress(s)` is the pieces joined by single spaces and
followed by one newline, every qualifying piece replaced by `tonyAddress` and
every other piece unchanged, in its position.  `replaceAddress` is
idempotent. -/
theorem replaceAddress_spec (s : List Byte) :
    ((∃ k l, s = List.replicate k newline ++ (Trim s newline ++ List.replicate l newline)) ∧
      (Trim s newline).head? ≠ some newline ∧ (Trim s newline).getLast? ≠ some newline) ∧
    (Join (pieces s) space = Trim s newline ∧ pieces s ≠ [] ∧ ∀ w ∈ pieces s, space ∉ w) ∧
    ((∀ w ∈ pieces s, ¬ Qualifying w) → replaceAddress s = s) ∧
    ((∃ w ∈ pieces s, Qualifying w) →
      replaceAddress s = Join ((pieces s).map substitute) space ++ [newline] ∧
      ((pieces s).map substitute).length = (pieces s).length ∧
      ∀ (i : Nat) (w : List Byte), (pieces s)[i]? = some w →
        ((pieces s).map substitute)[i]? = some (if Qualifying w then tonyAddress else w)) ∧
    replaceAddress (replaceAddress s) = replaceAddress s := by
  refine ⟨Trim_spec s newline, ⟨Join_Split _ _, pieces_ne_nil s, Split_no_sep _ _⟩, ?_, ?_, ?_⟩
  · intro hno
    rw [replaceAddress_eq]
    have : ¬ (pieces s).any isBogusCoinAddress = true := by
      rw [List.any_eq_true]
      rintro ⟨w, hw, hq⟩
      exact hno w hw ((isBogusCoinAddress_iff w).mp hq)
    rw [if_neg this]
  · rintro ⟨w, hw, hq⟩
    have : (pieces s).any isBogusCoinAddress = true :=
      List.any_eq_true.mpr ⟨w, hw, (isBogusCoinAddress_iff w).mpr hq⟩
    rw [replaceAddress_eq, if_pos this]
    refine ⟨rfl, List.length_map _ _, ?_⟩
    intro i w0 hi
    rw [List.getElem?_map, hi]
    rfl
  · by_cases hany : (pieces s).any isBogusCoinAddress = true
    · have hr : replaceAddress s = Join ((pieces s).map substitute) space ++ [newline] := by
        rw [replaceAddress_eq, if_pos hany]
      have hmap : ((pieces s).map substitute).map substitute = (pieces s).map substitute := by
        rw [List.map_map]
        apply List.map_congr_left
        intro w _
        exact substitute_idem w
      rw [hr, replaceAddress_eq, pieces_of_rewritten, hmap]
      split <;> rfl
    · have hr : replaceAddress s = s := by
        rw [replaceAddress_eq, if_neg hany]
      rw [hr, hr]

/-- The constant and two lines: one without an address, which is returned as
it is, and one whose last word is an address, which is replaced. -/
theorem replaceAddress_examples :
    tonyAddress = asciiBytes "7YWHMfk9JZe0LM0g1ZauHuiSxhI" ∧
    replaceAddress plainLine = plainLine ∧
    replaceAddress paymentLine
      = asciiBytes "Hi alice, please send payment to 7YWHMfk9JZe0LM0g1ZauHuiSxhI\n" ∧
    replaceAddress (replaceAddress paymentLine) = replaceAddress paymentLine :=
  ⟨by decide, by decide, by decide, by decide⟩

end MobInTheMiddle
